import Mathlib

/-!
Verification of the open-hypergraph isomorphism search.

This file gives a shallow embedding of the Rust sources:
  - `src/permutation.rs` (validated bijections),
  - `src/nogood.rs` (cheap necessary-condition filter),
  - `src/isomorphism.rs` (`Isomorphism`, `validate`, `apply`),
  - `src/traversal.rs` (adjacency indexes and the worklist search),
and proves the spec's testable properties about them.

Machine integers are modelled as `Nat` (no arithmetic overflows occur: indices
only). Rust's `HashMap<NodeId, (EdgeId, usize)>` is modelled as a function
`Nat → Option (Nat × Nat)` with overwrite-on-insert, which matches the map's
last-writer-wins insert semantics; lookup order is irrelevant to the map's
final contents, so nothing of the hash order is lost.  Rust's panicking index
accesses (out-of-bounds `v[i]`) are modelled with `get?`/`getD`; theorems about
executions are stated under well-formedness hypotheses (`WF`) under which no
out-of-bounds access happens, so the defaults are never exercised there.
The traversal's `while let` loop is modelled with explicit fuel; exhaustion is
the outer `none`, and is proved unreachable for well-formed inputs.
-/

deriving instance DecidableEq for Except

namespace OpenHypergraphsIso

/-- Adjacency entry of one hyperedge: the ordered source and target node
references (port index = position), as in `open_hypergraphs::lax::Hypergraph`. -/
structure Adjacency where
  sources : List Nat
  targets : List Nat
deriving DecidableEq

/-- The hypergraph structure consumed read-only (spec section 3): ordered node
labels, ordered edge labels, and one adjacency entry per hyperedge. -/
structure Hypergraph (O A : Type) where
  nodes : List O
  edges : List A
  adjacency : List Adjacency
deriving DecidableEq

/-- An open hypergraph: a hypergraph plus ordered interface node references
`sources` and `targets` (spec section 3). -/
structure OpenHypergraph (O A : Type) where
  hypergraph : Hypergraph O A
  sources : List Nat
  targets : List Nat
deriving DecidableEq

/-! ## Permutation (src/permutation.rs) -/

/-- The validation loop of `Permutation::new`: walk the values, rejecting an
out-of-range value or one whose `seen` slot is already set, marking each seen
slot as it goes. -/
def permCheckLoop (n : Nat) : List Bool → List Nat → Option (List Bool)
  | seen, [] => some seen
  | seen, value :: rest =>
    if value ≥ n then none
    else if seen.getD value false then none
    else permCheckLoop n (seen.set value true) rest

namespace Permutation

/-- `Permutation::new`: accepts the empty sequence; otherwise runs the linear
seen-array pass and finally requires every slot of `seen` to be set. -/
def new (values : List Nat) : Option (List Nat) :=
  if values.isEmpty then some values
  else
    let n := values.length
    match permCheckLoop n (List.replicate n false) values with
    | none => none
    | some seen => if seen.all (fun x => x) then some values else none

/-- `Permutation::identity`. -/
def identity (size : Nat) : List Nat := List.range size

end Permutation

/-! ## Isomorphism (src/isomorphism.rs) -/

/-- The result type: a node permutation and an edge permutation (their
underlying index vectors). -/
structure Isomorphism where
  nodes : List Nat
  edges : List Nat
deriving DecidableEq

/-- Indexing a permutation, `perm[i]` in Rust (the default is never reached in
well-formed uses; Rust panics there). -/
def permApply (p : List Nat) (x : Nat) : Nat := p.getD x 0

/-- `Isomorphism::identity`. -/
def Isomorphism.identity (num_nodes num_edges : Nat) : Isomorphism :=
  { nodes := Permutation.identity num_nodes, edges := Permutation.identity num_edges }

/-- `Isomorphism::validate`: re-derives whether `self` is a genuine isomorphism
from `f` to `g`.  The four groups of checks are exactly the source's loops:
node labels, edge labels, adjacency under the node permutation, interfaces. -/
def Isomorphism.validate [DecidableEq O] [DecidableEq A] (iso : Isomorphism)
    (f g : OpenHypergraph O A) : Bool :=
  (iso.nodes.enum.all fun ip =>
    decide (f.hypergraph.nodes.get? ip.1 = g.hypergraph.nodes.get? ip.2)) &&
  (iso.edges.enum.all fun ip =>
    decide (f.hypergraph.edges.get? ip.1 = g.hypergraph.edges.get? ip.2)) &&
  (iso.edges.enum.all fun ip =>
    let f_adjacency := f.hypergraph.adjacency.getD ip.1 ⟨[], []⟩
    let g_adjacency := g.hypergraph.adjacency.getD ip.2 ⟨[], []⟩
    decide (f_adjacency.sources.length = g_adjacency.sources.length) &&
    (f_adjacency.sources.enum.all fun pfn =>
      decide (permApply iso.nodes pfn.2 = g_adjacency.sources.getD pfn.1 0)) &&
    decide (f_adjacency.targets.length = g_adjacency.targets.length) &&
    (f_adjacency.targets.enum.all fun pfn =>
      decide (permApply iso.nodes pfn.2 = g_adjacency.targets.getD pfn.1 0))) &&
  decide (f.sources.length = g.sources.length) &&
  decide (f.targets.length = g.targets.length) &&
  (f.sources.enum.all fun pfn =>
    decide (permApply iso.nodes pfn.2 = g.sources.getD pfn.1 0)) &&
  (f.targets.enum.all fun pfn =>
    decide (permApply iso.nodes pfn.2 = g.targets.getD pfn.1 0))

/-- `Isomorphism::apply`: relabelled copy of `f` in which node `i`'s label
moves to position `nodes[i]`, edge `j`'s label to `edges[j]`, and every
adjacency or interface reference to node `i` is rewritten to `nodes[i]`. -/
def Isomorphism.apply (iso : Isomorphism) (f : OpenHypergraph O A) : OpenHypergraph O A :=
  let newNodes := iso.nodes.enum.foldl
    (fun acc ip =>
      match f.hypergraph.nodes.get? ip.1 with
      | some v => acc.set ip.2 v
      | none => acc)
    f.hypergraph.nodes
  let newEdges := iso.edges.enum.foldl
    (fun acc ip =>
      match f.hypergraph.edges.get? ip.1 with
      | some v => acc.set ip.2 v
      | none => acc)
    f.hypergraph.edges
  let newAdjacency := f.hypergraph.adjacency.map fun adj =>
    { sources := adj.sources.map (permApply iso.nodes),
      targets := adj.targets.map (permApply iso.nodes) : Adjacency }
  { hypergraph := { nodes := newNodes, edges := newEdges, adjacency := newAdjacency },
    sources := f.sources.map (permApply iso.nodes),
    targets := f.targets.map (permApply iso.nodes) }

/-! ## Nogood filter (src/nogood.rs) -/

/-- The `HashMap` of occurrence counts built from `x` (`is_sorted_equal`'s
first loop); an absent key and a zero count coincide, as both fail the
`Some(count) if *count > 0` pattern below. -/
def buildCounts [DecidableEq T] (x : List T) : T → Nat :=
  x.foldl (fun counts item => fun t => if t = item then counts item + 1 else counts t)
    (fun _ => 0)

/-- `is_sorted_equal`'s second loop: each item of the list must find a positive
count, which it decrements. -/
def consumeCounts [DecidableEq T] (counts : T → Nat) : List T → Option (T → Nat)
  | [] => some counts
  | item :: rest =>
    if counts item > 0 then
      consumeCounts (fun t => if t = item then counts item - 1 else counts t) rest
    else none

/-- `is_sorted_equal`: equal length and equal multiset of elements. -/
def is_sorted_equal [DecidableEq T] (x y : List T) : Bool :=
  if x.length ≠ y.length then false
  else (consumeCounts (buildCounts x) y).isSome

/-- Modelled from the spec: `f.source()` of the external `open_hypergraphs`
crate (spec section 6 consumes it at the boundary) is the ordered label
sequence of the sources interface — the diagram's input signature. -/
def sourceLabels (f : OpenHypergraph O A) : List (Option O) :=
  f.sources.map fun s => f.hypergraph.nodes.get? s

/-- Modelled from the spec: `f.target()`, the ordered label sequence of the
targets interface. -/
def targetLabels (f : OpenHypergraph O A) : List (Option O) :=
  f.targets.map fun s => f.hypergraph.nodes.get? s

/-- `nogood`: node-label multisets, then edge-label multisets, then the two
interface label sequences, short-circuiting on the first failure. -/
def nogood [DecidableEq O] [DecidableEq A] (f g : OpenHypergraph O A) : Option Unit :=
  if ¬ (is_sorted_equal f.hypergraph.nodes g.hypergraph.nodes = true) then none
  else if ¬ (is_sorted_equal f.hypergraph.edges g.hypergraph.edges = true) then none
  else if ¬ (sourceLabels f = sourceLabels g) then none
  else if ¬ (targetLabels f = targetLabels g) then none
  else some ()

/-! ## Adjacency index (src/traversal.rs, `Index`) -/

/-- The two adjacency maps of one hypergraph. -/
structure Index where
  of_source : Nat → Option (Nat × Nat)
  of_target : Nat → Option (Nat × Nat)

/-- `HashMap::insert`: overwrite the key's entry. -/
def insertKV (m : Nat → Option (Nat × Nat)) (k : Nat) (v : Nat × Nat) :
    Nat → Option (Nat × Nat) :=
  fun x => if x = k then some v else m x

/-- The `for (port, &node_id) in ns.iter().enumerate()` insert loop, with the
running port counter explicit: record `m[node] = (edge_id, port)` for every
`(port, node)` of `ns`. -/
def insertPortsFrom (edge_id : Nat) :
    Nat → (Nat → Option (Nat × Nat)) → List Nat → (Nat → Option (Nat × Nat))
  | _, m, [] => m
  | port, m, node_id :: rest =>
    insertPortsFrom edge_id (port + 1) (insertKV m node_id (edge_id, port)) rest

/-- Record `m[node] = (edge_id, port)` for every `(port, node)` of `ns`. -/
def insertPorts (edge_id : Nat) (m : Nat → Option (Nat × Nat)) (ns : List Nat) :
    Nat → Option (Nat × Nat) :=
  insertPortsFrom edge_id 0 m ns

/-- The `for (edge_id, adjacency) in hypergraph.adjacency.iter().enumerate()`
loop of `Index::new`, with the running edge counter explicit. -/
def Index.newFrom : Nat → Index → List Adjacency → Index
  | _, idx, [] => idx
  | edge_id, idx, adj :: rest =>
    Index.newFrom (edge_id + 1)
      { of_source := insertPorts edge_id idx.of_source adj.sources,
        of_target := insertPorts edge_id idx.of_target adj.targets } rest

/-- `Index::new`: one pass over all hyperedges' adjacency entries. -/
def Index.new (h : Hypergraph O A) : Index :=
  Index.newFrom 0 { of_source := fun _ => none, of_target := fun _ => none } h.adjacency

/-! ## Traversal search (src/traversal.rs) -/

/-- The search's failure taxonomy (`traversal::Error`). -/
inductive Error where
  | Nogood : Error
  | NonMonogamous : Nat → Error
  | Unsatisfiable : Nat → Error
  | InvalidNodeMatch : Nat → Nat → Error
  | InvalidEdgeMatch : Nat → Nat → Error
  | UnpairedNode : Nat → Error
  | UnpairedEdge : Nat → Error
  | InvalidNodePermutation : Error
  | InvalidEdgePermutation : Error
deriving DecidableEq

/-- `SearchState::new`: build both indexes, then fail with `NonMonogamous` on
the first sources-interface node of `f` present in `f`'s `of_target` index, or
the first targets-interface node present in `of_source`. -/
def SearchState.new (f g : OpenHypergraph O A) : Except Error (Index × Index) :=
  let f_index := Index.new f.hypergraph
  let g_index := Index.new g.hypergraph
  match f.sources.find? (fun s => (f_index.of_target s).isSome) with
  | some s => Except.error (Error.NonMonogamous s)
  | none =>
    match f.targets.find? (fun t => (f_index.of_source t).isSome) with
    | some t => Except.error (Error.NonMonogamous t)
    | none => Except.ok (f_index, g_index)

/-- `SearchState::same_labels`: the label sequences of two node-reference
lists coincide. -/
def same_labels [DecidableEq O] (f g : OpenHypergraph O A) (f_nodes g_nodes : List Nat) : Bool :=
  decide ((f_nodes.map fun s => f.hypergraph.nodes.get? s) =
    (g_nodes.map fun s => g.hypergraph.nodes.get? s))

/-- `SearchState::ensure_same_type`: equal edge labels, and equal source and
target label sequences. -/
def ensure_same_type [DecidableEq O] [DecidableEq A] (f g : OpenHypergraph O A)
    (f_edge_id g_edge_id : Nat) : Except Error Unit :=
  if ¬ (f.hypergraph.edges.get? f_edge_id = g.hypergraph.edges.get? g_edge_id) then
    Except.error (Error.InvalidEdgeMatch f_edge_id g_edge_id)
  else
    let f_adjacency := f.hypergraph.adjacency.getD f_edge_id ⟨[], []⟩
    let g_adjacency := g.hypergraph.adjacency.getD g_edge_id ⟨[], []⟩
    if ¬ (same_labels f g f_adjacency.sources g_adjacency.sources = true) ∨
        ¬ (same_labels f g f_adjacency.targets g_adjacency.targets = true) then
      Except.error (Error.InvalidEdgeMatch f_edge_id g_edge_id)
    else Except.ok ()

/-- `SearchState::neighbourhoods`: concatenated sources-then-targets node lists
of the two edges. -/
def neighbourhoods (f g : OpenHypergraph O A) (f_edge_id g_edge_id : Nat) :
    List Nat × List Nat :=
  let f_adjacency := f.hypergraph.adjacency.getD f_edge_id ⟨[], []⟩
  let g_adjacency := g.hypergraph.adjacency.getD g_edge_id ⟨[], []⟩
  (f_adjacency.sources ++ f_adjacency.targets,
   g_adjacency.sources ++ g_adjacency.targets)

/-- The push loop of `identify_edges`: for each pair, if the `f`-side node is
unvisited, push the pair and mark it visited (the stack's head is its top, so
pushing conses). -/
def pushPairs (stack : List (Nat × Nat)) (visited : List Bool)
    (pairs : List (Nat × Nat)) : List (Nat × Nat) × List Bool :=
  pairs.foldl
    (fun sv xy => if sv.2.getD xy.1 false then sv else (xy :: sv.1, sv.2.set xy.1 true))
    (stack, visited)

/-- `SearchState::identify_edges`: check type compatibility, then push the
positionally paired neighbourhoods. -/
def identify_edges [DecidableEq O] [DecidableEq A] (f g : OpenHypergraph O A)
    (stack : List (Nat × Nat)) (visited : List Bool) (f_edge_id g_edge_id : Nat) :
    Except Error (List (Nat × Nat) × List Bool) :=
  match ensure_same_type f g f_edge_id g_edge_id with
  | Except.error e => Except.error e
  | Except.ok _ =>
    let nbhd := neighbourhoods f g f_edge_id g_edge_id
    Except.ok (pushPairs stack visited (nbhd.1.zip nbhd.2))

/-- One direction of the body of the main loop (the source's `for` over
`[(of_source, of_source), (of_target, of_target)]`): if `f_node` has an index
entry, `g_node` must have one at the same port; identify the edges and record
the edge mapping. -/
def processDirection [DecidableEq O] [DecidableEq A] (f g : OpenHypergraph O A)
    (fEntry gEntry : Option (Nat × Nat)) (f_node_id g_node_id : Nat)
    (stack : List (Nat × Nat)) (visited : List Bool) (em : List (Option Nat)) :
    Except Error (List (Nat × Nat) × List Bool × List (Option Nat)) :=
  match fEntry with
  | none => Except.ok (stack, visited, em)
  | some fe =>
    match gEntry with
    | none => Except.error (Error.InvalidNodeMatch f_node_id g_node_id)
    | some ge =>
      if ¬ (fe.2 = ge.2) then Except.error (Error.InvalidNodeMatch f_node_id g_node_id)
      else
        match identify_edges f g stack visited fe.1 ge.1 with
        | Except.error e => Except.error e
        | Except.ok sv => Except.ok (sv.1, sv.2, em.set fe.1 (some ge.1))

/-- The main `while let Some((f_node_id, g_node_id)) = stack.pop()` loop, with
explicit fuel (`none` = fuel exhausted; proved unreachable for well-formed
inputs).  Per iteration: node-label check, the two directions, then record
`node_mapping[f_node_id] = g_node_id`. -/
def searchLoop [DecidableEq O] [DecidableEq A] (f g : OpenHypergraph O A)
    (fIdx gIdx : Index) :
    Nat → List (Nat × Nat) → List Bool → List (Option Nat) → List (Option Nat) →
    Option (Except Error (List (Option Nat) × List (Option Nat)))
  | _, [], _, nm, em => some (Except.ok (nm, em))
  | 0, _ :: _, _, _, _ => none
  | fuel + 1, fngn :: stack, visited, nm, em =>
    if ¬ (f.hypergraph.nodes.get? fngn.1 = g.hypergraph.nodes.get? fngn.2) then
      some (Except.error (Error.InvalidNodeMatch fngn.1 fngn.2))
    else
      match processDirection f g (fIdx.of_source fngn.1) (gIdx.of_source fngn.2)
          fngn.1 fngn.2 stack visited em with
      | Except.error e => some (Except.error e)
      | Except.ok svem =>
        match processDirection f g (fIdx.of_target fngn.1) (gIdx.of_target fngn.2)
            fngn.1 fngn.2 svem.1 svem.2.1 svem.2.2 with
        | Except.error e => some (Except.error e)
        | Except.ok svem2 =>
          searchLoop f g fIdx gIdx fuel svem2.1 svem2.2.1
            (nm.set fngn.1 (some fngn.2)) svem2.2.2

/-- Conversion of a completed mapping array, failing at the first unset entry
with the given error at that index (the `collect::<Result<_, _>>` step). -/
def unwrapMapping (mkErr : Nat → Error) : Nat → List (Option Nat) → Except Error (List Nat)
  | _, [] => Except.ok []
  | i, none :: _ => Except.error (mkErr i)
  | i, some x :: rest =>
    match unwrapMapping mkErr (i + 1) rest with
    | Except.error e => Except.error e
    | Except.ok xs => Except.ok (x :: xs)

/-- The initial worklist: `f`'s sources zipped with `g`'s, then `f`'s targets
zipped with `g`'s, pushed in order onto a stack popped from the back — so as a
head-popped list it is the reverse of that concatenation. -/
def initialStack (f g : OpenHypergraph O A) : List (Nat × Nat) :=
  ((f.sources.zip g.sources) ++ (f.targets.zip g.targets)).reverse

/-- The initial visited set: every node of `f`'s interfaces is marked. -/
def initialVisited (f : OpenHypergraph O A) : List Bool :=
  (f.sources ++ f.targets).foldl (fun v x => v.set x true)
    (List.replicate f.hypergraph.nodes.length false)

/-- `SearchState::find_isomorphism`: nogood check, then the worklist loop, then
completeness of both mappings. -/
def stateFind [DecidableEq O] [DecidableEq A] (f g : OpenHypergraph O A)
    (fIdx gIdx : Index) : Option (Except Error (List Nat × List Nat)) :=
  match nogood f g with
  | none => some (Except.error Error.Nogood)
  | some _ =>
    let n := f.hypergraph.nodes.length
    let e := f.hypergraph.edges.length
    match searchLoop f g fIdx gIdx (n + (initialStack f g).length + 1) (initialStack f g)
        (initialVisited f) (List.replicate n none) (List.replicate e none) with
    | none => none
    | some (Except.error err) => some (Except.error err)
    | some (Except.ok nmem) =>
      match unwrapMapping Error.UnpairedNode 0 nmem.1 with
      | Except.error err => some (Except.error err)
      | Except.ok node_mapping =>
        match unwrapMapping Error.UnpairedEdge 0 nmem.2 with
        | Except.error err => some (Except.error err)
        | Except.ok edge_mapping => some (Except.ok (node_mapping, edge_mapping))

/-- `find_isomorphism` (the public entry point): construct the search state
(monogamicity check), run the search, convert both mappings to permutations. -/
def find_isomorphism [DecidableEq O] [DecidableEq A] (f g : OpenHypergraph O A) :
    Option (Except Error Isomorphism) :=
  match SearchState.new f g with
  | Except.error e => some (Except.error e)
  | Except.ok idxs =>
    match stateFind f g idxs.1 idxs.2 with
    | none => none
    | some (Except.error e) => some (Except.error e)
    | some (Except.ok nmem) =>
      match Permutation.new nmem.1 with
      | none => some (Except.error Error.InvalidNodePermutation)
      | some nodes =>
        match Permutation.new nmem.2 with
        | none => some (Except.error Error.InvalidEdgePermutation)
        | some edges => some (Except.ok { nodes := nodes, edges := edges })

end OpenHypergraphsIso

namespace OpenHypergraphsIso

/-! ## List helper lemmas -/

theorem getD_replicate_false (n j : Nat) : (List.replicate n false).getD j false = false := by
  simp only [List.getD_eq_getElem?_getD, List.getElem?_replicate]
  split <;> rfl

theorem getD_set_self {l : List Bool} {v : Nat} (h : v < l.length) :
    (l.set v true).getD v false = true := by
  simp [List.getD_eq_getElem?_getD, List.getElem?_set_self, h]

theorem getD_set_ne {l : List Bool} {v j : Nat} (h : j ≠ v) :
    (l.set v true).getD j false = l.getD j false := by
  simp [List.getD_eq_getElem?_getD, List.getElem?_set_ne (Ne.symm h)]

theorem mem_of_nodup_length {l : List Nat} (hr : ∀ v ∈ l, v < l.length) (hn : l.Nodup) :
    ∀ k < l.length, k ∈ l := by
  intro k hk
  have hsub : l.toFinset ⊆ Finset.range l.length := by
    intro x hx
    exact Finset.mem_range.2 (hr x (List.mem_toFinset.1 hx))
  have hcard : l.toFinset.card = l.length := by
    simp [List.card_toFinset, hn.dedup]
  have heq : l.toFinset = Finset.range l.length :=
    Finset.eq_of_subset_of_card_le hsub (by simp [hcard])
  have : k ∈ l.toFinset := heq ▸ Finset.mem_range.2 hk
  exact List.mem_toFinset.1 this

/-! ## Permutation.new characterization (claim C5) -/

theorem permCheckLoop_isSome {n : Nat} :
    ∀ (l : List Nat) (seen : List Bool), seen.length = n →
      ((permCheckLoop n seen l).isSome = true ↔
        ((∀ v ∈ l, v < n ∧ seen.getD v false = false) ∧ l.Nodup)) := by
  intro l
  induction l with
  | nil => intro seen _; simp [permCheckLoop]
  | cons v rest ih =>
    intro seen hlen
    by_cases hv : v ≥ n
    · simp only [permCheckLoop, if_pos hv, Option.isSome_none]
      constructor
      · intro h; cases h
      · rintro ⟨h, -⟩
        exact absurd (h v (List.mem_cons_self v rest)).1 (Nat.not_lt.2 hv)
    · have hvlt : v < n := Nat.lt_of_not_le hv
      by_cases hs : seen.getD v false = true
      · simp only [permCheckLoop, if_neg hv, if_pos hs, Option.isSome_none]
        constructor
        · intro h; cases h
        · rintro ⟨h, -⟩
          have := (h v (List.mem_cons_self v rest)).2
          rw [this] at hs; cases hs
      · have hs' : seen.getD v false = false := by
          cases h : seen.getD v false
          · rfl
          · exact absurd h hs
        simp only [permCheckLoop, if_neg hv, if_neg hs]
        rw [ih (seen.set v true) (by simp [hlen])]
        constructor
        · rintro ⟨h1, h2⟩
          refine ⟨?_, ?_⟩
          · intro w hw
            rcases List.mem_cons.1 hw with rfl | hw'
            · exact ⟨hvlt, hs'⟩
            · rcases h1 w hw' with ⟨hwn, hwseen⟩
              refine ⟨hwn, ?_⟩
              by_cases hwv : w = v
              · subst hwv
                rw [getD_set_self (hlen ▸ hvlt)] at hwseen; cases hwseen
              · rwa [getD_set_ne hwv] at hwseen
          · refine List.nodup_cons.2 ⟨?_, h2⟩
            intro hmem
            have := (h1 v hmem).2
            rw [getD_set_self (hlen ▸ hvlt)] at this; cases this
        · rintro ⟨h1, h2⟩
          have hvnot : v ∉ rest := (List.nodup_cons.1 h2).1
          refine ⟨?_, (List.nodup_cons.1 h2).2⟩
          intro w hw
          have hww := h1 w (List.mem_cons_of_mem v hw)
          refine ⟨hww.1, ?_⟩
          have hwv : w ≠ v := fun h => hvnot (h ▸ hw)
          rw [getD_set_ne hwv]
          exact hww.2

theorem permCheckLoop_final {n : Nat} :
    ∀ (l : List Nat) (seen seen2 : List Bool), seen.length = n →
      permCheckLoop n seen l = some seen2 →
      seen2.length = n ∧
        ∀ j, seen2.getD j false = (seen.getD j false || decide (j ∈ l)) := by
  intro l
  induction l with
  | nil =>
    intro seen seen2 hlen heq
    simp only [permCheckLoop] at heq
    cases heq
    exact ⟨hlen, by simp⟩
  | cons v rest ih =>
    intro seen seen2 hlen heq
    simp only [permCheckLoop] at heq
    by_cases hv : v ≥ n
    · rw [if_pos hv] at heq; cases heq
    · rw [if_neg hv] at heq
      have hvlt : v < n := Nat.lt_of_not_le hv
      by_cases hs : seen.getD v false = true
      · rw [if_pos hs] at heq; cases heq
      · rw [if_neg hs] at heq
        have hs' : seen.getD v false = false := by
          cases h : seen.getD v false
          · rfl
          · exact absurd h hs
        rcases ih (seen.set v true) seen2 (by simp [hlen]) heq with ⟨hl2, hget⟩
        refine ⟨hl2, ?_⟩
        intro j
        rw [hget j]
        by_cases hjv : j = v
        · subst hjv
          rw [getD_set_self (hlen ▸ hvlt), hs']
          simp
        · rw [getD_set_ne hjv]
          simp only [List.mem_cons]
          cases h : seen.getD j false
          · simp only [Bool.false_or]
            congr 1
            simp [hjv]
          · simp

theorem Permutation.new_isSome_iff (values : List Nat) :
    (Permutation.new values).isSome = true ↔
      ((∀ v ∈ values, v < values.length) ∧ values.Nodup) := by
  by_cases hemp : values.isEmpty
  · rw [List.isEmpty_iff] at hemp
    subst hemp
    simp [Permutation.new]
  · simp only [Permutation.new, if_neg hemp]
    constructor
    · intro h
      cases hloop : permCheckLoop values.length (List.replicate values.length false) values with
      | none => rw [hloop] at h; cases h
      | some seen =>
        have := (@permCheckLoop_isSome values.length values
          (List.replicate values.length false) (by simp)).1 (by rw [hloop]; rfl)
        exact ⟨fun v hv => (this.1 v hv).1, this.2⟩
    · rintro ⟨hr, hn⟩
      have hloop : (permCheckLoop values.length (List.replicate values.length false)
          values).isSome = true := by
        rw [@permCheckLoop_isSome values.length values
          (List.replicate values.length false) (by simp)]
        exact ⟨fun v hv => ⟨hr v hv, getD_replicate_false _ _⟩, hn⟩
      cases hl : permCheckLoop values.length (List.replicate values.length false) values with
      | none => rw [hl] at hloop; cases hloop
      | some seen =>
        rcases permCheckLoop_final values (List.replicate values.length false) seen
          (by simp) hl with ⟨hlen2, hget⟩
        have hall : seen.all (fun x => x) = true := by
          rw [List.all_eq_true]
          intro b hb
          rcases List.mem_iff_get.1 hb with ⟨i, hi⟩
          have : seen.getD i.1 false = b := by
            simp [List.getD_eq_getElem?_getD, List.getElem?_eq_getElem i.2, ← hi,
              List.get_eq_getElem]
          rw [hget i.1, getD_replicate_false] at this
          have hmem : i.1 ∈ values :=
            mem_of_nodup_length hr hn i.1 (hlen2 ▸ i.2)
          simp [hmem] at this
          simp [← this]
        simp [hall]

theorem Permutation.new_eq_some {values r : List Nat}
    (h : Permutation.new values = some r) : r = values := by
  by_cases hemp : values.isEmpty
  · simp only [Permutation.new, if_pos hemp] at h; cases h; rfl
  · simp only [Permutation.new, if_neg hemp] at h
    cases hl : permCheckLoop values.length (List.replicate values.length false) values with
    | none => rw [hl] at h; cases h
    | some seen =>
      rw [hl] at h
      have h2 : (if (seen.all fun x => x) = true then some values else none) = some r := h
      by_cases hall : (seen.all fun x => x) = true
      · rw [if_pos hall] at h2; cases h2; rfl
      · rw [if_neg hall] at h2; cases h2

theorem Permutation.new_eq_some_self {values : List Nat}
    (hr : ∀ v ∈ values, v < values.length) (hn : values.Nodup) :
    Permutation.new values = some values := by
  have h := (Permutation.new_isSome_iff values).2 ⟨hr, hn⟩
  cases heq : Permutation.new values with
  | none => rw [heq] at h; cases h
  | some r => rw [Permutation.new_eq_some heq]

theorem nodup_range_iff_count (values : List Nat) :
    ((∀ v ∈ values, v < values.length) ∧ values.Nodup) ↔
      ((∀ v ∈ values, v < values.length) ∧
        ∀ k < values.length, values.count k = 1) := by
  constructor
  · rintro ⟨hr, hn⟩
    refine ⟨hr, ?_⟩
    intro k hk
    have h1 : values.count k ≤ 1 := List.nodup_iff_count_le_one.1 hn k
    have h2 : 1 ≤ values.count k :=
      List.one_le_count_iff.2 (mem_of_nodup_length hr hn k hk)
    omega
  · rintro ⟨hr, hc⟩
    refine ⟨hr, ?_⟩
    rw [List.nodup_iff_count_le_one]
    intro a
    by_cases ha : a < values.length
    · rw [hc a ha]
    · have : a ∉ values := fun hmem => ha (hr a hmem)
      rw [List.count_eq_zero.2 this]
      omega

/-- C5: `Permutation::new` succeeds exactly when the input sequence is a
bijection on `{0..len-1}` — every value in range and every value of that range
hit exactly once; the listed concrete sequences behave as stated, and the
empty sequence yields the (valid) empty bijection. -/
theorem c5_permutation_new_bijection :
    (∀ values : List Nat,
      (Permutation.new values).isSome = true ↔
        ((∀ v ∈ values, v < values.length) ∧
          ∀ k < values.length, values.count k = 1)) ∧
    (Permutation.new [0, 1, 2]).isSome = true ∧
    (Permutation.new [2, 0, 1]).isSome = true ∧
    Permutation.new [] = some [] ∧
    (Permutation.new [0, 2]).isSome = false ∧
    (Permutation.new [0, 1, 1]).isSome = false ∧
    (Permutation.new [1, 2, 3]).isSome = false := by
  refine ⟨?_, by decide, by decide, by decide, by decide, by decide, by decide⟩
  intro values
  rw [Permutation.new_isSome_iff]
  exact nodup_range_iff_count values

end OpenHypergraphsIso

namespace OpenHypergraphsIso

/-! ## Claim C9: validate compares no counts -/

/-- A one-node open hypergraph with empty interfaces. -/
def oneNodeF : OpenHypergraph Nat Nat :=
  { hypergraph := { nodes := [0], edges := [], adjacency := [] },
    sources := [], targets := [] }

/-- A two-node open hypergraph with empty interfaces whose first node carries
the same label as `oneNodeF`'s. -/
def twoNodeG : OpenHypergraph Nat Nat :=
  { hypergraph := { nodes := [0, 99], edges := [], adjacency := [] },
    sources := [], targets := [] }

/-- C9: `validate` never compares `f`'s node or edge counts with `g`'s: with
`g` strictly bigger on nodes, an `Isomorphism` sized to `f` still validates,
although no size-`f` node sequence can be a bijection onto `g`'s node range. -/
theorem c9_validate_ignores_counts :
    (Isomorphism.mk [0] []).validate oneNodeF twoNodeG = true ∧
    oneNodeF.hypergraph.nodes.length < twoNodeG.hypergraph.nodes.length ∧
    (Isomorphism.mk [0] []).nodes.length = oneNodeF.hypergraph.nodes.length ∧
    (Isomorphism.mk [0] []).edges.length = oneNodeF.hypergraph.edges.length ∧
    (∀ l : List Nat, l.length = oneNodeF.hypergraph.nodes.length →
      ¬ (∀ k < twoNodeG.hypergraph.nodes.length, l.count k = 1)) := by
  refine ⟨by decide, by decide, by decide, by decide, ?_⟩
  intro l hl hc
  match l, hl with
  | [x], _ =>
    have h0 := hc 0 (by decide)
    have h1 := hc 1 (by decide)
    rw [List.count_singleton'] at h0 h1
    by_cases hx : x = 0
    · subst hx; simp at h1
    · simp [hx] at h0

/-! ## Claim C10: direction asymmetry of the adjacency checks -/

/-- An `f` whose single edge touches no node; its node 0 is both interface
source and target, so it has no index entry in either direction. -/
def fLoneEdge : OpenHypergraph Nat Nat :=
  { hypergraph := { nodes := [0], edges := [5], adjacency := [⟨[], []⟩] },
    sources := [0], targets := [0] }

/-- A `g` matching `fLoneEdge` on every nogood signature but whose node 0 is a
source of its edge: the pair `(0, 0)` is processed without any check in the
source direction. -/
def gLoneEdge : OpenHypergraph Nat Nat :=
  { hypergraph := { nodes := [0], edges := [5], adjacency := [⟨[0], []⟩] },
    sources := [0], targets := [0] }

/-- An `f` with node 2 repeated in its interfaces and not adjacent to any
edge. -/
def fFreeNode : OpenHypergraph Nat Nat :=
  { hypergraph := { nodes := [0, 0, 0], edges := [7], adjacency := [⟨[0], [1]⟩] },
    sources := [0, 2], targets := [1, 2] }

/-- A `g` pairing `fFreeNode`'s node 2 with node 0 (a source of an edge) in
the sources interface: the run completes all node slots but collapses nodes 0
and 2 onto 0, failing only at the final bijection conversion. -/
def gCollapse : OpenHypergraph Nat Nat :=
  { hypergraph := { nodes := [0, 0, 0], edges := [7], adjacency := [⟨[0], [1]⟩] },
    sources := [0, 0], targets := [1, 2] }

/-- A `g` pairing `fFreeNode`'s node 2 with node 0 (a source of an edge) in
the targets interface: a later pop overwrites the slot and the run returns
`Ok` — with a result that does not validate. -/
def gOverwrite : OpenHypergraph Nat Nat :=
  { hypergraph := { nodes := [0, 0, 0], edges := [7], adjacency := [⟨[0], [1]⟩] },
    sources := [0, 2], targets := [1, 0] }

/-- C10: when a popped pair `(fn, gn)` is processed, adjacency is checked only
in the directions in which `fn` has an index entry: with no `f`-side entry the
step succeeds and changes nothing whatever `gn`'s entry is.  On concrete
inputs such a pair is processed successfully and the discrepancy surfaces only
later — as `UnpairedEdge`, as a failed final bijection conversion
(`InvalidNodePermutation`), or not at all (`Ok` with a non-validating
result). -/
theorem c10_direction_asymmetry :
    (∀ (O A : Type) (dO : DecidableEq O) (dA : DecidableEq A) (f g : OpenHypergraph O A)
      (gEntry : Option (Nat × Nat)) (fn gn : Nat) (stack : List (Nat × Nat))
      (visited : List Bool) (em : List (Option Nat)),
      processDirection f g none gEntry fn gn stack visited em =
        Except.ok (stack, visited, em)) ∧
    find_isomorphism fLoneEdge gLoneEdge = some (Except.error (Error.UnpairedEdge 0)) ∧
    find_isomorphism fFreeNode gCollapse = some (Except.error Error.InvalidNodePermutation) ∧
    find_isomorphism fFreeNode gOverwrite = some (Except.ok ⟨[0, 1, 2], [0]⟩) ∧
    (Isomorphism.mk [0, 1, 2] [0]).validate fFreeNode gOverwrite = false := by
  refine ⟨?_, by decide, by decide, by decide, by decide⟩
  intro O A dO dA f g gEntry fn gn stack visited em
  rfl

end OpenHypergraphsIso

namespace OpenHypergraphsIso

/-! ## Well-formedness and claim C2: validate against the spec's conditions -/

/-- Well-formedness of an open hypergraph: one adjacency entry per hyperedge
and every node reference in range.  The `open_hypergraphs` library structures
maintain this; on inputs violating it the Rust code panics on an index, so all
behavioural theorems assume it. -/
def WF (h : OpenHypergraph O A) : Prop :=
  h.hypergraph.adjacency.length = h.hypergraph.edges.length ∧
  (∀ adj ∈ h.hypergraph.adjacency,
    (∀ x ∈ adj.sources, x < h.hypergraph.nodes.length) ∧
    (∀ x ∈ adj.targets, x < h.hypergraph.nodes.length)) ∧
  (∀ x ∈ h.sources, x < h.hypergraph.nodes.length) ∧
  (∀ x ∈ h.targets, x < h.hypergraph.nodes.length)

instance (h : OpenHypergraph O A) : Decidable (WF h) := by
  unfold WF; infer_instance

theorem list_getD_lt {α : Type _} {l : List α} {i : Nat} (d : α) (h : i < l.length) :
    l.getD i d = l.get ⟨i, h⟩ := by
  simp [List.getD_eq_getElem?_getD, List.getElem?_eq_getElem h, List.get_eq_getElem]

theorem permApply_lt {p : List Nat} {i : Nat} (h : i < p.length) :
    permApply p i = p.get ⟨i, h⟩ :=
  list_getD_lt 0 h

theorem enum_forall_iff {α : Type _} (l : List α) (p : Nat × α → Prop) :
    (∀ ip ∈ l.enum, p ip) ↔ ∀ (i : Nat) (h : i < l.length), p (i, l.get ⟨i, h⟩) := by
  constructor
  · intro hall i h
    exact hall (i, l.get ⟨i, h⟩) (List.mem_enum_iff_get?.2 (List.get?_eq_get h))
  · intro hall ip hip
    have h2 := List.mem_enum_iff_get?.1 hip
    rcases List.get?_eq_some.1 h2 with ⟨hlt, hget⟩
    have := hall ip.1 hlt
    rwa [hget] at this

/-- The spec's four validate conditions (section 4.5), stated independently of
the code: (1) node labels preserved under the node permutation, (2) edge
labels preserved under the edge permutation, (3) each edge's source and target
lists map positionally, under the node permutation, to exactly the lists of
its image edge, (4) the interfaces map positionally to each other. -/
def ValidateSpec (iso : Isomorphism) (f g : OpenHypergraph O A) : Prop :=
  (∀ i < f.hypergraph.nodes.length,
    f.hypergraph.nodes.get? i = g.hypergraph.nodes.get? (permApply iso.nodes i)) ∧
  (∀ j < f.hypergraph.edges.length,
    f.hypergraph.edges.get? j = g.hypergraph.edges.get? (permApply iso.edges j)) ∧
  (∀ (j : Nat) (fadj : Adjacency), f.hypergraph.adjacency.get? j = some fadj →
    g.hypergraph.adjacency.get? (permApply iso.edges j) =
      some ⟨fadj.sources.map (permApply iso.nodes),
            fadj.targets.map (permApply iso.nodes)⟩) ∧
  g.sources = f.sources.map (permApply iso.nodes) ∧
  g.targets = f.targets.map (permApply iso.nodes)

theorem Adjacency.ext_of {a : Adjacency} {s t : List Nat}
    (hs : a.sources = s) (ht : a.targets = t) : a = ⟨s, t⟩ := by
  cases a; cases hs; cases ht; rfl

theorem validate_iff_spec [DecidableEq O] [DecidableEq A] (iso : Isomorphism)
    (f g : OpenHypergraph O A) (hwf : WF f) (hwg : WF g)
    (hn : iso.nodes.length = f.hypergraph.nodes.length)
    (he : iso.edges.length = f.hypergraph.edges.length) :
    iso.validate f g = true ↔ ValidateSpec iso f g := by
  rw [Isomorphism.validate]
  simp only [Bool.and_eq_true, List.all_eq_true, decide_eq_true_eq]
  rw [enum_forall_iff, enum_forall_iff, enum_forall_iff, enum_forall_iff, enum_forall_iff]
  dsimp only
  constructor
  · rintro ⟨⟨⟨⟨⟨⟨h1, h2⟩, h3⟩, h4⟩, h5⟩, h6⟩, h7⟩
    refine ⟨?_, ?_, ?_, ?_, ?_⟩
    · intro i hi
      have hi2 : i < iso.nodes.length := hn ▸ hi
      have := h1 i hi2
      rwa [permApply_lt hi2]
    · intro j hj
      have hj2 : j < iso.edges.length := he ▸ hj
      have := h2 j hj2
      rwa [permApply_lt hj2]
    · intro j fadj hfadj
      rcases List.get?_eq_some.1 hfadj with ⟨hjadj, hfget⟩
      have hj : j < f.hypergraph.edges.length := hwf.1 ▸ hjadj
      have hj2 : j < iso.edges.length := he ▸ hj
      have hlab := h2 j hj2
      rw [permApply_lt hj2]
      have hgsome : g.hypergraph.edges.get? (iso.edges.get ⟨j, hj2⟩) =
          some (f.hypergraph.edges.get ⟨j, hj⟩) := by
        rw [← hlab]; exact List.get?_eq_get hj
      rcases List.get?_eq_some.1 hgsome with ⟨hglt, -⟩
      have hgadj : iso.edges.get ⟨j, hj2⟩ < g.hypergraph.adjacency.length :=
        hwg.1.symm ▸ hglt
      have h3j := h3 j hj2
      rw [list_getD_lt ⟨[], []⟩ hjadj, hfget, list_getD_lt ⟨[], []⟩ hgadj] at h3j
      rcases h3j with ⟨⟨⟨hsl, hsp⟩, htl⟩, htp⟩
      rw [List.get?_eq_get hgadj]
      refine congrArg some (Adjacency.ext_of ?_ ?_)
      · apply List.ext_get?
        intro p
        by_cases hp : p < fadj.sources.length
        · have hmem : (p, fadj.sources.get ⟨p, hp⟩) ∈ fadj.sources.enum :=
            List.mem_enum_iff_get?.2 (List.get?_eq_get hp)
          have hthis := hsp _ hmem
          dsimp only at hthis
          rw [list_getD_lt 0 (hsl ▸ hp)] at hthis
          rw [List.get?_eq_get (hsl ▸ hp), ← hthis, List.get?_map, List.get?_eq_get hp]
          rfl
        · rw [List.get?_eq_none.2 (by omega),
            List.get?_eq_none.2 (by rw [List.length_map]; omega)]
      · apply List.ext_get?
        intro p
        by_cases hp : p < fadj.targets.length
        · have hmem : (p, fadj.targets.get ⟨p, hp⟩) ∈ fadj.targets.enum :=
            List.mem_enum_iff_get?.2 (List.get?_eq_get hp)
          have hthis := htp _ hmem
          dsimp only at hthis
          rw [list_getD_lt 0 (htl ▸ hp)] at hthis
          rw [List.get?_eq_get (htl ▸ hp), ← hthis, List.get?_map, List.get?_eq_get hp]
          rfl
        · rw [List.get?_eq_none.2 (by omega),
            List.get?_eq_none.2 (by rw [List.length_map]; omega)]
    · apply List.ext_get?
      intro p
      by_cases hp : p < f.sources.length
      · have hthis := h6 p hp
        rw [list_getD_lt 0 (h4 ▸ hp)] at hthis
        rw [List.get?_eq_get (h4 ▸ hp), ← hthis, List.get?_map, List.get?_eq_get hp]
        rfl
      · rw [List.get?_eq_none.2 (by omega),
          List.get?_eq_none.2 (by rw [List.length_map]; omega)]
    · apply List.ext_get?
      intro p
      by_cases hp : p < f.targets.length
      · have hthis := h7 p hp
        rw [list_getD_lt 0 (h5 ▸ hp)] at hthis
        rw [List.get?_eq_get (h5 ▸ hp), ← hthis, List.get?_map, List.get?_eq_get hp]
        rfl
      · rw [List.get?_eq_none.2 (by omega),
          List.get?_eq_none.2 (by rw [List.length_map]; omega)]
  · rintro ⟨s1, s2, s3, s4, s5⟩
    refine ⟨⟨⟨⟨⟨⟨?_, ?_⟩, ?_⟩, ?_⟩, ?_⟩, ?_⟩, ?_⟩
    · intro i hi
      have := s1 i (hn ▸ hi)
      rwa [permApply_lt hi] at this
    · intro j hj
      have := s2 j (he ▸ hj)
      rwa [permApply_lt hj] at this
    · intro j hj
      have hjf : j < f.hypergraph.edges.length := he ▸ hj
      have hjadj : j < f.hypergraph.adjacency.length := hwf.1.symm ▸ hjf
      have h3j := s3 j _ (List.get?_eq_get hjadj)
      rw [permApply_lt hj] at h3j
      rcases List.get?_eq_some.1 h3j with ⟨hglt, hgget⟩
      rw [list_getD_lt ⟨[], []⟩ hjadj, list_getD_lt ⟨[], []⟩ hglt, hgget]
      refine ⟨⟨⟨by simp, ?_⟩, by simp⟩, ?_⟩
      · intro x hx
        rcases List.get?_eq_some.1 (List.mem_enum_iff_get?.1 hx) with ⟨hp, hpeq⟩
        rw [list_getD_lt 0 (by rw [List.length_map]; exact hp)]
        simp only [List.get_eq_getElem, List.getElem_map]
        simp only [List.get_eq_getElem] at hpeq
        rw [hpeq]
      · intro x hx
        rcases List.get?_eq_some.1 (List.mem_enum_iff_get?.1 hx) with ⟨hp, hpeq⟩
        rw [list_getD_lt 0 (by rw [List.length_map]; exact hp)]
        simp only [List.get_eq_getElem, List.getElem_map]
        simp only [List.get_eq_getElem] at hpeq
        rw [hpeq]
    · rw [s4, List.length_map]
    · rw [s5, List.length_map]
    · intro p hp
      rw [s4, list_getD_lt 0 (by rw [List.length_map]; exact hp)]
      simp only [List.get_eq_getElem, List.getElem_map]
    · intro p hp
      rw [s5, list_getD_lt 0 (by rw [List.length_map]; exact hp)]
      simp only [List.get_eq_getElem, List.getElem_map]

end OpenHypergraphsIso

namespace OpenHypergraphsIso

/-- Two distinctly labelled isolated nodes with empty interfaces. -/
def twoLabelH : OpenHypergraph Nat Nat :=
  { hypergraph := { nodes := [10, 20], edges := [], adjacency := [] },
    sources := [], targets := [] }

/-- C2: for well-formed hypergraphs and an `Isomorphism` sized to `f`,
`validate` returns true exactly when the spec's four conditions
(`ValidateSpec`) all hold; and a hand-built `Isomorphism` whose node
permutation is a well-formed bijection but swaps the images of two nodes with
different labels fails `validate`. -/
theorem c2_validate_characterization :
    (∀ (O A : Type) [DecidableEq O] [DecidableEq A] (iso : Isomorphism)
      (f g : OpenHypergraph O A), WF f → WF g →
      iso.nodes.length = f.hypergraph.nodes.length →
      iso.edges.length = f.hypergraph.edges.length →
      (iso.validate f g = true ↔ ValidateSpec iso f g)) ∧
    (Permutation.new [1, 0]).isSome = true ∧
    (Isomorphism.mk [1, 0] []).validate twoLabelH twoLabelH = false := by
  refine ⟨?_, by decide, by decide⟩
  intro O A dO dA iso f g hwf hwg hn he
  exact validate_iff_spec iso f g hwf hwg hn he

/-! ## Claim C3: nogood soundness -/

theorem buildCounts_eq_count [DecidableEq T] (x : List T) (t : T) :
    buildCounts x t = x.count t := by
  suffices h : ∀ (m : T → Nat),
      (x.foldl (fun counts item => fun s => if s = item then counts item + 1 else counts s) m) t
        = m t + x.count t by
    have := h (fun _ => 0)
    simpa [buildCounts] using this
  induction x with
  | nil => intro m; simp
  | cons a l ih =>
    intro m
    rw [List.foldl_cons, ih]
    by_cases hta : t = a
    · subst hta
      simp [List.count_cons]
      omega
    · simp [hta, List.count_cons, Ne.symm hta]

theorem consumeCounts_isSome [DecidableEq T] (y : List T) :
    ∀ counts : T → Nat,
      ((consumeCounts counts y).isSome = true ↔ ∀ t, y.count t ≤ counts t) := by
  induction y with
  | nil =>
    intro counts
    simp [consumeCounts]
  | cons item rest ih =>
    intro counts
    rw [consumeCounts]
    by_cases hpos : counts item > 0
    · rw [if_pos hpos, ih]
      constructor
      · intro h t
        by_cases ht : t = item
        · subst ht
          have := h t
          simp [List.count_cons] at this ⊢
          omega
        · have := h t
          simp [ht] at this
          simp [List.count_cons, ht]
          omega
      · intro h t
        by_cases ht : t = item
        · subst ht
          have := h t
          simp [List.count_cons] at this
          simp
          omega
        · have := h t
          simp [List.count_cons, ht] at this
          simpa [ht] using this
    · rw [if_neg hpos]
      simp only [Option.isSome_none, Bool.false_eq_true, false_iff]
      intro h
      have := h item
      simp [List.count_cons] at this
      omega

theorem is_sorted_equal_iff_perm [DecidableEq T] (x y : List T) :
    is_sorted_equal x y = true ↔ List.Perm x y := by
  rw [is_sorted_equal]
  by_cases hlen : x.length = y.length
  · rw [if_neg (by simp [hlen]), consumeCounts_isSome]
    constructor
    · intro h
      have hle : (y : Multiset T) ≤ (x : Multiset T) := by
        rw [Multiset.le_iff_count]
        intro a
        have := h a
        rw [buildCounts_eq_count] at this
        simpa using this
      have hcard : Multiset.card (x : Multiset T) ≤ Multiset.card (y : Multiset T) := by
        simp [hlen]
      have := Multiset.eq_of_le_of_card_le hle hcard
      exact (Multiset.coe_eq_coe.1 this).symm
    · intro h t
      rw [buildCounts_eq_count]
      rw [h.count_eq]
  · rw [if_pos (by simp [hlen])]
    simp only [Bool.false_eq_true, false_iff]
    intro h
    exact hlen h.length_eq

theorem nogood_eq_some_iff [DecidableEq O] [DecidableEq A] (f g : OpenHypergraph O A) :
    nogood f g = some () ↔
      (List.Perm f.hypergraph.nodes g.hypergraph.nodes ∧
       List.Perm f.hypergraph.edges g.hypergraph.edges ∧
       sourceLabels f = sourceLabels g ∧ targetLabels f = targetLabels g) := by
  rw [nogood]
  by_cases h1 : is_sorted_equal f.hypergraph.nodes g.hypergraph.nodes = true
  · rw [if_neg (by simp [h1])]
    by_cases h2 : is_sorted_equal f.hypergraph.edges g.hypergraph.edges = true
    · rw [if_neg (by simp [h2])]
      by_cases h3 : sourceLabels f = sourceLabels g
      · rw [if_neg (by simp [h3])]
        by_cases h4 : targetLabels f = targetLabels g
        · rw [if_neg (by simp [h4])]
          simp [h3, h4, (is_sorted_equal_iff_perm _ _).1 h1, (is_sorted_equal_iff_perm _ _).1 h2]
        · rw [if_pos (by simp [h4])]
          simp [h4]
      · rw [if_pos (by simp [h3])]
        simp [h3]
    · rw [if_pos (by simp [h2])]
      have hnp : ¬ List.Perm f.hypergraph.edges g.hypergraph.edges :=
        fun hp => h2 ((is_sorted_equal_iff_perm _ _).2 hp)
      simp [hnp]
  · rw [if_pos (by simp [h1])]
    have hnp : ¬ List.Perm f.hypergraph.nodes g.hypergraph.nodes :=
      fun hp => h1 ((is_sorted_equal_iff_perm _ _).2 hp)
    simp [hnp]

end OpenHypergraphsIso

namespace OpenHypergraphsIso

theorem stateFind_nogood [DecidableEq O] [DecidableEq A] (f g : OpenHypergraph O A)
    (fIdx gIdx : Index) (h : nogood f g = none) :
    stateFind f g fIdx gIdx = some (Except.error Error.Nogood) := by
  unfold stateFind
  rw [h]

/-- C3: two open hypergraphs whose node-label multisets, edge-label multisets,
or ordered interface label sequences differ are rejected by the nogood filter
(`none`), and `find_isomorphism` never returns `Ok` for such a pair (every
check failing alone suffices: the filter short-circuits). -/
theorem c3_nogood_soundness (O A : Type) [DecidableEq O] [DecidableEq A]
    (f g : OpenHypergraph O A)
    (hdiff : ¬ List.Perm f.hypergraph.nodes g.hypergraph.nodes ∨
      ¬ List.Perm f.hypergraph.edges g.hypergraph.edges ∨
      sourceLabels f ≠ sourceLabels g ∨ targetLabels f ≠ targetLabels g) :
    nogood f g = none ∧
      ∀ iso : Isomorphism, find_isomorphism f g ≠ some (Except.ok iso) := by
  have hng : nogood f g = none := by
    cases hv : nogood f g with
    | none => rfl
    | some u =>
      cases u
      have hs := (nogood_eq_some_iff f g).1 hv
      rcases hdiff with h | h | h | h
      · exact absurd hs.1 h
      · exact absurd hs.2.1 h
      · exact absurd hs.2.2.1 h
      · exact absurd hs.2.2.2 h
  refine ⟨hng, ?_⟩
  intro iso hok
  unfold find_isomorphism at hok
  split at hok
  · simp at hok
  · rw [stateFind_nogood f g _ _ hng] at hok
    simp at hok

/-- A one-node hypergraph labelled 0. -/
def labelZeroH : OpenHypergraph Nat Nat := ⟨⟨[0], [], []⟩, [], []⟩

/-- A one-node hypergraph labelled 1. -/
def labelOneH : OpenHypergraph Nat Nat := ⟨⟨[1], [], []⟩, [], []⟩

/-- Witness for C3 at concrete inputs with differing node-label multisets. -/
theorem c3_nogood_soundness_witness :
    nogood labelZeroH labelOneH = none ∧
      ∀ iso : Isomorphism, find_isomorphism labelZeroH labelOneH ≠ some (Except.ok iso) :=
  c3_nogood_soundness Nat Nat labelZeroH labelOneH (Or.inl (by decide))

end OpenHypergraphsIso

namespace OpenHypergraphsIso

/-! ## Claim C8: the behaviour of apply -/

/-- The label-redistribution fold of `Isomorphism::apply`: process `(i, p_i)`
pairs, writing `orig[i]` at position `p_i`. -/
def writeFold {α : Type _} (orig : List α) (L : List (Nat × Nat)) (start : List α) : List α :=
  L.foldl (fun acc ip =>
    match orig.get? ip.1 with
    | some v => acc.set ip.2 v
    | none => acc) start

theorem apply_nodes_eq_writeFold (iso : Isomorphism) (f : OpenHypergraph O A) :
    (iso.apply f).hypergraph.nodes =
      writeFold f.hypergraph.nodes iso.nodes.enum f.hypergraph.nodes := rfl

theorem apply_edges_eq_writeFold (iso : Isomorphism) (f : OpenHypergraph O A) :
    (iso.apply f).hypergraph.edges =
      writeFold f.hypergraph.edges iso.edges.enum f.hypergraph.edges := rfl

theorem writeFold_length {α : Type _} (orig : List α) :
    ∀ (L : List (Nat × Nat)) (start : List α),
      (writeFold orig L start).length = start.length := by
  intro L
  induction L with
  | nil => intro start; rfl
  | cons pr L ih =>
    intro start
    rw [writeFold, List.foldl_cons, ← writeFold, ih]
    cases horig : orig.get? pr.1 with
    | none => rfl
    | some v => simp

theorem writeFold_get?_of_not_mem {α : Type _} (orig : List α) :
    ∀ (L : List (Nat × Nat)) (start : List α) (q : Nat),
      (∀ pr ∈ L, pr.2 ≠ q) → (writeFold orig L start).get? q = start.get? q := by
  intro L
  induction L with
  | nil => intro start q _; rfl
  | cons pr L ih =>
    intro start q hq
    rw [writeFold, List.foldl_cons, ← writeFold, ih _ q
      (fun pr2 h2 => hq pr2 (List.mem_cons_of_mem pr h2))]
    cases horig : orig.get? pr.1 with
    | none => rfl
    | some v => exact List.get?_set_ne v start (hq pr (List.mem_cons_self pr L))

theorem writeFold_get?_of_mem {α : Type _} (orig : List α) :
    ∀ (L : List (Nat × Nat)) (start : List α) (i q : Nat) (vi : α),
      start.length = orig.length →
      (i, q) ∈ L → (∀ pr ∈ L, pr.2 = q → pr.1 = i) →
      orig.get? i = some vi → q < orig.length →
      (writeFold orig L start).get? q = some vi := by
  intro L
  induction L with
  | nil =>
    intro start i q vi _ hmem
    cases hmem
  | cons pr L ih =>
    intro start i q vi hst hmem huniq hvi hq
    rw [writeFold, List.foldl_cons, ← writeFold]
    by_cases hq2 : pr.2 = q
    · have hi2 : pr.1 = i := huniq pr (List.mem_cons_self pr L) hq2
      have hpr : pr = (i, q) := by
        cases pr
        simp only at hi2 hq2
        rw [hi2, hq2]
      subst hpr
      rw [hvi]
      by_cases hmem2 : (i, q) ∈ L
      · exact ih (start.set q vi) i q vi (by simp [hst]) hmem2
          (fun pr2 h2 hq3 => huniq pr2 (List.mem_cons_of_mem _ h2) hq3) hvi hq
      · have hnone : ∀ pr2 ∈ L, pr2.2 ≠ q := by
          intro pr2 h2 hq3
          have hi3 := huniq pr2 (List.mem_cons_of_mem _ h2) hq3
          apply hmem2
          have : pr2 = (i, q) := by
            cases pr2
            simp only at hi3 hq3
            rw [hi3, hq3]
          rwa [this] at h2
        rw [writeFold_get?_of_not_mem orig L _ q hnone]
        exact List.get?_set_eq_of_lt vi (by rw [hst]; exact hq)
    · have hmem2 : (i, q) ∈ L := by
        rcases List.mem_cons.1 hmem with heq | h2
        · rw [← heq] at hq2
          simp at hq2
        · exact h2
      have hlen2 : (match orig.get? pr.1 with
          | some v => start.set pr.2 v
          | none => start).length = orig.length := by
        cases horig : orig.get? pr.1 with
        | none => exact hst
        | some v => simp [hst]
      exact ih _ i q vi hlen2 hmem2
        (fun pr2 h2 hq3 => huniq pr2 (List.mem_cons_of_mem _ h2) hq3) hvi hq

theorem enum_snd_uniq {p : List Nat} (hn : p.Nodup) {i : Nat} (hi : i < p.length) :
    ∀ pr ∈ p.enum, pr.2 = p.get ⟨i, hi⟩ → pr.1 = i := by
  intro pr hpr heq
  rcases List.get?_eq_some.1 (List.mem_enum_iff_get?.1 hpr) with ⟨hlt, hget⟩
  have : p.get ⟨pr.1, hlt⟩ = p.get ⟨i, hi⟩ := by rw [hget, heq]
  have := (List.Nodup.get_inj_iff hn).1 this
  exact congrArg Fin.val this

theorem apply_nodes_get? (iso : Isomorphism) (f : OpenHypergraph O A)
    (hlen : iso.nodes.length = f.hypergraph.nodes.length)
    (hr : ∀ v ∈ iso.nodes, v < f.hypergraph.nodes.length) (hn : iso.nodes.Nodup)
    {i : Nat} (hi : i < f.hypergraph.nodes.length) :
    (iso.apply f).hypergraph.nodes.get? (permApply iso.nodes i) =
      f.hypergraph.nodes.get? i := by
  rw [apply_nodes_eq_writeFold]
  have hi2 : i < iso.nodes.length := hlen ▸ hi
  rw [permApply_lt hi2, List.get?_eq_get hi]
  exact writeFold_get?_of_mem f.hypergraph.nodes iso.nodes.enum f.hypergraph.nodes i
    (iso.nodes.get ⟨i, hi2⟩) (f.hypergraph.nodes.get ⟨i, hi⟩) rfl
    (List.mem_enum_iff_get?.2 (List.get?_eq_get hi2))
    (enum_snd_uniq hn hi2) (List.get?_eq_get hi) (hr _ (iso.nodes.get_mem _ _))

theorem apply_edges_get? (iso : Isomorphism) (f : OpenHypergraph O A)
    (hlen : iso.edges.length = f.hypergraph.edges.length)
    (hr : ∀ v ∈ iso.edges, v < f.hypergraph.edges.length) (hn : iso.edges.Nodup)
    {j : Nat} (hj : j < f.hypergraph.edges.length) :
    (iso.apply f).hypergraph.edges.get? (permApply iso.edges j) =
      f.hypergraph.edges.get? j := by
  rw [apply_edges_eq_writeFold]
  have hj2 : j < iso.edges.length := hlen ▸ hj
  rw [permApply_lt hj2, List.get?_eq_get hj]
  exact writeFold_get?_of_mem f.hypergraph.edges iso.edges.enum f.hypergraph.edges j
    (iso.edges.get ⟨j, hj2⟩) (f.hypergraph.edges.get ⟨j, hj⟩) rfl
    (List.mem_enum_iff_get?.2 (List.get?_eq_get hj2))
    (enum_snd_uniq hn hj2) (List.get?_eq_get hj) (hr _ (iso.edges.get_mem _ _))

/-- C8: for an `Isomorphism` whose permutations are sized to a well-formed
`f`, `apply` (a total function — it never fails) produces the hypergraph in
which node `i`'s label sits at position `nodes[i]`, edge `j`'s label at
position `edges[j]`, and every adjacency and interface node reference `i` is
rewritten to `nodes[i]`, with all list lengths and orders unchanged. -/
theorem c8_apply_characterization (O A : Type) (iso : Isomorphism)
    (f : OpenHypergraph O A) (hwf : WF f)
    (hn : iso.nodes.length = f.hypergraph.nodes.length)
    (he : iso.edges.length = f.hypergraph.edges.length)
    (hrn : ∀ v ∈ iso.nodes, v < f.hypergraph.nodes.length) (hnn : iso.nodes.Nodup)
    (hre : ∀ v ∈ iso.edges, v < f.hypergraph.edges.length) (hne : iso.edges.Nodup) :
    (iso.apply f).hypergraph.nodes.length = f.hypergraph.nodes.length ∧
    (iso.apply f).hypergraph.edges.length = f.hypergraph.edges.length ∧
    (∀ i < f.hypergraph.nodes.length,
      (iso.apply f).hypergraph.nodes.get? (permApply iso.nodes i) =
        f.hypergraph.nodes.get? i) ∧
    (∀ j < f.hypergraph.edges.length,
      (iso.apply f).hypergraph.edges.get? (permApply iso.edges j) =
        f.hypergraph.edges.get? j) ∧
    (iso.apply f).hypergraph.adjacency = f.hypergraph.adjacency.map
      (fun adj => ⟨adj.sources.map (permApply iso.nodes),
                   adj.targets.map (permApply iso.nodes)⟩) ∧
    (iso.apply f).sources = f.sources.map (permApply iso.nodes) ∧
    (iso.apply f).targets = f.targets.map (permApply iso.nodes) := by
  refine ⟨?_, ?_, ?_, ?_, rfl, rfl, rfl⟩
  · rw [apply_nodes_eq_writeFold, writeFold_length]
  · rw [apply_edges_eq_writeFold, writeFold_length]
  · intro i hi
    exact apply_nodes_get? iso f hn hrn hnn hi
  · intro j hj
    exact apply_edges_get? iso f he hre hne hj

/-- Witness for C8: a cyclic node permutation applied to the one-edge
hypergraph `h1 : 0 → 1`. -/
def edgeH : OpenHypergraph Nat Nat :=
  { hypergraph := { nodes := [0, 1], edges := [0], adjacency := [⟨[0], [1]⟩] },
    sources := [0], targets := [1] }

theorem c8_apply_characterization_witness :
    (Isomorphism.mk [1, 0] [0]).apply edgeH =
      ⟨⟨[1, 0], [0], [⟨[1], [0]⟩]⟩, [1], [0]⟩ ∧
    ((Isomorphism.mk [1, 0] [0]).apply edgeH).hypergraph.nodes.length =
      edgeH.hypergraph.nodes.length ∧
    (∀ i < edgeH.hypergraph.nodes.length,
      ((Isomorphism.mk [1, 0] [0]).apply edgeH).hypergraph.nodes.get?
        (permApply [1, 0] i) = edgeH.hypergraph.nodes.get? i) := by
  have h := c8_apply_characterization Nat Nat (Isomorphism.mk [1, 0] [0]) edgeH
    (by decide) (by decide) (by decide) (by decide) (by decide) (by decide) (by decide)
  exact ⟨by decide, h.1, h.2.2.1⟩

end OpenHypergraphsIso

namespace OpenHypergraphsIso

/-! ## Index characterization -/

theorem insertPortsFrom_not_mem {edge_id x : Nat} :
    ∀ (ns : List Nat) (port : Nat) (m : Nat → Option (Nat × Nat)), x ∉ ns →
      insertPortsFrom edge_id port m ns x = m x := by
  intro ns
  induction ns with
  | nil => intro port m _; rfl
  | cons a rest ih =>
    intro port m hx
    rw [insertPortsFrom, ih _ _ (fun h => hx (List.mem_cons_of_mem a h)), insertKV]
    exact if_neg (fun h => hx (by rw [h]; exact List.mem_cons_self a rest))

theorem insertPortsFrom_mem {edge_id x : Nat} :
    ∀ (ns : List Nat) (port : Nat) (m : Nat → Option (Nat × Nat)), x ∈ ns →
      ∃ p, insertPortsFrom edge_id port m ns x = some (edge_id, port + p) ∧
        ns.get? p = some x := by
  intro ns
  induction ns with
  | nil => intro port m hx; cases hx
  | cons a rest ih =>
    intro port m hx
    by_cases hrest : x ∈ rest
    · rcases ih (port + 1) (insertKV m a (edge_id, port)) hrest with ⟨p, hp, hg⟩
      refine ⟨p + 1, ?_, by simpa using hg⟩
      rw [insertPortsFrom, hp]
      have : port + 1 + p = port + (p + 1) := by omega
      rw [this]
    · have hxa : x = a := by
        rcases List.mem_cons.1 hx with h | h
        · exact h
        · exact absurd h hrest
      refine ⟨0, ?_, by rw [hxa]; rfl⟩
      rw [insertPortsFrom, insertPortsFrom_not_mem rest _ _ hrest, insertKV, if_pos hxa]
      rfl

theorem insertPortsFrom_unique {edge_id x : Nat} :
    ∀ (ns : List Nat) (port p : Nat) (m : Nat → Option (Nat × Nat)),
      ns.count x ≤ 1 → ns.get? p = some x →
      insertPortsFrom edge_id port m ns x = some (edge_id, port + p) := by
  intro ns
  induction ns with
  | nil => intro port p m _ hg; cases hg
  | cons a rest ih =>
    intro port p m hc hg
    cases p with
    | zero =>
      have hxa : a = x := by
        have : (a :: rest).get? 0 = some a := rfl
        rw [this] at hg
        exact Option.some.inj hg
      subst hxa
      have hcr : a ∉ rest := by
        intro hmem
        have h1 : 1 ≤ rest.count a := List.one_le_count_iff.2 hmem
        rw [List.count_cons_self] at hc
        omega
      rw [insertPortsFrom, insertPortsFrom_not_mem rest _ _ hcr, insertKV, if_pos rfl]
      rfl
    | succ p2 =>
      have hg2 : rest.get? p2 = some x := hg
      have hmem : x ∈ rest := List.get?_mem hg2
      have hxa : x ≠ a := by
        intro heq
        subst heq
        have h1 : 1 ≤ rest.count x := List.one_le_count_iff.2 hmem
        rw [List.count_cons_self] at hc
        omega
      have hcr : rest.count x ≤ 1 := by
        rw [List.count_cons_of_ne hxa] at hc
        exact hc
      rw [insertPortsFrom]
      have := ih (port + 1) p2 (insertKV m a (edge_id, port)) hcr hg2
      rw [this]
      have harith : port + 1 + p2 = port + (p2 + 1) := by omega
      rw [harith]

theorem newFrom_of_source_not_mem {x : Nat} :
    ∀ (adjs : List Adjacency) (e0 : Nat) (idx : Index),
      (∀ adj ∈ adjs, x ∉ adj.sources) →
      (Index.newFrom e0 idx adjs).of_source x = idx.of_source x := by
  intro adjs
  induction adjs with
  | nil => intro e0 idx _; rfl
  | cons adj rest ih =>
    intro e0 idx h
    rw [Index.newFrom, ih (e0 + 1) _ (fun a ha => h a (List.mem_cons_of_mem adj ha))]
    exact insertPortsFrom_not_mem adj.sources 0 idx.of_source (h adj (List.mem_cons_self adj rest))

theorem newFrom_of_target_not_mem {x : Nat} :
    ∀ (adjs : List Adjacency) (e0 : Nat) (idx : Index),
      (∀ adj ∈ adjs, x ∉ adj.targets) →
      (Index.newFrom e0 idx adjs).of_target x = idx.of_target x := by
  intro adjs
  induction adjs with
  | nil => intro e0 idx _; rfl
  | cons adj rest ih =>
    intro e0 idx h
    rw [Index.newFrom, ih (e0 + 1) _ (fun a ha => h a (List.mem_cons_of_mem adj ha))]
    exact insertPortsFrom_not_mem adj.targets 0 idx.of_target (h adj (List.mem_cons_self adj rest))

theorem newFrom_of_source_isSome {x : Nat} :
    ∀ (adjs : List Adjacency) (e0 : Nat) (idx : Index),
      ((idx.of_source x).isSome = true ∨ ∃ adj ∈ adjs, x ∈ adj.sources) →
      ((Index.newFrom e0 idx adjs).of_source x).isSome = true := by
  intro adjs
  induction adjs with
  | nil =>
    intro e0 idx h
    rcases h with h | ⟨adj, hmem, -⟩
    · exact h
    · cases hmem
  | cons adj rest ih =>
    intro e0 idx h
    rw [Index.newFrom]
    apply ih (e0 + 1)
    by_cases hmem : x ∈ adj.sources
    · left
      rcases @insertPortsFrom_mem e0 x adj.sources 0 idx.of_source hmem with ⟨p, hp, -⟩
      show (insertPortsFrom e0 0 idx.of_source adj.sources x).isSome = true
      rw [hp]
      rfl
    · rcases h with h | ⟨adj2, hmem2, hx2⟩
      · left
        show (insertPortsFrom e0 0 idx.of_source adj.sources x).isSome = true
        rwa [insertPortsFrom_not_mem adj.sources 0 idx.of_source hmem]
      · rcases List.mem_cons.1 hmem2 with heq | hmem3
        · exact absurd (heq ▸ hx2) hmem
        · exact Or.inr ⟨adj2, hmem3, hx2⟩

theorem newFrom_of_target_isSome {x : Nat} :
    ∀ (adjs : List Adjacency) (e0 : Nat) (idx : Index),
      ((idx.of_target x).isSome = true ∨ ∃ adj ∈ adjs, x ∈ adj.targets) →
      ((Index.newFrom e0 idx adjs).of_target x).isSome = true := by
  intro adjs
  induction adjs with
  | nil =>
    intro e0 idx h
    rcases h with h | ⟨adj, hmem, -⟩
    · exact h
    · cases hmem
  | cons adj rest ih =>
    intro e0 idx h
    rw [Index.newFrom]
    apply ih (e0 + 1)
    by_cases hmem : x ∈ adj.targets
    · left
      rcases @insertPortsFrom_mem e0 x adj.targets 0 idx.of_target hmem with ⟨p, hp, -⟩
      show (insertPortsFrom e0 0 idx.of_target adj.targets x).isSome = true
      rw [hp]
      rfl
    · rcases h with h | ⟨adj2, hmem2, hx2⟩
      · left
        show (insertPortsFrom e0 0 idx.of_target adj.targets x).isSome = true
        rwa [insertPortsFrom_not_mem adj.targets 0 idx.of_target hmem]
      · rcases List.mem_cons.1 hmem2 with heq | hmem3
        · exact absurd (heq ▸ hx2) hmem
        · exact Or.inr ⟨adj2, hmem3, hx2⟩

theorem newFrom_of_source_some {x e p : Nat} :
    ∀ (adjs : List Adjacency) (e0 : Nat) (idx : Index),
      (Index.newFrom e0 idx adjs).of_source x = some (e, p) →
      idx.of_source x = some (e, p) ∨
        ∃ k, ∃ hk : k < adjs.length,
          e = e0 + k ∧ (adjs.get ⟨k, hk⟩).sources.get? p = some x := by
  intro adjs
  induction adjs with
  | nil => intro e0 idx h; exact Or.inl h
  | cons adj rest ih =>
    intro e0 idx h
    rw [Index.newFrom] at h
    rcases ih (e0 + 1) _ h with hbase0 | ⟨k, hk, he, hg⟩
    · have hbase : insertPortsFrom e0 0 idx.of_source adj.sources x = some (e, p) := hbase0
      by_cases hmem : x ∈ adj.sources
      · rcases @insertPortsFrom_mem e0 x adj.sources 0 idx.of_source hmem with ⟨p2, hp2, hg2⟩
        rw [hp2] at hbase
        have hpair := Option.some.inj hbase
        have he2 : e0 = e := congrArg Prod.fst hpair
        have hp3 : 0 + p2 = p := congrArg Prod.snd hpair
        refine Or.inr ⟨0, by simp, by omega, ?_⟩
        have : p2 = p := by omega
        rw [← this]
        exact hg2
      · rw [insertPortsFrom_not_mem adj.sources 0 idx.of_source hmem] at hbase
        exact Or.inl hbase
    · refine Or.inr ⟨k + 1, by simpa using hk, by omega, ?_⟩
      exact hg

theorem newFrom_of_target_some {x e p : Nat} :
    ∀ (adjs : List Adjacency) (e0 : Nat) (idx : Index),
      (Index.newFrom e0 idx adjs).of_target x = some (e, p) →
      idx.of_target x = some (e, p) ∨
        ∃ k, ∃ hk : k < adjs.length,
          e = e0 + k ∧ (adjs.get ⟨k, hk⟩).targets.get? p = some x := by
  intro adjs
  induction adjs with
  | nil => intro e0 idx h; exact Or.inl h
  | cons adj rest ih =>
    intro e0 idx h
    rw [Index.newFrom] at h
    rcases ih (e0 + 1) _ h with hbase0 | ⟨k, hk, he, hg⟩
    · have hbase : insertPortsFrom e0 0 idx.of_target adj.targets x = some (e, p) := hbase0
      by_cases hmem : x ∈ adj.targets
      · rcases @insertPortsFrom_mem e0 x adj.targets 0 idx.of_target hmem with ⟨p2, hp2, hg2⟩
        rw [hp2] at hbase
        have hpair := Option.some.inj hbase
        have he2 : e0 = e := congrArg Prod.fst hpair
        have hp3 : 0 + p2 = p := congrArg Prod.snd hpair
        refine Or.inr ⟨0, by simp, by omega, ?_⟩
        have : p2 = p := by omega
        rw [← this]
        exact hg2
      · rw [insertPortsFrom_not_mem adj.targets 0 idx.of_target hmem] at hbase
        exact Or.inl hbase
    · refine Or.inr ⟨k + 1, by simpa using hk, by omega, ?_⟩
      exact hg

end OpenHypergraphsIso

namespace OpenHypergraphsIso

/-! ## Error classification of the search stages -/

theorem ensure_same_type_error [DecidableEq O] [DecidableEq A] {f g : OpenHypergraph O A}
    {a b : Nat} {err : Error} (h : ensure_same_type f g a b = Except.error err) :
    err = Error.InvalidEdgeMatch a b := by
  unfold ensure_same_type at h
  split at h
  · exact (Except.error.inj h).symm
  · dsimp only at h
    split at h
    · exact (Except.error.inj h).symm
    · cases h

theorem identify_edges_error [DecidableEq O] [DecidableEq A] {f g : OpenHypergraph O A}
    {stack : List (Nat × Nat)} {visited : List Bool} {a b : Nat} {err : Error}
    (h : identify_edges f g stack visited a b = Except.error err) :
    err = Error.InvalidEdgeMatch a b := by
  unfold identify_edges at h
  split at h
  · rename_i e he
    cases h
    exact ensure_same_type_error he
  · cases h

theorem processDirection_error [DecidableEq O] [DecidableEq A] {f g : OpenHypergraph O A}
    {fE gE : Option (Nat × Nat)} {fn gn : Nat} {stack : List (Nat × Nat)}
    {visited : List Bool} {em : List (Option Nat)} {err : Error}
    (h : processDirection f g fE gE fn gn stack visited em = Except.error err) :
    (∃ a b, err = Error.InvalidNodeMatch a b) ∨ ∃ a b, err = Error.InvalidEdgeMatch a b := by
  unfold processDirection at h
  cases fE with
  | none => cases h
  | some fe =>
    cases gE with
    | none =>
      cases h
      exact Or.inl ⟨fn, gn, rfl⟩
    | some ge =>
      have h2 : (if ¬ fe.2 = ge.2 then Except.error (Error.InvalidNodeMatch fn gn)
          else match identify_edges f g stack visited fe.1 ge.1 with
            | Except.error e => Except.error e
            | Except.ok sv => Except.ok (sv.1, sv.2, em.set fe.1 (some ge.1))) =
          Except.error err := h
      by_cases hfe : fe.2 = ge.2
      · rw [if_neg (not_not_intro hfe)] at h2
        split at h2
        · rename_i e he
          cases h2
          exact Or.inr ⟨fe.1, ge.1, identify_edges_error he⟩
        · cases h2
      · rw [if_pos hfe] at h2
        cases h2
        exact Or.inl ⟨fn, gn, rfl⟩

theorem searchLoop_error [DecidableEq O] [DecidableEq A] {f g : OpenHypergraph O A}
    {fIdx gIdx : Index} :
    ∀ (fuel : Nat) (stack : List (Nat × Nat)) (visited : List Bool)
      (nm em : List (Option Nat)) (err : Error),
      searchLoop f g fIdx gIdx fuel stack visited nm em = some (Except.error err) →
      (∃ a b, err = Error.InvalidNodeMatch a b) ∨
        ∃ a b, err = Error.InvalidEdgeMatch a b := by
  intro fuel
  induction fuel with
  | zero =>
    intro stack visited nm em err h
    cases stack with
    | nil => cases h
    | cons a s => cases h
  | succ fuel ih =>
    intro stack visited nm em err h
    cases stack with
    | nil => cases h
    | cons fngn stack2 =>
      simp only [searchLoop] at h
      by_cases hlab : f.hypergraph.nodes.get? fngn.1 = g.hypergraph.nodes.get? fngn.2
      case neg =>
        rw [if_pos hlab] at h
        cases h
        exact Or.inl ⟨fngn.1, fngn.2, rfl⟩
      case pos =>
        rw [if_neg (not_not_intro hlab)] at h
        split at h
        · rename_i e h1
          cases h
          exact processDirection_error h1
        · rename_i svem h1
          split at h
          · rename_i e h2
            cases h
            exact processDirection_error h2
          · exact ih _ _ _ _ _ h

theorem unwrapMapping_error {mkErr : Nat → Error} :
    ∀ (i : Nat) (l : List (Option Nat)) {err : Error},
      unwrapMapping mkErr i l = Except.error err → ∃ j, err = mkErr j := by
  intro i l
  induction l generalizing i with
  | nil => intro err h; cases h
  | cons o rest ih =>
    intro err h
    cases o with
    | none =>
      simp only [unwrapMapping] at h
      cases h
      exact ⟨i, rfl⟩
    | some x =>
      simp only [unwrapMapping] at h
      split at h
      · rename_i e he
        cases h
        exact ih (i + 1) he
      · cases h

theorem stateFind_error_not_nonmono [DecidableEq O] [DecidableEq A]
    {f g : OpenHypergraph O A} {fIdx gIdx : Index} {err : Error} {v : Nat}
    (h : stateFind f g fIdx gIdx = some (Except.error err)) :
    err ≠ Error.NonMonogamous v := by
  intro hv
  subst hv
  unfold stateFind at h
  split at h
  · cases h
  · dsimp only at h
    split at h
    · cases h
    · rename_i e2 hsl
      cases h
      rcases searchLoop_error _ _ _ _ _ _ hsl with ⟨a, b, hab⟩ | ⟨a, b, hab⟩ <;> cases hab
    · split at h
      · rename_i e1 hu1
        cases h
        rcases unwrapMapping_error 0 _ hu1 with ⟨j, hj⟩
        cases hj
      · split at h
        · rename_i e2 hu2
          cases h
          rcases unwrapMapping_error 0 _ hu2 with ⟨j, hj⟩
          cases hj
        · cases h

theorem find_nonmono_iff_searchstate [DecidableEq O] [DecidableEq A]
    (f g : OpenHypergraph O A) (v : Nat) :
    find_isomorphism f g = some (Except.error (Error.NonMonogamous v)) ↔
      SearchState.new f g = Except.error (Error.NonMonogamous v) := by
  constructor
  · intro h
    unfold find_isomorphism at h
    split at h
    · rename_i e hSS
      cases h
      exact hSS
    · exfalso
      split at h
      · cases h
      · rename_i e hsf
        cases h
        exact stateFind_error_not_nonmono hsf rfl
      · split at h
        · cases h
        · split at h
          · cases h
          · cases h
  · intro h
    unfold find_isomorphism
    rw [h]

end OpenHypergraphsIso

namespace OpenHypergraphsIso

/-! ## Claim C7: the NonMonogamous check -/

theorem index_of_target_mem {h : Hypergraph O A} {x : Nat}
    (hs : ((Index.new h).of_target x).isSome = true) :
    ∃ adj ∈ h.adjacency, x ∈ adj.targets := by
  cases hx : (Index.new h).of_target x with
  | none => rw [hx] at hs; cases hs
  | some ep =>
    cases ep with
    | mk e p =>
      rw [Index.new] at hx
      rcases newFrom_of_target_some h.adjacency 0 _ hx with hbase | ⟨k, hk, -, hg⟩
      · cases hbase
      · exact ⟨h.adjacency.get ⟨k, hk⟩, List.get_mem _ _ _, List.get?_mem hg⟩

theorem index_of_source_mem {h : Hypergraph O A} {x : Nat}
    (hs : ((Index.new h).of_source x).isSome = true) :
    ∃ adj ∈ h.adjacency, x ∈ adj.sources := by
  cases hx : (Index.new h).of_source x with
  | none => rw [hx] at hs; cases hs
  | some ep =>
    cases ep with
    | mk e p =>
      rw [Index.new] at hx
      rcases newFrom_of_source_some h.adjacency 0 _ hx with hbase | ⟨k, hk, -, hg⟩
      · cases hbase
      · exact ⟨h.adjacency.get ⟨k, hk⟩, List.get_mem _ _ _, List.get?_mem hg⟩

theorem index_of_target_isSome {h : Hypergraph O A} {x : Nat}
    (hmem : ∃ adj ∈ h.adjacency, x ∈ adj.targets) :
    ((Index.new h).of_target x).isSome = true := by
  rw [Index.new]
  exact newFrom_of_target_isSome h.adjacency 0 _ (Or.inr hmem)

theorem index_of_source_isSome {h : Hypergraph O A} {x : Nat}
    (hmem : ∃ adj ∈ h.adjacency, x ∈ adj.sources) :
    ((Index.new h).of_source x).isSome = true := by
  rw [Index.new]
  exact newFrom_of_source_isSome h.adjacency 0 _ (Or.inr hmem)

theorem searchstate_new_error {f g : OpenHypergraph O A} {err : Error}
    (h : SearchState.new f g = Except.error err) :
    ∃ v, err = Error.NonMonogamous v ∧
      ((v ∈ f.sources ∧ ∃ adj ∈ f.hypergraph.adjacency, v ∈ adj.targets) ∨
       (v ∈ f.targets ∧ ∃ adj ∈ f.hypergraph.adjacency, v ∈ adj.sources)) := by
  unfold SearchState.new at h
  dsimp only at h
  split at h
  · rename_i s hfind
    cases h
    refine ⟨s, rfl, Or.inl ⟨List.mem_of_find?_eq_some hfind, ?_⟩⟩
    exact index_of_target_mem (by simpa using List.find?_some hfind)
  · split at h
    · rename_i t hfind
      cases h
      refine ⟨t, rfl, Or.inr ⟨List.mem_of_find?_eq_some hfind, ?_⟩⟩
      exact index_of_source_mem (by simpa using List.find?_some hfind)
    · cases h

theorem searchstate_new_of_cond {f g : OpenHypergraph O A}
    (hc : (∃ s ∈ f.sources, ∃ adj ∈ f.hypergraph.adjacency, s ∈ adj.targets) ∨
      (∃ t ∈ f.targets, ∃ adj ∈ f.hypergraph.adjacency, t ∈ adj.sources)) :
    ∃ v, SearchState.new f g = Except.error (Error.NonMonogamous v) := by
  unfold SearchState.new
  dsimp only
  cases hfs : f.sources.find? (fun s => ((Index.new f.hypergraph).of_target s).isSome) with
  | some s => exact ⟨s, rfl⟩
  | none =>
    cases hft : f.targets.find? (fun t => ((Index.new f.hypergraph).of_source t).isSome) with
    | some t => exact ⟨t, rfl⟩
    | none =>
      exfalso
      rw [List.find?_eq_none] at hfs hft
      rcases hc with ⟨s, hsmem, hsadj⟩ | ⟨t, htmem, htadj⟩
      · exact hfs s hsmem (by simpa using index_of_target_isSome hsadj)
      · exact hft t htmem (by simpa using index_of_source_isSome htadj)

/-- An open hypergraph violating interface monogamicity (its sources-interface
node 1 is the target of its edge) whose label data cannot match `emptyH`. -/
def monoViolH : OpenHypergraph Nat Nat :=
  { hypergraph := { nodes := [0, 1], edges := [3], adjacency := [⟨[0], [1]⟩] },
    sources := [1], targets := [] }

/-- The empty open hypergraph. -/
def emptyH : OpenHypergraph Nat Nat :=
  { hypergraph := { nodes := [], edges := [], adjacency := [] },
    sources := [], targets := [] }

/-- C7: `find_isomorphism f g` returns `NonMonogamous v` for some `v` exactly
when a node of `f`'s sources interface occurs among some hyperedge's targets
or a node of `f`'s targets interface occurs among some hyperedge's sources;
any returned `v` is such an offending node.  The check runs at construction,
before the nogood filter: on concrete inputs whose nogood signatures differ,
`NonMonogamous` is still the result. -/
theorem c7_nonmonogamous_characterization :
    (∀ (O A : Type) [DecidableEq O] [DecidableEq A] (f g : OpenHypergraph O A),
      ((∃ v, find_isomorphism f g = some (Except.error (Error.NonMonogamous v))) ↔
        ((∃ s ∈ f.sources, ∃ adj ∈ f.hypergraph.adjacency, s ∈ adj.targets) ∨
         (∃ t ∈ f.targets, ∃ adj ∈ f.hypergraph.adjacency, t ∈ adj.sources))) ∧
      (∀ v, find_isomorphism f g = some (Except.error (Error.NonMonogamous v)) →
        ((v ∈ f.sources ∧ ∃ adj ∈ f.hypergraph.adjacency, v ∈ adj.targets) ∨
         (v ∈ f.targets ∧ ∃ adj ∈ f.hypergraph.adjacency, v ∈ adj.sources)))) ∧
    nogood monoViolH emptyH = none ∧
    find_isomorphism monoViolH emptyH =
      some (Except.error (Error.NonMonogamous 1)) := by
  refine ⟨?_, by decide, by decide⟩
  intro O A dO dA f g
  constructor
  · constructor
    · rintro ⟨v, hv⟩
      have hSS := (find_nonmono_iff_searchstate f g v).1 hv
      rcases searchstate_new_error hSS with ⟨v2, hv2, hcond⟩
      cases hv2
      rcases hcond with ⟨h1, h2⟩ | ⟨h1, h2⟩
      · exact Or.inl ⟨_, h1, h2⟩
      · exact Or.inr ⟨_, h1, h2⟩
    · intro hc
      rcases searchstate_new_of_cond hc with ⟨v, hv⟩
      exact ⟨v, (find_nonmono_iff_searchstate f g v).2 hv⟩
  · intro v hv
    have hSS := (find_nonmono_iff_searchstate f g v).1 hv
    rcases searchstate_new_error hSS with ⟨v2, hv2, hcond⟩
    cases hv2
    exact hcond

end OpenHypergraphsIso

namespace OpenHypergraphsIso

/-! ## Monogamy, reachability, and search auxiliaries -/

/-- Number of occurrences of node `x` among all hyperedges' source lists. -/
def srcOcc (h : OpenHypergraph O A) (x : Nat) : Nat :=
  (h.hypergraph.adjacency.map (fun a => a.sources.count x)).sum

/-- Number of occurrences of node `x` among all hyperedges' target lists. -/
def tgtOcc (h : OpenHypergraph O A) (x : Nat) : Nat :=
  (h.hypergraph.adjacency.map (fun a => a.targets.count x)).sum

/-- Monogamicity (spec glossary and section 4.4): every node is the source of
at most one hyperedge and the target of at most one, and interface sources
(resp. targets) are never edge targets (resp. sources). -/
def Monogamous (h : OpenHypergraph O A) : Prop :=
  (∀ x < h.hypergraph.nodes.length, srcOcc h x ≤ 1 ∧ tgtOcc h x ≤ 1) ∧
  (∀ x ∈ h.sources, tgtOcc h x = 0) ∧
  (∀ x ∈ h.targets, srcOcc h x = 0)

instance (h : OpenHypergraph O A) : Decidable (Monogamous h) := by
  unfold Monogamous; infer_instance

/-- Reachability of a node from the interfaces along hyperedges. -/
inductive ReachN (h : OpenHypergraph O A) : Nat → Prop where
  | seed : ∀ x, (x ∈ h.sources ∨ x ∈ h.targets) → ReachN h x
  | step : ∀ x y e adj, ReachN h x → h.hypergraph.adjacency.get? e = some adj →
      (x ∈ adj.sources ∨ x ∈ adj.targets) →
      (y ∈ adj.sources ∨ y ∈ adj.targets) → ReachN h y

/-- An edge is reachable when one of its endpoint nodes is. -/
def ReachE (h : OpenHypergraph O A) (e : Nat) : Prop :=
  ∃ x adj, ReachN h x ∧ h.hypergraph.adjacency.get? e = some adj ∧
    (x ∈ adj.sources ∨ x ∈ adj.targets)

/-- Connectivity: every node and every edge is reachable from the interfaces. -/
def Connected (h : OpenHypergraph O A) : Prop :=
  (∀ x < h.hypergraph.nodes.length, ReachN h x) ∧
  (∀ e < h.hypergraph.edges.length, ReachE h e)

/-- The concatenated sources-then-targets neighbourhood of edge `e` in `f`. -/
def nbhdF (f : OpenHypergraph O A) (e : Nat) : List Nat :=
  (f.hypergraph.adjacency.getD e ⟨[], []⟩).sources ++
    (f.hypergraph.adjacency.getD e ⟨[], []⟩).targets

/-- Number of unvisited slots. -/
def countFalse (visited : List Bool) : Nat := visited.count false

theorem countFalse_set_true : ∀ (l : List Bool) (i : Nat), i < l.length →
    l.getD i false = false → countFalse (l.set i true) + 1 = countFalse l := by
  intro l
  induction l with
  | nil => intro i hi _; simp at hi
  | cons b rest ih =>
    intro i hi hf
    cases i with
    | zero =>
      have hb : b = false := hf
      subst hb
      simp [countFalse, List.set, List.count_cons]
    | succ i2 =>
      have hi2 : i2 < rest.length := by simpa using hi
      have hf2 : rest.getD i2 false = false := hf
      have := ih i2 hi2 hf2
      simp only [countFalse, List.set, List.count_cons] at this ⊢
      omega

theorem zip_map_self (fn : Nat → Nat) :
    ∀ l : List Nat, l.zip (l.map fn) = l.map (fun y => (y, fn y)) := by
  intro l
  induction l with
  | nil => rfl
  | cons a rest ih => simp [List.zip_cons_cons, ih]

/-! ### pushPairs lemmas -/

theorem pushPairs_stack_mono :
    ∀ (pairs stack : List (Nat × Nat)) (visited : List Bool) (pr : Nat × Nat),
      pr ∈ stack → pr ∈ (pushPairs stack visited pairs).1 := by
  intro pairs
  induction pairs with
  | nil => intro stack visited pr h; exact h
  | cons xy rest ih =>
    intro stack visited pr h
    rw [pushPairs, List.foldl_cons, ← pushPairs]
    by_cases hv : visited.getD xy.1 false = true
    · rw [if_pos hv]
      exact ih stack visited pr h
    · rw [if_neg hv]
      exact ih _ _ pr (List.mem_cons_of_mem xy h)

theorem pushPairs_stack_mem :
    ∀ (pairs stack : List (Nat × Nat)) (visited : List Bool) (pr : Nat × Nat),
      pr ∈ (pushPairs stack visited pairs).1 → pr ∈ stack ∨ pr ∈ pairs := by
  intro pairs
  induction pairs with
  | nil => intro stack visited pr h; exact Or.inl h
  | cons xy rest ih =>
    intro stack visited pr h
    rw [pushPairs, List.foldl_cons, ← pushPairs] at h
    by_cases hv : visited.getD xy.1 false = true
    · rw [if_pos hv] at h
      rcases ih stack visited pr h with h2 | h2
      · exact Or.inl h2
      · exact Or.inr (List.mem_cons_of_mem xy h2)
    · rw [if_neg hv] at h
      rcases ih _ _ pr h with h2 | h2
      · rcases List.mem_cons.1 h2 with h3 | h3
        · exact Or.inr (h3 ▸ List.mem_cons_self xy rest)
        · exact Or.inl h3
      · exact Or.inr (List.mem_cons_of_mem xy h2)

theorem pushPairs_vlen :
    ∀ (pairs stack : List (Nat × Nat)) (visited : List Bool),
      (pushPairs stack visited pairs).2.length = visited.length := by
  intro pairs
  induction pairs with
  | nil => intro stack visited; rfl
  | cons xy rest ih =>
    intro stack visited
    rw [pushPairs, List.foldl_cons, ← pushPairs]
    by_cases hv : visited.getD xy.1 false = true
    · rw [if_pos hv]; exact ih stack visited
    · rw [if_neg hv]
      rw [ih]
      simp

theorem pushPairs_visited_mono :
    ∀ (pairs stack : List (Nat × Nat)) (visited : List Bool) (i : Nat),
      visited.getD i false = true →
      (pushPairs stack visited pairs).2.getD i false = true := by
  intro pairs
  induction pairs with
  | nil => intro stack visited i h; exact h
  | cons xy rest ih =>
    intro stack visited i h
    rw [pushPairs, List.foldl_cons, ← pushPairs]
    by_cases hv : visited.getD xy.1 false = true
    · rw [if_pos hv]; exact ih stack visited i h
    · rw [if_neg hv]
      apply ih
      by_cases hix : i = xy.1
      · exact absurd (hix ▸ h) hv
      · rwa [getD_set_ne hix]

theorem pushPairs_marks :
    ∀ (pairs stack : List (Nat × Nat)) (visited : List Bool),
      (∀ pr ∈ pairs, pr.1 < visited.length) →
      ∀ pr ∈ pairs, (pushPairs stack visited pairs).2.getD pr.1 false = true := by
  intro pairs
  induction pairs with
  | nil => intro stack visited _ pr h; cases h
  | cons xy rest ih =>
    intro stack visited hlt pr h
    rw [pushPairs, List.foldl_cons, ← pushPairs]
    by_cases hv : visited.getD xy.1 false = true
    · rw [if_pos hv]
      rcases List.mem_cons.1 h with h2 | h2
      · rw [h2]
        exact pushPairs_visited_mono rest stack visited xy.1 hv
      · exact ih stack visited (fun q hq => hlt q (List.mem_cons_of_mem xy hq)) pr h2
    · rw [if_neg hv]
      rcases List.mem_cons.1 h with h2 | h2
      · rw [h2]
        apply pushPairs_visited_mono
        exact getD_set_self (hlt xy (List.mem_cons_self xy rest))
      · apply ih _ _ (fun q hq => by
          rw [List.length_set]
          exact hlt q (List.mem_cons_of_mem xy hq)) pr h2

theorem pushPairs_visited_new :
    ∀ (pairs stack : List (Nat × Nat)) (visited : List Bool) (i : Nat),
      (pushPairs stack visited pairs).2.getD i false = true →
      visited.getD i false = true ∨
        ∃ q, (i, q) ∈ (pushPairs stack visited pairs).1 := by
  intro pairs
  induction pairs with
  | nil => intro stack visited i h; exact Or.inl h
  | cons xy rest ih =>
    intro stack visited i h
    rw [pushPairs, List.foldl_cons, ← pushPairs] at h ⊢
    by_cases hv : visited.getD xy.1 false = true
    · rw [if_pos hv] at h ⊢
      exact ih stack visited i h
    · rw [if_neg hv] at h ⊢
      rcases ih _ _ i h with h2 | h2
      · by_cases hix : i = xy.1
        · refine Or.inr ⟨xy.2, ?_⟩
          rw [hix]
          have hxy : (xy.1, xy.2) = xy := rfl
          rw [hxy]
          exact pushPairs_stack_mono rest _ _ xy (List.mem_cons_self _ _)
        · rw [getD_set_ne hix] at h2
          exact Or.inl h2
      · exact Or.inr h2

theorem pushPairs_measure :
    ∀ (pairs stack : List (Nat × Nat)) (visited : List Bool),
      (∀ pr ∈ pairs, pr.1 < visited.length) →
      countFalse (pushPairs stack visited pairs).2 + (pushPairs stack visited pairs).1.length
        = countFalse visited + stack.length := by
  intro pairs
  induction pairs with
  | nil => intro stack visited _; rfl
  | cons xy rest ih =>
    intro stack visited hlt
    rw [pushPairs, List.foldl_cons, ← pushPairs]
    by_cases hv : visited.getD xy.1 false = true
    · rw [if_pos hv]
      exact ih stack visited (fun q hq => hlt q (List.mem_cons_of_mem xy hq))
    · rw [if_neg hv]
      have hxy : xy.1 < visited.length := hlt xy (List.mem_cons_self xy rest)
      have hf : visited.getD xy.1 false = false := by
        cases h2 : visited.getD xy.1 false
        · rfl
        · exact absurd h2 hv
      have hset := countFalse_set_true visited xy.1 hxy hf
      have := ih (xy :: stack) (visited.set xy.1 true) (fun q hq => by
        rw [List.length_set]
        exact hlt q (List.mem_cons_of_mem xy hq))
      rw [this]
      simp only [List.length_cons]
      omega

end OpenHypergraphsIso

namespace OpenHypergraphsIso

theorem newFrom_of_source_unique {x : Nat} :
    ∀ (adjs : List Adjacency) (e0 : Nat) (idx : Index) (k p : Nat) (hk : k < adjs.length),
      (adjs.map (fun a => a.sources.count x)).sum ≤ 1 →
      idx.of_source x = none →
      (adjs.get ⟨k, hk⟩).sources.get? p = some x →
      (Index.newFrom e0 idx adjs).of_source x = some (e0 + k, p) := by
  intro adjs
  induction adjs with
  | nil => intro e0 idx k p hk; simp at hk
  | cons adj rest ih =>
    intro e0 idx k p hk hsum hidx hg
    simp only [List.map_cons, List.sum_cons] at hsum
    cases k with
    | zero =>
      have hmem : x ∈ adj.sources := List.get?_mem hg
      have hcnt : 1 ≤ adj.sources.count x := List.one_le_count_iff.2 hmem
      have hrest : ∀ a ∈ rest, x ∉ a.sources := by
        intro a ha hmem2
        have h1 : 1 ≤ a.sources.count x := List.one_le_count_iff.2 hmem2
        have h2 : a.sources.count x ≤ (rest.map (fun a => a.sources.count x)).sum :=
          List.single_le_sum (fun y _ => Nat.zero_le y) _ (List.mem_map_of_mem _ ha)
        omega
      rw [Index.newFrom, newFrom_of_source_not_mem rest _ _ hrest]
      show insertPortsFrom e0 0 idx.of_source adj.sources x = some (e0 + 0, p)
      have hcle : adj.sources.count x ≤ 1 := by omega
      have := @insertPortsFrom_unique e0 x adj.sources 0 p idx.of_source hcle hg
      simpa using this
    | succ k2 =>
      have hk2 : k2 < rest.length := by simpa using hk
      have hg2 : (rest.get ⟨k2, hk2⟩).sources.get? p = some x := hg
      have hmemr : x ∈ (rest.get ⟨k2, hk2⟩).sources := List.get?_mem hg2
      have h1 : 1 ≤ (rest.get ⟨k2, hk2⟩).sources.count x := List.one_le_count_iff.2 hmemr
      have h2 : (rest.get ⟨k2, hk2⟩).sources.count x ≤
          (rest.map (fun a => a.sources.count x)).sum :=
        List.single_le_sum (fun y _ => Nat.zero_le y) _
          (List.mem_map_of_mem _ (List.get_mem _ _ _))
      have hnadj : x ∉ adj.sources := by
        intro hmem2
        have h3 : 1 ≤ adj.sources.count x := List.one_le_count_iff.2 hmem2
        omega
      rw [Index.newFrom]
      have hidx2 : (insertPorts e0 idx.of_source adj.sources) x = none := by
        rw [insertPorts, insertPortsFrom_not_mem _ _ _ hnadj]
        exact hidx
      have hre : (rest.map (fun a => a.sources.count x)).sum ≤ 1 := by omega
      have := ih (e0 + 1) ⟨insertPorts e0 idx.of_source adj.sources,
        insertPorts e0 idx.of_target adj.targets⟩ k2 p hk2 hre hidx2 hg2
      rw [this]
      have harith : e0 + 1 + k2 = e0 + (k2 + 1) := by omega
      rw [harith]

theorem newFrom_of_target_unique {x : Nat} :
    ∀ (adjs : List Adjacency) (e0 : Nat) (idx : Index) (k p : Nat) (hk : k < adjs.length),
      (adjs.map (fun a => a.targets.count x)).sum ≤ 1 →
      idx.of_target x = none →
      (adjs.get ⟨k, hk⟩).targets.get? p = some x →
      (Index.newFrom e0 idx adjs).of_target x = some (e0 + k, p) := by
  intro adjs
  induction adjs with
  | nil => intro e0 idx k p hk; simp at hk
  | cons adj rest ih =>
    intro e0 idx k p hk hsum hidx hg
    simp only [List.map_cons, List.sum_cons] at hsum
    cases k with
    | zero =>
      have hmem : x ∈ adj.targets := List.get?_mem hg
      have hcnt : 1 ≤ adj.targets.count x := List.one_le_count_iff.2 hmem
      have hrest : ∀ a ∈ rest, x ∉ a.targets := by
        intro a ha hmem2
        have h1 : 1 ≤ a.targets.count x := List.one_le_count_iff.2 hmem2
        have h2 : a.targets.count x ≤ (rest.map (fun a => a.targets.count x)).sum :=
          List.single_le_sum (fun y _ => Nat.zero_le y) _ (List.mem_map_of_mem _ ha)
        omega
      rw [Index.newFrom, newFrom_of_target_not_mem rest _ _ hrest]
      show insertPortsFrom e0 0 idx.of_target adj.targets x = some (e0 + 0, p)
      have hcle : adj.targets.count x ≤ 1 := by omega
      have := @insertPortsFrom_unique e0 x adj.targets 0 p idx.of_target hcle hg
      simpa using this
    | succ k2 =>
      have hk2 : k2 < rest.length := by simpa using hk
      have hg2 : (rest.get ⟨k2, hk2⟩).targets.get? p = some x := hg
      have hmemr : x ∈ (rest.get ⟨k2, hk2⟩).targets := List.get?_mem hg2
      have h1 : 1 ≤ (rest.get ⟨k2, hk2⟩).targets.count x := List.one_le_count_iff.2 hmemr
      have h2 : (rest.get ⟨k2, hk2⟩).targets.count x ≤
          (rest.map (fun a => a.targets.count x)).sum :=
        List.single_le_sum (fun y _ => Nat.zero_le y) _
          (List.mem_map_of_mem _ (List.get_mem _ _ _))
      have hnadj : x ∉ adj.targets := by
        intro hmem2
        have h3 : 1 ≤ adj.targets.count x := List.one_le_count_iff.2 hmem2
        omega
      rw [Index.newFrom]
      have hidx2 : (insertPorts e0 idx.of_target adj.targets) x = none := by
        rw [insertPorts, insertPortsFrom_not_mem _ _ _ hnadj]
        exact hidx
      have hre : (rest.map (fun a => a.targets.count x)).sum ≤ 1 := by omega
      have := ih (e0 + 1) ⟨insertPorts e0 idx.of_source adj.sources,
        insertPorts e0 idx.of_target adj.targets⟩ k2 p hk2 hre hidx2 hg2
      rw [this]
      have harith : e0 + 1 + k2 = e0 + (k2 + 1) := by omega
      rw [harith]

/-- Exact characterization of the source index under monogamy. -/
theorem index_of_source_eq {f : OpenHypergraph O A} (hm : srcOcc f x ≤ 1) {e p : Nat} :
    (Index.new f.hypergraph).of_source x = some (e, p) ↔
      ∃ adj, f.hypergraph.adjacency.get? e = some adj ∧ adj.sources.get? p = some x := by
  constructor
  · intro h
    rw [Index.new] at h
    rcases newFrom_of_source_some f.hypergraph.adjacency 0 _ h with hbase | ⟨k, hk, he, hg⟩
    · cases hbase
    · have hek : e = k := by omega
      subst hek
      exact ⟨_, List.get?_eq_get hk, hg⟩
  · rintro ⟨adj, hadj, hg⟩
    rcases List.get?_eq_some.1 hadj with ⟨hk, hget⟩
    rw [Index.new]
    have := newFrom_of_source_unique f.hypergraph.adjacency 0
      ⟨fun _ => none, fun _ => none⟩ e p hk hm rfl (by rw [hget]; exact hg)
    simpa using this

/-- Exact characterization of the target index under monogamy. -/
theorem index_of_target_eq {f : OpenHypergraph O A} (hm : tgtOcc f x ≤ 1) {e p : Nat} :
    (Index.new f.hypergraph).of_target x = some (e, p) ↔
      ∃ adj, f.hypergraph.adjacency.get? e = some adj ∧ adj.targets.get? p = some x := by
  constructor
  · intro h
    rw [Index.new] at h
    rcases newFrom_of_target_some f.hypergraph.adjacency 0 _ h with hbase | ⟨k, hk, he, hg⟩
    · cases hbase
    · have hek : e = k := by omega
      subst hek
      exact ⟨_, List.get?_eq_get hk, hg⟩
  · rintro ⟨adj, hadj, hg⟩
    rcases List.get?_eq_some.1 hadj with ⟨hk, hget⟩
    rw [Index.new]
    have := newFrom_of_target_unique f.hypergraph.adjacency 0
      ⟨fun _ => none, fun _ => none⟩ e p hk hm rfl (by rw [hget]; exact hg)
    simpa using this

end OpenHypergraphsIso

namespace OpenHypergraphsIso

/-! ## Mirror setup: g is a relabelled copy of f along pn -/

/-- Hypotheses of the main traversal theorem: `f` is well-formed and
monogamous, `pn` is a node permutation of `f`'s node count, and `g` is the
relabelled copy of `f` along `pn` with edges kept in place. -/
structure MirrorHyp (f g : OpenHypergraph O A) (pn : List Nat) : Prop where
  wf : WF f
  mono : Monogamous f
  plen : pn.length = f.hypergraph.nodes.length
  prange : ∀ v ∈ pn, v < f.hypergraph.nodes.length
  pnodup : pn.Nodup
  gnlen : g.hypergraph.nodes.length = f.hypergraph.nodes.length
  gnodes : ∀ x < f.hypergraph.nodes.length,
    g.hypergraph.nodes.get? (permApply pn x) = f.hypergraph.nodes.get? x
  gedges : g.hypergraph.edges = f.hypergraph.edges
  gadj : g.hypergraph.adjacency = f.hypergraph.adjacency.map
    (fun a => ⟨a.sources.map (permApply pn), a.targets.map (permApply pn)⟩)
  gsrc : g.sources = f.sources.map (permApply pn)
  gtgt : g.targets = f.targets.map (permApply pn)

theorem MirrorHyp.pinj {f g : OpenHypergraph O A} {pn : List Nat}
    (H : MirrorHyp f g pn) {a b : Nat} (ha : a < f.hypergraph.nodes.length)
    (hb : b < f.hypergraph.nodes.length) (h : permApply pn a = permApply pn b) :
    a = b := by
  rw [permApply_lt (H.plen ▸ ha), permApply_lt (H.plen ▸ hb)] at h
  have h2 := (List.Nodup.get_inj_iff H.pnodup).1 h
  exact congrArg Fin.val h2

/-- The two index maps of `f` and of its mirrored copy agree up to `pn`. -/
def RelMaps (n : Nat) (pn : List Nat) (m mg : Nat → Option (Nat × Nat)) : Prop :=
  ∀ x < n, mg (permApply pn x) = m x

theorem relMaps_insertKV {n : Nat} {pn : List Nat}
    (hinj : ∀ a < n, ∀ b < n, permApply pn a = permApply pn b → a = b)
    {m mg : Nat → Option (Nat × Nat)} (hR : RelMaps n pn m mg) {x0 : Nat}
    (hx0 : x0 < n) (v : Nat × Nat) :
    RelMaps n pn (insertKV m x0 v) (insertKV mg (permApply pn x0) v) := by
  intro x hx
  rw [insertKV, insertKV]
  by_cases hxx : x = x0
  · rw [if_pos hxx, if_pos (by rw [hxx])]
  · rw [if_neg hxx, if_neg (fun hc => hxx (hinj x hx x0 hx0 hc))]
    exact hR x hx

theorem relMaps_insertPortsFrom {n : Nat} {pn : List Nat}
    (hinj : ∀ a < n, ∀ b < n, permApply pn a = permApply pn b → a = b) :
    ∀ (ns : List Nat) (port e : Nat) (m mg : Nat → Option (Nat × Nat)),
      (∀ y ∈ ns, y < n) → RelMaps n pn m mg →
      RelMaps n pn (insertPortsFrom e port m ns)
        (insertPortsFrom e port mg (ns.map (permApply pn))) := by
  intro ns
  induction ns with
  | nil => intro port e m mg _ hR; exact hR
  | cons a rest ih =>
    intro port e m mg hlt hR
    rw [List.map_cons, insertPortsFrom, insertPortsFrom]
    exact ih (port + 1) e _ _ (fun y hy => hlt y (List.mem_cons_of_mem a hy))
      (relMaps_insertKV hinj hR (hlt a (List.mem_cons_self a rest)) (e, port))

theorem relMaps_newFrom {n : Nat} {pn : List Nat}
    (hinj : ∀ a < n, ∀ b < n, permApply pn a = permApply pn b → a = b) :
    ∀ (adjs : List Adjacency) (e0 : Nat) (idx idxg : Index),
      (∀ adj ∈ adjs, (∀ y ∈ adj.sources, y < n) ∧ (∀ y ∈ adj.targets, y < n)) →
      RelMaps n pn idx.of_source idxg.of_source →
      RelMaps n pn idx.of_target idxg.of_target →
      RelMaps n pn (Index.newFrom e0 idx adjs).of_source
        (Index.newFrom e0 idxg (adjs.map (fun a =>
          ⟨a.sources.map (permApply pn), a.targets.map (permApply pn)⟩))).of_source ∧
      RelMaps n pn (Index.newFrom e0 idx adjs).of_target
        (Index.newFrom e0 idxg (adjs.map (fun a =>
          ⟨a.sources.map (permApply pn), a.targets.map (permApply pn)⟩))).of_target := by
  intro adjs
  induction adjs with
  | nil => intro e0 idx idxg _ hs ht; exact ⟨hs, ht⟩
  | cons adj rest ih =>
    intro e0 idx idxg hlt hs ht
    rw [List.map_cons, Index.newFrom, Index.newFrom]
    exact ih (e0 + 1) _ _ (fun a ha => hlt a (List.mem_cons_of_mem adj ha))
      (relMaps_insertPortsFrom hinj adj.sources 0 e0 _ _
        (hlt adj (List.mem_cons_self adj rest)).1 hs)
      (relMaps_insertPortsFrom hinj adj.targets 0 e0 _ _
        (hlt adj (List.mem_cons_self adj rest)).2 ht)

theorem mirror_index {f g : OpenHypergraph O A} {pn : List Nat}
    (H : MirrorHyp f g pn) :
    ∀ x < f.hypergraph.nodes.length,
      (Index.new g.hypergraph).of_source (permApply pn x) =
        (Index.new f.hypergraph).of_source x ∧
      (Index.new g.hypergraph).of_target (permApply pn x) =
        (Index.new f.hypergraph).of_target x := by
  have hinj : ∀ a < f.hypergraph.nodes.length, ∀ b < f.hypergraph.nodes.length,
      permApply pn a = permApply pn b → a = b :=
    fun a ha b hb h => H.pinj ha hb h
  have hlt : ∀ adj ∈ f.hypergraph.adjacency,
      (∀ y ∈ adj.sources, y < f.hypergraph.nodes.length) ∧
      (∀ y ∈ adj.targets, y < f.hypergraph.nodes.length) :=
    fun adj ha => H.wf.2.1 adj ha
  have base : RelMaps f.hypergraph.nodes.length pn
      (fun _ => (none : Option (Nat × Nat))) (fun _ => none) := fun x _ => rfl
  have hmain := relMaps_newFrom hinj f.hypergraph.adjacency 0
    ⟨fun _ => none, fun _ => none⟩ ⟨fun _ => none, fun _ => none⟩ hlt base base
  intro x hx
  constructor
  · rw [Index.new, Index.new, H.gadj]
    exact hmain.1 x hx
  · rw [Index.new, Index.new, H.gadj]
    exact hmain.2 x hx

end OpenHypergraphsIso

namespace OpenHypergraphsIso

theorem nbhdF_eq {f : OpenHypergraph O A} {e2 : Nat} {fadj : Adjacency}
    (hadj : f.hypergraph.adjacency.get? e2 = some fadj) :
    nbhdF f e2 = fadj.sources ++ fadj.targets := by
  rcases List.get?_eq_some.1 hadj with ⟨hlt, hget⟩
  rw [nbhdF, list_getD_lt ⟨[], []⟩ hlt, hget]

theorem nbhdF_lt {f : OpenHypergraph O A} (hwf : WF f) {e2 : Nat} {fadj : Adjacency}
    (hadj : f.hypergraph.adjacency.get? e2 = some fadj) :
    ∀ y ∈ nbhdF f e2, y < f.hypergraph.nodes.length := by
  intro y hy
  rw [nbhdF_eq hadj] at hy
  have hmem : fadj ∈ f.hypergraph.adjacency := List.get?_mem hadj
  rcases List.mem_append.1 hy with h | h
  · exact (hwf.2.1 fadj hmem).1 y h
  · exact (hwf.2.1 fadj hmem).2 y h

theorem getD_map_of_lt {α β : Type _} (F : α → β) {l : List α} {i : Nat}
    (h : i < l.length) (d2 : β) :
    (l.map F).getD i d2 = F (l.get ⟨i, h⟩) := by
  have h2 : i < (l.map F).length := by simpa using h
  rw [list_getD_lt d2 h2]
  simp [List.get_eq_getElem, List.getElem_map]

theorem mirror_getD_adj {f g : OpenHypergraph O A} {pn : List Nat}
    (H : MirrorHyp f g pn) {e2 : Nat} {fadj : Adjacency}
    (hadj : f.hypergraph.adjacency.get? e2 = some fadj) :
    g.hypergraph.adjacency.getD e2 ⟨[], []⟩ =
      ⟨fadj.sources.map (permApply pn), fadj.targets.map (permApply pn)⟩ := by
  rcases List.get?_eq_some.1 hadj with ⟨hlt, hget⟩
  rw [H.gadj, getD_map_of_lt _ hlt, hget]

theorem ensure_same_type_mirror [DecidableEq O] [DecidableEq A]
    {f g : OpenHypergraph O A} {pn : List Nat} (H : MirrorHyp f g pn) {e2 : Nat}
    {fadj : Adjacency} (hadj : f.hypergraph.adjacency.get? e2 = some fadj) :
    ensure_same_type f g e2 e2 = Except.ok () := by
  rcases List.get?_eq_some.1 hadj with ⟨hlt, hget⟩
  have hf : f.hypergraph.adjacency.getD e2 ⟨[], []⟩ = fadj := by
    rw [list_getD_lt ⟨[], []⟩ hlt, hget]
  have hs1 : same_labels f g fadj.sources (fadj.sources.map (permApply pn)) = true := by
    rw [same_labels, decide_eq_true_eq, List.map_map]
    apply List.map_congr_left
    intro y hy
    have hylt : y < f.hypergraph.nodes.length :=
      (H.wf.2.1 fadj (List.get?_mem hadj)).1 y hy
    exact (H.gnodes y hylt).symm
  have hs2 : same_labels f g fadj.targets (fadj.targets.map (permApply pn)) = true := by
    rw [same_labels, decide_eq_true_eq, List.map_map]
    apply List.map_congr_left
    intro y hy
    have hylt : y < f.hypergraph.nodes.length :=
      (H.wf.2.1 fadj (List.get?_mem hadj)).2 y hy
    exact (H.gnodes y hylt).symm
  unfold ensure_same_type
  rw [if_neg (not_not_intro (by rw [H.gedges]))]
  dsimp only
  rw [hf, mirror_getD_adj H hadj]
  rw [if_neg]
  intro hc
  rcases hc with h | h
  · exact h hs1
  · exact h hs2

theorem identify_edges_mirror [DecidableEq O] [DecidableEq A]
    {f g : OpenHypergraph O A} {pn : List Nat} (H : MirrorHyp f g pn) {e2 : Nat}
    {fadj : Adjacency} (hadj : f.hypergraph.adjacency.get? e2 = some fadj)
    (stack : List (Nat × Nat)) (visited : List Bool) :
    identify_edges f g stack visited e2 e2 =
      Except.ok (pushPairs stack visited
        ((nbhdF f e2).map (fun y => (y, permApply pn y)))) := by
  unfold identify_edges
  rw [ensure_same_type_mirror H hadj]
  show Except.ok (pushPairs stack visited
      ((neighbourhoods f g e2 e2).1.zip (neighbourhoods f g e2 e2).2)) = _
  have hnb : neighbourhoods f g e2 e2 =
      (nbhdF f e2, (nbhdF f e2).map (permApply pn)) := by
    rcases List.get?_eq_some.1 hadj with ⟨hlt, hget⟩
    have hf : f.hypergraph.adjacency.getD e2 ⟨[], []⟩ = fadj := by
      rw [list_getD_lt ⟨[], []⟩ hlt, hget]
    unfold neighbourhoods
    rw [hf, mirror_getD_adj H hadj, nbhdF_eq hadj]
    simp [List.map_append]
  rw [hnb, zip_map_self]

/-- The state change of one direction of the main loop under the mirror
hypotheses. -/
def DirOut (f : OpenHypergraph O A) (pn : List Nat) (entry : Option (Nat × Nat))
    (stack : List (Nat × Nat)) (visited : List Bool) (em : List (Option Nat)) :
    List (Nat × Nat) × List Bool × List (Option Nat) :=
  match entry with
  | none => (stack, visited, em)
  | some ep =>
    ((pushPairs stack visited ((nbhdF f ep.1).map (fun y => (y, permApply pn y)))).1,
     (pushPairs stack visited ((nbhdF f ep.1).map (fun y => (y, permApply pn y)))).2,
     em.set ep.1 (some ep.1))

theorem processDirection_mirror [DecidableEq O] [DecidableEq A]
    {f g : OpenHypergraph O A} {pn : List Nat} (H : MirrorHyp f g pn) {x : Nat}
    {entry : Option (Nat × Nat)}
    (hE : ∀ e2 p, entry = some (e2, p) →
      ∃ fadj, f.hypergraph.adjacency.get? e2 = some fadj)
    (stack : List (Nat × Nat)) (visited : List Bool) (em : List (Option Nat)) :
    processDirection f g entry entry x (permApply pn x) stack visited em =
      Except.ok (DirOut f pn entry stack visited em) := by
  cases entry with
  | none => rfl
  | some ep =>
    rcases hE ep.1 ep.2 rfl with ⟨fadj, hadj⟩
    show (if ¬ (ep.2 = ep.2) then
        Except.error (Error.InvalidNodeMatch x (permApply pn x))
      else
        match identify_edges f g stack visited ep.1 ep.1 with
        | Except.error e => Except.error e
        | Except.ok sv => Except.ok (sv.1, sv.2, em.set ep.1 (some ep.1))) = _
    rw [if_neg (not_not_intro rfl), identify_edges_mirror H hadj stack visited]
    rfl

end OpenHypergraphsIso

namespace OpenHypergraphsIso

theorem getD_set_self2 {α : Type _} {l : List α} {v : Nat} {d a : α} (h : v < l.length) :
    (l.set v a).getD v d = a := by
  simp [List.getD_eq_getElem?_getD, List.getElem?_set_self, h]

theorem getD_set_ne2 {α : Type _} {l : List α} {v j : Nat} {d a : α} (h : j ≠ v) :
    (l.set v a).getD j d = l.getD j d := by
  simp [List.getD_eq_getElem?_getD, List.getElem?_set_ne (Ne.symm h)]

theorem dirOut_facts {f : OpenHypergraph O A} {pn : List Nat} (hwf : WF f)
    {entry : Option (Nat × Nat)}
    (hE : ∀ e2 p, entry = some (e2, p) →
      (∃ fadj, f.hypergraph.adjacency.get? e2 = some fadj) ∧
        e2 < f.hypergraph.edges.length)
    (stack : List (Nat × Nat)) (visited : List Bool) (em : List (Option Nat))
    (hvlen : visited.length = f.hypergraph.nodes.length)
    (hemlen : em.length = f.hypergraph.edges.length) :
    (DirOut f pn entry stack visited em).2.1.length = visited.length ∧
    (DirOut f pn entry stack visited em).2.2.length = em.length ∧
    (∀ pr ∈ (DirOut f pn entry stack visited em).1,
      pr ∈ stack ∨ ∃ e2 p, entry = some (e2, p) ∧ pr.1 ∈ nbhdF f e2 ∧
        pr.2 = permApply pn pr.1) ∧
    (∀ pr ∈ stack, pr ∈ (DirOut f pn entry stack visited em).1) ∧
    (∀ i, visited.getD i false = true →
      (DirOut f pn entry stack visited em).2.1.getD i false = true) ∧
    (∀ i, (DirOut f pn entry stack visited em).2.1.getD i false = true →
      visited.getD i false = true ∨
        ∃ q, (i, q) ∈ (DirOut f pn entry stack visited em).1) ∧
    (∀ j, (em.getD j none).isSome = true →
      ((DirOut f pn entry stack visited em).2.2.getD j none).isSome = true) ∧
    ((∀ j w, em.getD j none = some w → w = j) →
      ∀ j w, (DirOut f pn entry stack visited em).2.2.getD j none = some w → w = j) ∧
    (∀ e2 p, entry = some (e2, p) →
      (((DirOut f pn entry stack visited em).2.2.getD e2 none).isSome = true ∧
        ∀ y ∈ nbhdF f e2,
          (DirOut f pn entry stack visited em).2.1.getD y false = true)) ∧
    countFalse (DirOut f pn entry stack visited em).2.1 +
        (DirOut f pn entry stack visited em).1.length =
      countFalse visited + stack.length := by
  cases entry with
  | none =>
    refine ⟨rfl, rfl, fun pr h => Or.inl h, fun pr h => h, fun i h => h,
      fun i h => Or.inl h, fun j h => h, fun hD => hD, ?_, rfl⟩
    intro e2 p h
    cases h
  | some ep =>
    rcases hE ep.1 ep.2 rfl with ⟨⟨fadj, hadj⟩, helt⟩
    have hpairs : ∀ pr ∈ (nbhdF f ep.1).map (fun y => (y, permApply pn y)),
        pr.1 < visited.length := by
      intro pr hpr
      rcases List.mem_map.1 hpr with ⟨y, hy, hyeq⟩
      rw [← hyeq]
      rw [hvlen]
      exact nbhdF_lt hwf hadj y hy
    refine ⟨?_, ?_, ?_, ?_, ?_, ?_, ?_, ?_, ?_, ?_⟩
    · exact pushPairs_vlen _ _ _
    · show (em.set ep.1 (some ep.1)).length = em.length
      simp
    · intro pr hpr
      rcases pushPairs_stack_mem _ _ _ pr hpr with h | h
      · exact Or.inl h
      · rcases List.mem_map.1 h with ⟨y, hy, hyeq⟩
        refine Or.inr ⟨ep.1, ep.2, rfl, ?_, ?_⟩
        · rw [← hyeq]
          exact hy
        · rw [← hyeq]
    · intro pr h
      exact pushPairs_stack_mono _ _ _ pr h
    · intro i h
      exact pushPairs_visited_mono _ _ _ i h
    · intro i h
      exact pushPairs_visited_new _ _ _ i h
    · intro j h
      show ((em.set ep.1 (some ep.1)).getD j none).isSome = true
      by_cases hj : j = ep.1
      · subst hj
        rw [getD_set_self2 (by omega)]
        rfl
      · rwa [getD_set_ne2 hj]
    · intro hD j w h
      have h2 : (em.set ep.1 (some ep.1)).getD j none = some w := h
      by_cases hj : j = ep.1
      · subst hj
        rw [getD_set_self2 (by omega)] at h2
        exact (Option.some.inj h2).symm
      · rw [getD_set_ne2 hj] at h2
        exact hD j w h2
    · intro e2 p h
      cases Option.some.inj h
      constructor
      · show ((em.set e2 (some e2)).getD e2 none).isSome = true
        rw [getD_set_self2 (show e2 < em.length by rw [hemlen]; exact helt)]
        rfl
      · intro y hy
        exact pushPairs_marks _ _ _ hpairs (y, permApply pn y)
          (List.mem_map_of_mem _ hy)
    · exact pushPairs_measure _ _ _ hpairs

end OpenHypergraphsIso

namespace OpenHypergraphsIso

theorem index_entry_adj_src {f : OpenHypergraph O A} {x e2 p : Nat}
    (h : (Index.new f.hypergraph).of_source x = some (e2, p)) :
    ∃ fadj, f.hypergraph.adjacency.get? e2 = some fadj ∧ fadj.sources.get? p = some x := by
  rw [Index.new] at h
  rcases newFrom_of_source_some f.hypergraph.adjacency 0 _ h with hbase | ⟨k, hk, he, hg⟩
  · cases hbase
  · have hek : e2 = k := by omega
    subst hek
    exact ⟨_, List.get?_eq_get hk, hg⟩

theorem index_entry_adj_tgt {f : OpenHypergraph O A} {x e2 p : Nat}
    (h : (Index.new f.hypergraph).of_target x = some (e2, p)) :
    ∃ fadj, f.hypergraph.adjacency.get? e2 = some fadj ∧ fadj.targets.get? p = some x := by
  rw [Index.new] at h
  rcases newFrom_of_target_some f.hypergraph.adjacency 0 _ h with hbase | ⟨k, hk, he, hg⟩
  · cases hbase
  · have hek : e2 = k := by omega
    subst hek
    exact ⟨_, List.get?_eq_get hk, hg⟩

theorem set_isSome_mono {l : List (Option Nat)} {i j v : Nat}
    (h : (l.getD j none).isSome = true) :
    ((l.set i (some v)).getD j none).isSome = true := by
  by_cases hij : j = i
  · subst hij
    by_cases hlt : j < l.length
    · rw [getD_set_self2 hlt]
      rfl
    · rw [List.getD_eq_default] at h
      · cases h
      · omega
  · rwa [getD_set_ne2 hij]

/-- The loop invariant of the traversal under the mirror hypotheses. -/
structure LoopInv (f : OpenHypergraph O A) (pn : List Nat) (stack : List (Nat × Nat))
    (visited : List Bool) (nm em : List (Option Nat)) : Prop where
  vlen : visited.length = f.hypergraph.nodes.length
  nmlen : nm.length = f.hypergraph.nodes.length
  emlen : em.length = f.hypergraph.edges.length
  stackOk : ∀ pr ∈ stack, pr.1 < f.hypergraph.nodes.length ∧
    pr.2 = permApply pn pr.1 ∧ visited.getD pr.1 false = true
  nmDiag : ∀ i v, nm.getD i none = some v → v = permApply pn i
  emDiag : ∀ j w, em.getD j none = some w → w = j
  visitedInv : ∀ i, visited.getD i false = true →
    (∃ q, (i, q) ∈ stack) ∨ (nm.getD i none).isSome = true
  closedInv : ∀ i, (nm.getD i none).isSome = true →
    (∀ e2 p, (Index.new f.hypergraph).of_source i = some (e2, p) →
      (em.getD e2 none).isSome = true ∧
        ∀ y ∈ nbhdF f e2, visited.getD y false = true) ∧
    (∀ e2 p, (Index.new f.hypergraph).of_target i = some (e2, p) →
      (em.getD e2 none).isSome = true ∧
        ∀ y ∈ nbhdF f e2, visited.getD y false = true)

/-- What the traversal loop guarantees about its final mappings. -/
structure LoopOut (f : OpenHypergraph O A) (pn : List Nat) (stack : List (Nat × Nat))
    (nm em nm2 em2 : List (Option Nat)) : Prop where
  nmlen : nm2.length = f.hypergraph.nodes.length
  emlen : em2.length = f.hypergraph.edges.length
  nmDiag : ∀ i v, nm2.getD i none = some v → v = permApply pn i
  emDiag : ∀ j w, em2.getD j none = some w → w = j
  nmMono : ∀ i, (nm.getD i none).isSome = true → (nm2.getD i none).isSome = true
  emMono : ∀ j, (em.getD j none).isSome = true → (em2.getD j none).isSome = true
  seeds : ∀ pr ∈ stack, (nm2.getD pr.1 none).isSome = true
  closed : ∀ i, (nm2.getD i none).isSome = true →
    (∀ e2 p, (Index.new f.hypergraph).of_source i = some (e2, p) →
      (em2.getD e2 none).isSome = true ∧
        ∀ y ∈ nbhdF f e2, (nm2.getD y none).isSome = true) ∧
    (∀ e2 p, (Index.new f.hypergraph).of_target i = some (e2, p) →
      (em2.getD e2 none).isSome = true ∧
        ∀ y ∈ nbhdF f e2, (nm2.getD y none).isSome = true)

theorem loopOut_base {f : OpenHypergraph O A} {pn : List Nat}
    {visited : List Bool} {nm em : List (Option Nat)}
    (inv : LoopInv f pn [] visited nm em) : LoopOut f pn [] nm em nm em := by
  refine ⟨inv.nmlen, inv.emlen, inv.nmDiag, inv.emDiag, fun i h => h, fun j h => h,
    ?_, ?_⟩
  · intro pr hpr
    cases hpr
  · intro i hi
    have hcl := inv.closedInv i hi
    constructor
    · intro e2 p hsp
      obtain ⟨hem, hnb⟩ := hcl.1 e2 p hsp
      refine ⟨hem, ?_⟩
      intro y hy
      rcases inv.visitedInv y (hnb y hy) with ⟨q, hql⟩ | hsome
      · cases hql
      · exact hsome
    · intro e2 p hsp
      obtain ⟨hem, hnb⟩ := hcl.2 e2 p hsp
      refine ⟨hem, ?_⟩
      intro y hy
      rcases inv.visitedInv y (hnb y hy) with ⟨q, hql⟩ | hsome
      · cases hql
      · exact hsome

end OpenHypergraphsIso

namespace OpenHypergraphsIso

theorem searchLoop_master [DecidableEq O] [DecidableEq A] {f g : OpenHypergraph O A}
    {pn : List Nat} (H : MirrorHyp f g pn) :
    ∀ (fuel : Nat) (stack : List (Nat × Nat)) (visited : List Bool)
      (nm em : List (Option Nat)),
      LoopInv f pn stack visited nm em →
      countFalse visited + stack.length ≤ fuel →
      ∃ nm2 em2,
        searchLoop f g (Index.new f.hypergraph) (Index.new g.hypergraph)
            fuel stack visited nm em = some (Except.ok (nm2, em2)) ∧
        LoopOut f pn stack nm em nm2 em2 := by
  intro fuel
  induction fuel with
  | zero =>
    intro stack visited nm em inv hfuel
    cases stack with
    | nil => exact ⟨nm, em, rfl, loopOut_base inv⟩
    | cons a s =>
      simp only [List.length_cons] at hfuel
      omega
  | succ fuel ih =>
    intro stack visited nm em inv hfuel
    cases stack with
    | nil => exact ⟨nm, em, rfl, loopOut_base inv⟩
    | cons xq stack2 =>
      obtain ⟨hxlt, hq, hxvis⟩ := inv.stackOk xq (List.mem_cons_self _ _)
      have hEsrc : ∀ e2 p, (Index.new f.hypergraph).of_source xq.1 = some (e2, p) →
          ∃ fadj, f.hypergraph.adjacency.get? e2 = some fadj := by
        intro e2 p h
        rcases index_entry_adj_src h with ⟨fadj, hadj, -⟩
        exact ⟨fadj, hadj⟩
      have hEtgt : ∀ e2 p, (Index.new f.hypergraph).of_target xq.1 = some (e2, p) →
          ∃ fadj, f.hypergraph.adjacency.get? e2 = some fadj := by
        intro e2 p h
        rcases index_entry_adj_tgt h with ⟨fadj, hadj, -⟩
        exact ⟨fadj, hadj⟩
      have hEsrc2 : ∀ e2 p, (Index.new f.hypergraph).of_source xq.1 = some (e2, p) →
          (∃ fadj, f.hypergraph.adjacency.get? e2 = some fadj) ∧
            e2 < f.hypergraph.edges.length := by
        intro e2 p h
        rcases index_entry_adj_src h with ⟨fadj, hadj, -⟩
        rcases List.get?_eq_some.1 hadj with ⟨hlt, -⟩
        exact ⟨⟨fadj, hadj⟩, H.wf.1 ▸ hlt⟩
      have hEtgt2 : ∀ e2 p, (Index.new f.hypergraph).of_target xq.1 = some (e2, p) →
          (∃ fadj, f.hypergraph.adjacency.get? e2 = some fadj) ∧
            e2 < f.hypergraph.edges.length := by
        intro e2 p h
        rcases index_entry_adj_tgt h with ⟨fadj, hadj, -⟩
        rcases List.get?_eq_some.1 hadj with ⟨hlt, -⟩
        exact ⟨⟨fadj, hadj⟩, H.wf.1 ▸ hlt⟩
      have hstep : searchLoop f g (Index.new f.hypergraph) (Index.new g.hypergraph)
          (fuel + 1) (xq :: stack2) visited nm em =
          searchLoop f g (Index.new f.hypergraph) (Index.new g.hypergraph) fuel
            (DirOut f pn ((Index.new f.hypergraph).of_target xq.1)
              (DirOut f pn ((Index.new f.hypergraph).of_source xq.1)
                stack2 visited em).1
              (DirOut f pn ((Index.new f.hypergraph).of_source xq.1)
                stack2 visited em).2.1
              (DirOut f pn ((Index.new f.hypergraph).of_source xq.1)
                stack2 visited em).2.2).1
            (DirOut f pn ((Index.new f.hypergraph).of_target xq.1)
              (DirOut f pn ((Index.new f.hypergraph).of_source xq.1)
                stack2 visited em).1
              (DirOut f pn ((Index.new f.hypergraph).of_source xq.1)
                stack2 visited em).2.1
              (DirOut f pn ((Index.new f.hypergraph).of_source xq.1)
                stack2 visited em).2.2).2.1
            (nm.set xq.1 (some (permApply pn xq.1)))
            (DirOut f pn ((Index.new f.hypergraph).of_target xq.1)
              (DirOut f pn ((Index.new f.hypergraph).of_source xq.1)
                stack2 visited em).1
              (DirOut f pn ((Index.new f.hypergraph).of_source xq.1)
                stack2 visited em).2.1
              (DirOut f pn ((Index.new f.hypergraph).of_source xq.1)
                stack2 visited em).2.2).2.2 := by
        simp only [searchLoop]
        rw [hq, H.gnodes xq.1 hxlt, if_neg (not_not_intro rfl)]
        rw [(mirror_index H xq.1 hxlt).1, (mirror_index H xq.1 hxlt).2]
        rw [processDirection_mirror H hEsrc stack2 visited em]
        show (match processDirection f g ((Index.new f.hypergraph).of_target xq.1)
            ((Index.new f.hypergraph).of_target xq.1) xq.1 (permApply pn xq.1)
            (DirOut f pn ((Index.new f.hypergraph).of_source xq.1)
              stack2 visited em).1
            (DirOut f pn ((Index.new f.hypergraph).of_source xq.1)
              stack2 visited em).2.1
            (DirOut f pn ((Index.new f.hypergraph).of_source xq.1)
              stack2 visited em).2.2 with
          | Except.error e => some (Except.error e)
          | Except.ok svem2 =>
            searchLoop f g (Index.new f.hypergraph) (Index.new g.hypergraph) fuel
              svem2.1 svem2.2.1 (nm.set xq.1 (some (permApply pn xq.1)))
              svem2.2.2) = _
        rw [processDirection_mirror H hEtgt _ _ _]
      have D1f := @dirOut_facts O A f pn H.wf ((Index.new f.hypergraph).of_source xq.1)
        hEsrc2 stack2 visited em inv.vlen inv.emlen
      obtain ⟨d1vlen, d1emlen, d1smem, d1smono, d1vmono, d1vnew, d1emmono, d1emdiag,
        d1guar, d1meas⟩ := D1f
      have D2f := @dirOut_facts O A f pn H.wf ((Index.new f.hypergraph).of_target xq.1)
        hEtgt2
        (DirOut f pn ((Index.new f.hypergraph).of_source xq.1) stack2 visited em).1
        (DirOut f pn ((Index.new f.hypergraph).of_source xq.1) stack2 visited em).2.1
        (DirOut f pn ((Index.new f.hypergraph).of_source xq.1) stack2 visited em).2.2
        (by rw [d1vlen, inv.vlen]) (by rw [d1emlen, inv.emlen])
      obtain ⟨d2vlen, d2emlen, d2smem, d2smono, d2vmono, d2vnew, d2emmono, d2emdiag,
        d2guar, d2meas⟩ := D2f
      have hnmset : ((nm.set xq.1 (some (permApply pn xq.1))).getD xq.1 none).isSome
          = true := by
        rw [getD_set_self2 (by rw [inv.nmlen]; exact hxlt)]
        rfl
      have hinv2 : LoopInv f pn
          (DirOut f pn ((Index.new f.hypergraph).of_target xq.1)
            (DirOut f pn ((Index.new f.hypergraph).of_source xq.1) stack2 visited em).1
            (DirOut f pn ((Index.new f.hypergraph).of_source xq.1) stack2 visited em).2.1
            (DirOut f pn ((Index.new f.hypergraph).of_source xq.1) stack2 visited em).2.2).1
          (DirOut f pn ((Index.new f.hypergraph).of_target xq.1)
            (DirOut f pn ((Index.new f.hypergraph).of_source xq.1) stack2 visited em).1
            (DirOut f pn ((Index.new f.hypergraph).of_source xq.1) stack2 visited em).2.1
            (DirOut f pn ((Index.new f.hypergraph).of_source xq.1) stack2 visited em).2.2).2.1
          (nm.set xq.1 (some (permApply pn xq.1)))
          (DirOut f pn ((Index.new f.hypergraph).of_target xq.1)
            (DirOut f pn ((Index.new f.hypergraph).of_source xq.1) stack2 visited em).1
            (DirOut f pn ((Index.new f.hypergraph).of_source xq.1) stack2 visited em).2.1
            (DirOut f pn ((Index.new f.hypergraph).of_source xq.1) stack2 visited em).2.2).2.2
          := by
        refine ⟨by rw [d2vlen, d1vlen, inv.vlen], by simp [inv.nmlen],
          by rw [d2emlen, d1emlen, inv.emlen], ?_, ?_, ?_, ?_, ?_⟩
        · intro pr hpr
          rcases d2smem pr hpr with hpr1 | ⟨e2, p, hentry, hnb, hdiag⟩
          · rcases d1smem pr hpr1 with hpr0 | ⟨e2, p, hentry, hnb, hdiag⟩
            · obtain ⟨hlt0, hdiag0, hvis0⟩ := inv.stackOk pr (List.mem_cons_of_mem xq hpr0)
              exact ⟨hlt0, hdiag0, d2vmono _ (d1vmono _ hvis0)⟩
            · rcases hEsrc2 e2 p hentry with ⟨⟨fadj, hadj⟩, -⟩
              refine ⟨nbhdF_lt H.wf hadj pr.1 hnb, hdiag, ?_⟩
              exact d2vmono _ ((d1guar e2 p hentry).2 pr.1 hnb)
          · rcases hEtgt2 e2 p hentry with ⟨⟨fadj, hadj⟩, -⟩
            refine ⟨nbhdF_lt H.wf hadj pr.1 hnb, hdiag, ?_⟩
            exact (d2guar e2 p hentry).2 pr.1 hnb
        · intro i v hv
          by_cases hix : i = xq.1
          · subst hix
            rw [getD_set_self2 (by rw [inv.nmlen]; exact hxlt)] at hv
            exact (Option.some.inj hv).symm
          · rw [getD_set_ne2 hix] at hv
            exact inv.nmDiag i v hv
        · exact d2emdiag (d1emdiag inv.emDiag)
        · intro i hvis
          rcases d2vnew i hvis with hvis1 | hstacked
          · rcases d1vnew i hvis1 with hvis0 | hstacked
            · rcases inv.visitedInv i hvis0 with ⟨q2, hq2⟩ | hsome
              · rcases List.mem_cons.1 hq2 with hhead | htail
                · right
                  have hixq : i = xq.1 := by rw [← hhead]
                  rw [hixq]
                  exact hnmset
                · left
                  exact ⟨q2, d2smono _ (d1smono _ htail)⟩
              · exact Or.inr (set_isSome_mono hsome)
            · rcases hstacked with ⟨q2, hq2⟩
              exact Or.inl ⟨q2, d2smono _ hq2⟩
          · rcases hstacked with ⟨q2, hq2⟩
            exact Or.inl ⟨q2, hq2⟩
        · intro i hsome
          by_cases hix : i = xq.1
          · subst hix
            constructor
            · intro e2 p hsp
              obtain ⟨hem1, hvis1⟩ := d1guar e2 p hsp
              exact ⟨d2emmono _ hem1, fun y hy => d2vmono _ (hvis1 y hy)⟩
            · intro e2 p hsp
              exact d2guar e2 p hsp
          · rw [getD_set_ne2 hix] at hsome
            have hcl := inv.closedInv i hsome
            constructor
            · intro e2 p hsp
              obtain ⟨hem0, hvis0⟩ := hcl.1 e2 p hsp
              exact ⟨d2emmono _ (d1emmono _ hem0),
                fun y hy => d2vmono _ (d1vmono _ (hvis0 y hy))⟩
            · intro e2 p hsp
              obtain ⟨hem0, hvis0⟩ := hcl.2 e2 p hsp
              exact ⟨d2emmono _ (d1emmono _ hem0),
                fun y hy => d2vmono _ (d1vmono _ (hvis0 y hy))⟩
      have hmeas2 : countFalse
          (DirOut f pn ((Index.new f.hypergraph).of_target xq.1)
            (DirOut f pn ((Index.new f.hypergraph).of_source xq.1) stack2 visited em).1
            (DirOut f pn ((Index.new f.hypergraph).of_source xq.1) stack2 visited em).2.1
            (DirOut f pn ((Index.new f.hypergraph).of_source xq.1) stack2 visited em).2.2).2.1
          + (DirOut f pn ((Index.new f.hypergraph).of_target xq.1)
            (DirOut f pn ((Index.new f.hypergraph).of_source xq.1) stack2 visited em).1
            (DirOut f pn ((Index.new f.hypergraph).of_source xq.1) stack2 visited em).2.1
            (DirOut f pn ((Index.new f.hypergraph).of_source xq.1) stack2 visited em).2.2).1.length
          ≤ fuel := by
        rw [d2meas, d1meas]
        simp only [List.length_cons] at hfuel
        omega
      rcases ih _ _ _ _ hinv2 hmeas2 with ⟨nm2, em2, hrun, hout⟩
      refine ⟨nm2, em2, ?_, ?_⟩
      · rw [hstep]
        exact hrun
      · refine ⟨hout.nmlen, hout.emlen, hout.nmDiag, hout.emDiag, ?_, ?_, ?_, hout.closed⟩
        · intro i hsome
          exact hout.nmMono i (set_isSome_mono hsome)
        · intro j hsome
          exact hout.emMono j (d2emmono _ (d1emmono _ hsome))
        · intro pr hpr
          rcases List.mem_cons.1 hpr with hhead | htail
          · have : pr.1 = xq.1 := by rw [hhead]
            rw [this]
            exact hout.nmMono xq.1 hnmset
          · exact hout.seeds pr (d2smono _ (d1smono _ htail))

end OpenHypergraphsIso

namespace OpenHypergraphsIso

/-! ## The initial search state satisfies the loop invariant -/

theorem getD_replicate_none (n j : Nat) :
    (List.replicate n (none : Option Nat)).getD j none = none := by
  simp only [List.getD_eq_getElem?_getD, List.getElem?_replicate]
  split <;> rfl

theorem foldl_set_length : ∀ (xs : List Nat) (v : List Bool),
    (xs.foldl (fun v2 x => v2.set x true) v).length = v.length := by
  intro xs
  induction xs with
  | nil => intro v; rfl
  | cons x rest ih =>
    intro v
    rw [List.foldl_cons, ih]
    exact List.length_set v x true

theorem getD_set_true_iff {v : List Bool} {x i : Nat} :
    (v.set x true).getD i false = true ↔
      v.getD i false = true ∨ (i = x ∧ i < v.length) := by
  by_cases hix : i = x
  · subst hix
    by_cases hlt : i < v.length
    · simp [getD_set_self hlt, hlt]
    · rw [List.set_eq_of_length_le (Nat.le_of_not_lt hlt)]
      simp [hlt]
  · rw [getD_set_ne hix]
    simp [hix]

theorem foldl_set_getD_iff : ∀ (xs : List Nat) (v : List Bool) (i : Nat),
    ((xs.foldl (fun v2 x => v2.set x true) v).getD i false = true) ↔
      (v.getD i false = true ∨ (i ∈ xs ∧ i < v.length)) := by
  intro xs
  induction xs with
  | nil => intro v i; simp
  | cons x rest ih =>
    intro v i
    rw [List.foldl_cons, ih, getD_set_true_iff]
    simp only [List.length_set, List.mem_cons]
    constructor
    · rintro ((hv | ⟨hix, hlt⟩) | ⟨hmem, hlt⟩)
      · exact Or.inl hv
      · exact Or.inr ⟨Or.inl hix, hlt⟩
      · exact Or.inr ⟨Or.inr hmem, hlt⟩
    · rintro (hv | ⟨hix | hmem, hlt⟩)
      · exact Or.inl (Or.inl hv)
      · exact Or.inl (Or.inr ⟨hix, hlt⟩)
      · exact Or.inr ⟨hmem, hlt⟩

theorem initialVisited_length (f : OpenHypergraph O A) :
    (initialVisited f).length = f.hypergraph.nodes.length := by
  rw [initialVisited, foldl_set_length]
  exact List.length_replicate _ _

theorem initialVisited_getD_iff (f : OpenHypergraph O A) (i : Nat) :
    (initialVisited f).getD i false = true ↔
      (i ∈ f.sources ++ f.targets ∧ i < f.hypergraph.nodes.length) := by
  rw [initialVisited, foldl_set_getD_iff]
  simp [getD_replicate_false]

theorem initialStack_mem {f g : OpenHypergraph O A} {pn : List Nat}
    (H : MirrorHyp f g pn) {pr : Nat × Nat} :
    pr ∈ initialStack f g ↔
      (pr.1 ∈ f.sources ++ f.targets ∧ pr.2 = permApply pn pr.1) := by
  rw [initialStack, List.mem_reverse, H.gsrc, H.gtgt, zip_map_self, zip_map_self,
    ← List.map_append, List.mem_map]
  constructor
  · rintro ⟨y, hy, rfl⟩
    exact ⟨hy, rfl⟩
  · rintro ⟨hmem, heq⟩
    cases pr with
    | mk a b =>
      refine ⟨a, hmem, ?_⟩
      have hb : b = permApply pn a := heq
      rw [hb]

theorem initial_loopInv {f g : OpenHypergraph O A} {pn : List Nat}
    (H : MirrorHyp f g pn) :
    LoopInv f pn (initialStack f g) (initialVisited f)
      (List.replicate f.hypergraph.nodes.length none)
      (List.replicate f.hypergraph.edges.length none) := by
  refine ⟨initialVisited_length f, List.length_replicate _ _, List.length_replicate _ _,
    ?_, ?_, ?_, ?_, ?_⟩
  · intro pr hpr
    obtain ⟨hmem, hq⟩ := (initialStack_mem H).1 hpr
    have hlt : pr.1 < f.hypergraph.nodes.length := by
      rcases List.mem_append.1 hmem with h | h
      · exact H.wf.2.2.1 pr.1 h
      · exact H.wf.2.2.2 pr.1 h
    exact ⟨hlt, hq, (initialVisited_getD_iff f pr.1).2 ⟨hmem, hlt⟩⟩
  · intro i v hv
    rw [getD_replicate_none] at hv
    cases hv
  · intro j w hw
    rw [getD_replicate_none] at hw
    cases hw
  · intro i hvis
    obtain ⟨hmem, _⟩ := (initialVisited_getD_iff f i).1 hvis
    exact Or.inl ⟨permApply pn i, (initialStack_mem H).2 ⟨hmem, rfl⟩⟩
  · intro i hsome
    rw [getD_replicate_none] at hsome
    cases hsome

theorem countFalse_le_length (v : List Bool) : countFalse v ≤ v.length :=
  List.count_le_length false v

end OpenHypergraphsIso

namespace OpenHypergraphsIso

/-! ## Completeness of the traversal on a connected input -/

theorem mem_get?_exists {l : List Nat} {x : Nat} (h : x ∈ l) :
    ∃ p, l.get? p = some x := by
  rcases List.mem_iff_get.1 h with ⟨i, hi⟩
  exact ⟨i.1, by rw [List.get?_eq_get i.isLt]; exact congrArg some hi⟩

theorem srcOcc_pos {f : OpenHypergraph O A} {x : Nat} {adj : Adjacency}
    (hmem : adj ∈ f.hypergraph.adjacency) (hx : x ∈ adj.sources) :
    1 ≤ srcOcc f x := by
  rw [srcOcc]
  have h1 : adj.sources.count x ∈
      f.hypergraph.adjacency.map (fun a => a.sources.count x) :=
    List.mem_map_of_mem _ hmem
  calc 1 ≤ adj.sources.count x := List.one_le_count_iff.2 hx
    _ ≤ _ := List.single_le_sum (fun y _ => Nat.zero_le y) _ h1

theorem tgtOcc_pos {f : OpenHypergraph O A} {x : Nat} {adj : Adjacency}
    (hmem : adj ∈ f.hypergraph.adjacency) (hx : x ∈ adj.targets) :
    1 ≤ tgtOcc f x := by
  rw [tgtOcc]
  have h1 : adj.targets.count x ∈
      f.hypergraph.adjacency.map (fun a => a.targets.count x) :=
    List.mem_map_of_mem _ hmem
  calc 1 ≤ adj.targets.count x := List.one_le_count_iff.2 hx
    _ ≤ _ := List.single_le_sum (fun y _ => Nat.zero_le y) _ h1

theorem index_src_entry {f : OpenHypergraph O A} {x e : Nat} {adj : Adjacency}
    (hm : srcOcc f x ≤ 1)
    (hadj : f.hypergraph.adjacency.get? e = some adj) (hx : x ∈ adj.sources) :
    ∃ p, (Index.new f.hypergraph).of_source x = some (e, p) := by
  rcases mem_get?_exists hx with ⟨p, hp⟩
  exact ⟨p, (index_of_source_eq hm).2 ⟨adj, hadj, hp⟩⟩

theorem index_tgt_entry {f : OpenHypergraph O A} {x e : Nat} {adj : Adjacency}
    (hm : tgtOcc f x ≤ 1)
    (hadj : f.hypergraph.adjacency.get? e = some adj) (hx : x ∈ adj.targets) :
    ∃ p, (Index.new f.hypergraph).of_target x = some (e, p) := by
  rcases mem_get?_exists hx with ⟨p, hp⟩
  exact ⟨p, (index_of_target_eq hm).2 ⟨adj, hadj, hp⟩⟩

theorem getD_adj_of_get? {f : OpenHypergraph O A} {e : Nat} {adj : Adjacency}
    (hadj : f.hypergraph.adjacency.get? e = some adj) :
    f.hypergraph.adjacency.getD e ⟨[], []⟩ = adj := by
  rcases List.get?_eq_some.1 hadj with ⟨hlt, hget⟩
  rw [list_getD_lt _ hlt, hget]

theorem reach_nm_some {f g : OpenHypergraph O A} {pn : List Nat}
    (H : MirrorHyp f g pn) {nm2 em2 : List (Option Nat)}
    (out : LoopOut f pn (initialStack f g)
      (List.replicate f.hypergraph.nodes.length none)
      (List.replicate f.hypergraph.edges.length none) nm2 em2) :
    ∀ x, ReachN f x → (nm2.getD x none).isSome = true := by
  intro x hx
  induction hx with
  | seed y hy =>
    have hmem : y ∈ f.sources ++ f.targets := List.mem_append.2 hy
    exact out.seeds (y, permApply pn y) ((initialStack_mem H).2 ⟨hmem, rfl⟩)
  | step a y e adj ha hadj hamem hymem ih =>
    have hclosed := out.closed a ih
    have hadjmem : adj ∈ f.hypergraph.adjacency := List.get?_mem hadj
    have hbnds := H.wf.2.1 adj hadjmem
    have hnbhd : ∀ z ∈ nbhdF f e, (nm2.getD z none).isSome = true := by
      rcases hamem with hsrc | htgt
      · have halt : a < f.hypergraph.nodes.length := hbnds.1 a hsrc
        rcases index_src_entry (H.mono.1 a halt).1 hadj hsrc with ⟨p, hp⟩
        exact (hclosed.1 e p hp).2
      · have halt : a < f.hypergraph.nodes.length := hbnds.2 a htgt
        rcases index_tgt_entry (H.mono.1 a halt).2 hadj htgt with ⟨p, hp⟩
        exact (hclosed.2 e p hp).2
    apply hnbhd
    rw [nbhdF, getD_adj_of_get? hadj]
    exact List.mem_append.2 hymem

theorem reachE_em_some {f g : OpenHypergraph O A} {pn : List Nat}
    (H : MirrorHyp f g pn) {nm2 em2 : List (Option Nat)}
    (out : LoopOut f pn (initialStack f g)
      (List.replicate f.hypergraph.nodes.length none)
      (List.replicate f.hypergraph.edges.length none) nm2 em2) :
    ∀ e, ReachE f e → (em2.getD e none).isSome = true := by
  intro e he
  rcases he with ⟨x, adj, hx, hadj, hxmem⟩
  have hx2 := reach_nm_some H out x hx
  have hclosed := out.closed x hx2
  have hadjmem : adj ∈ f.hypergraph.adjacency := List.get?_mem hadj
  have hbnds := H.wf.2.1 adj hadjmem
  rcases hxmem with hsrc | htgt
  · have hxlt : x < f.hypergraph.nodes.length := hbnds.1 x hsrc
    rcases index_src_entry (H.mono.1 x hxlt).1 hadj hsrc with ⟨p, hp⟩
    exact (hclosed.1 e p hp).1
  · have hxlt : x < f.hypergraph.nodes.length := hbnds.2 x htgt
    rcases index_tgt_entry (H.mono.1 x hxlt).2 hadj htgt with ⟨p, hp⟩
    exact (hclosed.2 e p hp).1

/-! ## Extracting the final mappings -/

theorem getD_isSome_lt {l : List (Option Nat)} {j : Nat}
    (h : (l.getD j none).isSome = true) : j < l.length := by
  by_contra hc
  rw [List.getD_eq_getElem?_getD, List.getElem?_eq_none (Nat.le_of_not_lt hc)] at h
  cases h

theorem all_some_eq_map {nm2 : List (Option Nat)} {pn : List Nat}
    (hlen : nm2.length = pn.length)
    (hsome : ∀ i < pn.length, (nm2.getD i none).isSome = true)
    (hdiag : ∀ i v, nm2.getD i none = some v → v = permApply pn i) :
    nm2 = pn.map some := by
  apply List.ext_get?
  intro i
  by_cases hi : i < pn.length
  · have hs := hsome i hi
    cases hv : nm2.getD i none with
    | none => rw [hv] at hs; cases hs
    | some v =>
      have hveq := hdiag i v hv
      have hlt : i < nm2.length := by omega
      have hget : nm2.get? i = some (some v) := by
        rw [List.get?_eq_get hlt]
        rw [list_getD_lt none hlt] at hv
        rw [hv]
      rw [hget, hveq, List.get?_map, List.get?_eq_get hi, permApply_lt hi]
      rfl
  · have h1 : nm2.length ≤ i := by omega
    have h2 : (pn.map some).length ≤ i := by
      rw [List.length_map]
      exact Nat.le_of_not_lt hi
    rw [List.get?_eq_none.2 h1, List.get?_eq_none.2 h2]

theorem unwrapMapping_map_some (mkErr : Nat → Error) :
    ∀ (xs : List Nat) (i : Nat), unwrapMapping mkErr i (xs.map some) = Except.ok xs := by
  intro xs
  induction xs with
  | nil => intro i; rfl
  | cons x rest ih =>
    intro i
    rw [List.map_cons, unwrapMapping, ih]

end OpenHypergraphsIso

namespace OpenHypergraphsIso

/-! ## The monogamicity check and the nogood filter pass under the mirror -/

theorem searchstate_new_mono {f : OpenHypergraph O A} (g : OpenHypergraph O A)
    (hm : Monogamous f) :
    SearchState.new f g = Except.ok (Index.new f.hypergraph, Index.new g.hypergraph) := by
  have h1 : f.sources.find? (fun s => ((Index.new f.hypergraph).of_target s).isSome) =
      none := by
    rw [List.find?_eq_none]
    intro s hs
    simp only [Bool.not_eq_true]
    cases hsome : ((Index.new f.hypergraph).of_target s).isSome with
    | false => rfl
    | true =>
      rcases index_of_target_mem hsome with ⟨adj, hadjmem, hmem⟩
      have hpos := tgtOcc_pos hadjmem hmem
      have h0 := hm.2.1 s hs
      omega
  have h2 : f.targets.find? (fun t => ((Index.new f.hypergraph).of_source t).isSome) =
      none := by
    rw [List.find?_eq_none]
    intro t ht
    simp only [Bool.not_eq_true]
    cases hsome : ((Index.new f.hypergraph).of_source t).isSome with
    | false => rfl
    | true =>
      rcases index_of_source_mem hsome with ⟨adj, hadjmem, hmem⟩
      have hpos := srcOcc_pos hadjmem hmem
      have h0 := hm.2.2 t ht
      omega
  rw [SearchState.new, h1, h2]

theorem perm_range {pn : List Nat} {n : Nat} (hlen : pn.length = n)
    (hr : ∀ v ∈ pn, v < n) (hn : pn.Nodup) : List.Perm pn (List.range n) := by
  rw [List.perm_ext_iff_of_nodup hn (List.nodup_range n)]
  intro a
  rw [List.mem_range]
  constructor
  · exact fun h => hr a h
  · intro h
    exact mem_of_nodup_length (fun v hv => hlen ▸ hr v hv) hn a (hlen ▸ h)

theorem map_some_eq_map_get? {α : Type _} (l : List α) :
    l.map some = (List.range l.length).map (fun j => l.get? j) := by
  apply List.ext_get?
  intro i
  rw [List.get?_map, List.get?_map]
  by_cases hi : i < l.length
  · rw [List.get?_eq_get hi, List.get?_eq_get (by simpa using hi)]
    simp [List.get_range, List.get?_eq_get hi]
  · have h1 : l.length ≤ i := Nat.le_of_not_lt hi
    rw [List.get?_eq_none.2 h1, List.get?_eq_none.2 (by simpa using h1)]
    rfl

theorem mirror_nodes_perm [DecidableEq O] {f g : OpenHypergraph O A} {pn : List Nat}
    (H : MirrorHyp f g pn) :
    List.Perm f.hypergraph.nodes g.hypergraph.nodes := by
  have hperm : List.Perm pn (List.range f.hypergraph.nodes.length) :=
    perm_range H.plen H.prange H.pnodup
  have hmap1 : f.hypergraph.nodes.map some =
      pn.map (fun j => g.hypergraph.nodes.get? j) := by
    apply List.ext_get?
    intro i
    rw [List.get?_map, List.get?_map]
    by_cases hi : i < f.hypergraph.nodes.length
    · have hip : i < pn.length := by rw [H.plen]; exact hi
      rw [List.get?_eq_get hi, List.get?_eq_get hip]
      have hg := H.gnodes i hi
      rw [permApply_lt hip] at hg
      simp only [Option.map_some']
      rw [hg, List.get?_eq_get hi]
    · have h1 : f.hypergraph.nodes.length ≤ i := Nat.le_of_not_lt hi
      rw [List.get?_eq_none.2 h1, List.get?_eq_none.2 (by rw [H.plen]; exact h1)]
      rfl
  have hmap2 := map_some_eq_map_get? g.hypergraph.nodes
  have hperm2 : List.Perm (f.hypergraph.nodes.map some)
      (g.hypergraph.nodes.map some) := by
    rw [hmap1, hmap2, H.gnlen]
    exact hperm.map _
  rw [List.perm_iff_count]
  intro a
  have hc := List.perm_iff_count.1 hperm2 (some a)
  rwa [List.count_map_of_injective _ some (Option.some_injective _) a,
    List.count_map_of_injective _ some (Option.some_injective _) a] at hc

theorem nogood_mirror [DecidableEq O] [DecidableEq A] {f g : OpenHypergraph O A}
    {pn : List Nat} (H : MirrorHyp f g pn) : nogood f g = some () := by
  have hedges : List.Perm f.hypergraph.edges g.hypergraph.edges := by
    rw [H.gedges]
  have hsrcL : sourceLabels f = sourceLabels g := by
    rw [sourceLabels, sourceLabels, H.gsrc, List.map_map]
    apply List.map_congr_left
    intro s hs
    exact (H.gnodes s (H.wf.2.2.1 s hs)).symm
  have htgtL : targetLabels f = targetLabels g := by
    rw [targetLabels, targetLabels, H.gtgt, List.map_map]
    apply List.map_congr_left
    intro s hs
    exact (H.gnodes s (H.wf.2.2.2 s hs)).symm
  rw [nogood,
    if_neg (not_not_intro ((is_sorted_equal_iff_perm _ _).2 (mirror_nodes_perm H))),
    if_neg (not_not_intro ((is_sorted_equal_iff_perm _ _).2 hedges)),
    if_neg (not_not_intro hsrcL), if_neg (not_not_intro htgtL)]

end OpenHypergraphsIso

namespace OpenHypergraphsIso

/-- The traversal, on a connected monogamous well-formed `f` and its mirrored
copy `g` along `pn`, returns exactly `pn` on nodes and the identity on edges. -/
theorem find_isomorphism_mirror [DecidableEq O] [DecidableEq A]
    {f g : OpenHypergraph O A} {pn : List Nat} (H : MirrorHyp f g pn)
    (hcon : Connected f) :
    find_isomorphism f g =
      some (Except.ok ⟨pn, List.range f.hypergraph.edges.length⟩) := by
  obtain ⟨nm2, em2, hrun, hout⟩ := searchLoop_master H
    (f.hypergraph.nodes.length + (initialStack f g).length + 1)
    (initialStack f g) (initialVisited f)
    (List.replicate f.hypergraph.nodes.length none)
    (List.replicate f.hypergraph.edges.length none)
    (initial_loopInv H)
    (by
      have h1 := countFalse_le_length (initialVisited f)
      rw [initialVisited_length] at h1
      omega)
  have hnm : nm2 = pn.map some :=
    all_some_eq_map (by rw [hout.nmlen, H.plen])
      (fun i hi => reach_nm_some H hout i (hcon.1 i (by rw [H.plen] at hi; exact hi)))
      hout.nmDiag
  have hem : em2 = (List.range f.hypergraph.edges.length).map some :=
    all_some_eq_map (by rw [hout.emlen, List.length_range])
      (fun j hj => reachE_em_some H hout j
        (hcon.2 j (by rw [List.length_range] at hj; exact hj)))
      (fun j w hw => by
        have hj : j < em2.length := getD_isSome_lt (by rw [hw]; rfl)
        rw [hout.emDiag j w hw,
          permApply_lt (by rw [List.length_range, ← hout.emlen]; exact hj)]
        exact (List.get_range _ _).symm)
  have hsf : stateFind f g (Index.new f.hypergraph) (Index.new g.hypergraph) =
      some (Except.ok (pn, List.range f.hypergraph.edges.length)) := by
    rw [stateFind, nogood_mirror H]
    dsimp only
    rw [hrun]
    dsimp only
    rw [hnm, unwrapMapping_map_some]
    dsimp only
    rw [hem, unwrapMapping_map_some]
  rw [find_isomorphism, searchstate_new_mono g H.mono]
  dsimp only
  rw [hsf]
  dsimp only
  rw [Permutation.new_eq_some_self
      (fun v hv => H.plen ▸ H.prange v hv) H.pnodup]
  dsimp only
  rw [Permutation.new_eq_some_self
      (fun v hv => by rw [List.length_range]; exact List.mem_range.1 hv)
      (List.nodup_range _)]

end OpenHypergraphsIso

namespace OpenHypergraphsIso

/-! ## Claim C1: reflexivity of the search -/

theorem permApply_range {n i : Nat} (hi : i < n) :
    permApply (List.range n) i = i := by
  rw [permApply_lt (by simpa using hi)]
  exact List.get_range _ _

theorem map_permApply_range {l : List Nat} {n : Nat} (hl : ∀ x ∈ l, x < n) :
    l.map (permApply (List.range n)) = l := by
  have h1 : ∀ x ∈ l, permApply (List.range n) x = id x :=
    fun x hx => permApply_range (hl x hx)
  rw [List.map_congr_left h1, List.map_id]

theorem adj_map_range_eq {n : Nat} {a : Adjacency}
    (hs : ∀ x ∈ a.sources, x < n) (ht : ∀ x ∈ a.targets, x < n) :
    (⟨a.sources.map (permApply (List.range n)),
      a.targets.map (permApply (List.range n))⟩ : Adjacency) = a := by
  cases a with
  | mk s t =>
    simp only
    rw [map_permApply_range hs, map_permApply_range ht]

theorem mirrorHyp_self {h : OpenHypergraph O A} (hwf : WF h) (hm : Monogamous h) :
    MirrorHyp h h (List.range h.hypergraph.nodes.length) := by
  refine ⟨hwf, hm, List.length_range _, fun v hv => List.mem_range.1 hv,
    List.nodup_range _, rfl, ?_, rfl, ?_, ?_, ?_⟩
  · intro x hx
    rw [permApply_range hx]
  · have h1 : ∀ a ∈ h.hypergraph.adjacency, id a =
        (⟨a.sources.map (permApply (List.range h.hypergraph.nodes.length)),
          a.targets.map (permApply (List.range h.hypergraph.nodes.length))⟩ :
          Adjacency) := by
      intro a ha
      have hb := hwf.2.1 a ha
      exact (adj_map_range_eq hb.1 hb.2).symm
    calc h.hypergraph.adjacency = h.hypergraph.adjacency.map id :=
          (List.map_id _).symm
      _ = _ := List.map_congr_left h1
  · exact (map_permApply_range hwf.2.2.1).symm
  · exact (map_permApply_range hwf.2.2.2).symm

theorem identity_validateSpec {h : OpenHypergraph O A} (hwf : WF h) :
    ValidateSpec (Isomorphism.identity h.hypergraph.nodes.length
      h.hypergraph.edges.length) h h := by
  refine ⟨?_, ?_, ?_, ?_, ?_⟩
  · intro i hi
    rw [show (Isomorphism.identity h.hypergraph.nodes.length
        h.hypergraph.edges.length).nodes = List.range h.hypergraph.nodes.length from rfl,
      permApply_range hi]
  · intro j hj
    rw [show (Isomorphism.identity h.hypergraph.nodes.length
        h.hypergraph.edges.length).edges = List.range h.hypergraph.edges.length from rfl,
      permApply_range hj]
  · intro j fadj hj
    have hjlt : j < h.hypergraph.edges.length := by
      rcases List.get?_eq_some.1 hj with ⟨hlt, -⟩
      rw [← hwf.1]
      exact hlt
    have hb := hwf.2.1 fadj (List.get?_mem hj)
    rw [show (Isomorphism.identity h.hypergraph.nodes.length
        h.hypergraph.edges.length).edges = List.range h.hypergraph.edges.length from rfl,
      show (Isomorphism.identity h.hypergraph.nodes.length
        h.hypergraph.edges.length).nodes = List.range h.hypergraph.nodes.length from rfl,
      permApply_range hjlt, hj, adj_map_range_eq hb.1 hb.2]
  · exact (map_permApply_range hwf.2.2.1).symm
  · exact (map_permApply_range hwf.2.2.2).symm

/-- A hypergraph whose node `1` is outside the interfaces and not adjacent to
any hyperedge: the worklist never reaches it. -/
def hC1 : OpenHypergraph Nat Nat := ⟨⟨[0, 0], [], []⟩, [0], [0]⟩

/-- C1 (counterexample): `find_isomorphism(h, h)` does not return `Ok` for
every hypergraph `h` — on a disconnected `h` the traversal never reaches the
non-interface node and fails with `UnpairedNode`. -/
theorem c1_reflexivity_counterexample :
    find_isomorphism hC1 hC1 = some (Except.error (Error.UnpairedNode 1)) := by
  decide

/-- C1 (corrected): for every *well-formed, monogamous, connected* hypergraph
`h`, `find_isomorphism(h, h)` returns `Ok` with exactly the identity
permutations on `h`'s node and edge counts, and that result satisfies
`validate(h, h) = true`.  (The unqualified claim fails: see the
counterexample, where a disconnected `h` yields an `UnpairedNode` error.) -/
theorem c1_reflexivity_corrected [DecidableEq O] [DecidableEq A]
    {h : OpenHypergraph O A} (hwf : WF h) (hm : Monogamous h) (hc : Connected h) :
    find_isomorphism h h = some (Except.ok (Isomorphism.identity
      h.hypergraph.nodes.length h.hypergraph.edges.length)) ∧
    (Isomorphism.identity h.hypergraph.nodes.length
      h.hypergraph.edges.length).validate h h = true := by
  constructor
  · exact find_isomorphism_mirror (mirrorHyp_self hwf hm) hc
  · exact (validate_iff_spec _ h h hwf hwf (List.length_range _)
      (List.length_range _)).2 (identity_validateSpec hwf)

/-- A connected, monogamous, well-formed open hypergraph: one hyperedge from
node `0` to node `1`, with those nodes as the interfaces. -/
def edgeC1 : OpenHypergraph Nat Nat := ⟨⟨[10, 20], [5], [⟨[0], [1]⟩]⟩, [0], [1]⟩

theorem edgeC1_connected : Connected edgeC1 := by
  constructor
  · intro x hx
    have hx2 : x < 2 := hx
    have hx3 : x = 0 ∨ x = 1 := by omega
    rcases hx3 with rfl | rfl
    · exact ReachN.seed 0 (Or.inl (by decide))
    · exact ReachN.seed 1 (Or.inr (by decide))
  · intro e he
    have he2 : e < 1 := he
    have he0 : e = 0 := by omega
    subst he0
    exact ⟨0, ⟨[0], [1]⟩, ReachN.seed 0 (Or.inl (by decide)), rfl,
      Or.inl (by decide)⟩

theorem c1_reflexivity_corrected_witness :
    find_isomorphism edgeC1 edgeC1 = some (Except.ok (Isomorphism.identity
      edgeC1.hypergraph.nodes.length edgeC1.hypergraph.edges.length)) ∧
    (Isomorphism.identity edgeC1.hypergraph.nodes.length
      edgeC1.hypergraph.edges.length).validate edgeC1 edgeC1 = true :=
  c1_reflexivity_corrected (by decide) (by decide) edgeC1_connected

end OpenHypergraphsIso

namespace OpenHypergraphsIso

/-! ## Claim C4: apply/find round trip -/

theorem apply_nodes_length (iso : Isomorphism) (h : OpenHypergraph O A) :
    (iso.apply h).hypergraph.nodes.length = h.hypergraph.nodes.length := by
  rw [apply_nodes_eq_writeFold, writeFold_length]

theorem permApply_mem_lt {p : List Nat} {n y : Nat}
    (hr : ∀ v ∈ p, v < n) (hy : y < p.length) : permApply p y < n := by
  rw [permApply_lt hy]
  exact hr _ (p.get_mem y hy)

theorem mem_enum_range {n : Nat} {pr : Nat × Nat} :
    pr ∈ (List.range n).enum ↔ pr.2 = pr.1 ∧ pr.1 < n := by
  rw [List.mem_enum_iff_get?]
  constructor
  · intro hg
    rcases List.get?_eq_some.1 hg with ⟨hlt, hget⟩
    have hlt2 : pr.1 < n := by simpa using hlt
    rw [List.get_range] at hget
    exact ⟨hget.symm, hlt2⟩
  · rintro ⟨heq, hlt⟩
    rw [List.get?_range hlt, heq]

theorem writeFold_enum_range {α : Type _} (orig : List α) :
    writeFold orig (List.range orig.length).enum orig = orig := by
  apply List.ext_get?
  intro q
  by_cases hq : q < orig.length
  · rw [writeFold_get?_of_mem orig (List.range orig.length).enum orig q q
      (orig.get ⟨q, hq⟩) rfl (mem_enum_range.2 ⟨rfl, hq⟩)
      (fun pr hpr h2 => ((mem_enum_range.1 hpr).1).symm.trans h2)
      (List.get?_eq_get hq) hq, List.get?_eq_get hq]
  · rw [writeFold_get?_of_not_mem orig (List.range orig.length).enum orig q
      (fun pr hpr => by
        have h1 := (mem_enum_range.1 hpr).1
        have h2 := (mem_enum_range.1 hpr).2
        omega)]

theorem WF_apply {h : OpenHypergraph O A} {iso : Isomorphism} (hwf : WF h)
    (hlen : iso.nodes.length = h.hypergraph.nodes.length)
    (hr : ∀ v ∈ iso.nodes, v < h.hypergraph.nodes.length) :
    WF (iso.apply h) := by
  have hnl := apply_nodes_length iso h
  refine ⟨?_, ?_, ?_, ?_⟩
  · show (h.hypergraph.adjacency.map _).length = _
    rw [List.length_map, apply_edges_eq_writeFold, writeFold_length, hwf.1]
  · intro adj hadj
    rcases List.mem_map.1 hadj with ⟨a, ha, rfl⟩
    have hb := hwf.2.1 a ha
    constructor
    · intro x hx
      rcases List.mem_map.1 hx with ⟨y, hy, rfl⟩
      rw [hnl]
      exact permApply_mem_lt hr (hlen ▸ hb.1 y hy)
    · intro x hx
      rcases List.mem_map.1 hx with ⟨y, hy, rfl⟩
      rw [hnl]
      exact permApply_mem_lt hr (hlen ▸ hb.2 y hy)
  · intro x hx
    rcases List.mem_map.1 hx with ⟨y, hy, rfl⟩
    rw [hnl]
    exact permApply_mem_lt hr (hlen ▸ hwf.2.2.1 y hy)
  · intro x hx
    rcases List.mem_map.1 hx with ⟨y, hy, rfl⟩
    rw [hnl]
    exact permApply_mem_lt hr (hlen ▸ hwf.2.2.2 y hy)

theorem mirrorHyp_apply {h : OpenHypergraph O A} {pn : List Nat}
    (hwf : WF h) (hm : Monogamous h)
    (hlen : pn.length = h.hypergraph.nodes.length)
    (hr : ∀ v ∈ pn, v < h.hypergraph.nodes.length) (hnd : pn.Nodup) :
    MirrorHyp h ((⟨pn, List.range h.hypergraph.edges.length⟩ : Isomorphism).apply h)
      pn := by
  refine ⟨hwf, hm, hlen, hr, hnd, apply_nodes_length _ _, ?_, ?_, rfl, rfl, rfl⟩
  · intro x hx
    exact apply_nodes_get? ⟨pn, List.range h.hypergraph.edges.length⟩ h hlen hr hnd hx
  · exact writeFold_enum_range h.hypergraph.edges

theorem apply_validateSpec {h : OpenHypergraph O A} {pn : List Nat}
    (hwf : WF h) (hlen : pn.length = h.hypergraph.nodes.length)
    (hr : ∀ v ∈ pn, v < h.hypergraph.nodes.length) (hnd : pn.Nodup) :
    ValidateSpec (⟨pn, List.range h.hypergraph.edges.length⟩ : Isomorphism) h
      ((⟨pn, List.range h.hypergraph.edges.length⟩ : Isomorphism).apply h) := by
  refine ⟨?_, ?_, ?_, rfl, rfl⟩
  · intro i hi
    exact (apply_nodes_get? ⟨pn, List.range h.hypergraph.edges.length⟩ h
      hlen hr hnd hi).symm
  · intro j hj
    show h.hypergraph.edges.get? j = (writeFold h.hypergraph.edges
      (List.range h.hypergraph.edges.length).enum h.hypergraph.edges).get?
        (permApply (List.range h.hypergraph.edges.length) j)
    rw [writeFold_enum_range, permApply_range hj]
  · intro j fadj hj
    have hjlt : j < h.hypergraph.edges.length := by
      rcases List.get?_eq_some.1 hj with ⟨hlt, -⟩
      rw [← hwf.1]
      exact hlt
    show (h.hypergraph.adjacency.map _).get?
        (permApply (List.range h.hypergraph.edges.length) j) = _
    rw [permApply_range hjlt, List.get?_map, hj]
    rfl

/-- A monogamous hypergraph (one isolated node, empty interfaces) on which the
apply/find round trip fails even for the identity permutation pair. -/
def hC4 : OpenHypergraph Nat Nat := ⟨⟨[0], [], []⟩, [], []⟩

/-- C4 (counterexample): `hC4` is monogamous and the identity permutation pair
is consistent with an actual automorphism of it (it validates against the
applied copy), yet `find_isomorphism(h, apply(π)(h))` returns an error,
because the isolated node is never reached. -/
theorem c4_roundtrip_counterexample :
    Monogamous hC4 ∧
    (Isomorphism.identity 1 0).validate hC4
      ((Isomorphism.identity 1 0).apply hC4) = true ∧
    find_isomorphism hC4 ((Isomorphism.identity 1 0).apply hC4) =
      some (Except.error (Error.UnpairedNode 0)) :=
  ⟨by decide, by decide, by decide⟩

/-- C4 (corrected): for every *well-formed, connected* monogamous `h` and every
node permutation `pn` of `h`'s node count, paired with the identity edge
permutation, `find_isomorphism(h, apply(π)(h))` returns `Ok` with a permutation
pair that validates true against `(h, apply(π)(h))` — indeed it returns `π`
itself.  (Without connectivity the claim fails: see the counterexample.) -/
theorem c4_apply_find_roundtrip [DecidableEq O] [DecidableEq A]
    {h : OpenHypergraph O A} {pn : List Nat}
    (hwf : WF h) (hm : Monogamous h) (hc : Connected h)
    (hlen : pn.length = h.hypergraph.nodes.length)
    (hr : ∀ v ∈ pn, v < h.hypergraph.nodes.length) (hnd : pn.Nodup) :
    find_isomorphism h
        ((⟨pn, List.range h.hypergraph.edges.length⟩ : Isomorphism).apply h) =
      some (Except.ok ⟨pn, List.range h.hypergraph.edges.length⟩) ∧
    (⟨pn, List.range h.hypergraph.edges.length⟩ : Isomorphism).validate h
      ((⟨pn, List.range h.hypergraph.edges.length⟩ : Isomorphism).apply h) =
        true := by
  constructor
  · exact find_isomorphism_mirror (mirrorHyp_apply hwf hm hlen hr hnd) hc
  · exact (validate_iff_spec _ h _ hwf (WF_apply hwf hlen hr) hlen
      (List.length_range _)).2 (apply_validateSpec hwf hlen hr hnd)

theorem c4_apply_find_roundtrip_witness :
    find_isomorphism edgeC1
        ((⟨[1, 0], List.range edgeC1.hypergraph.edges.length⟩ :
          Isomorphism).apply edgeC1) =
      some (Except.ok ⟨[1, 0], List.range edgeC1.hypergraph.edges.length⟩) ∧
    (⟨[1, 0], List.range edgeC1.hypergraph.edges.length⟩ : Isomorphism).validate
      edgeC1 ((⟨[1, 0], List.range edgeC1.hypergraph.edges.length⟩ :
        Isomorphism).apply edgeC1) = true :=
  c4_apply_find_roundtrip (by decide) (by decide) edgeC1_connected (by decide)
    (by decide) (by decide)

end OpenHypergraphsIso

namespace OpenHypergraphsIso

/-! ## Claim C6: the worklist discipline -/

/-- The main loop instrumented with the sequence of popped `f`-nodes, in pop
order; identical to `searchLoop` except for the appended trace (the projection
theorem below makes that exact). -/
def searchLoopT [DecidableEq O] [DecidableEq A] (f g : OpenHypergraph O A)
    (fIdx gIdx : Index) :
    Nat → List (Nat × Nat) → List Bool → List (Option Nat) → List (Option Nat) →
    List Nat →
    Option (Except Error (List (Option Nat) × List (Option Nat)) × List Nat)
  | _, [], _, nm, em, tr => some (Except.ok (nm, em), tr)
  | 0, _ :: _, _, _, _, _ => none
  | fuel + 1, fngn :: stack, visited, nm, em, tr =>
    if ¬ (f.hypergraph.nodes.get? fngn.1 = g.hypergraph.nodes.get? fngn.2) then
      some (Except.error (Error.InvalidNodeMatch fngn.1 fngn.2), tr ++ [fngn.1])
    else
      match processDirection f g (fIdx.of_source fngn.1) (gIdx.of_source fngn.2)
          fngn.1 fngn.2 stack visited em with
      | Except.error e => some (Except.error e, tr ++ [fngn.1])
      | Except.ok svem =>
        match processDirection f g (fIdx.of_target fngn.1) (gIdx.of_target fngn.2)
            fngn.1 fngn.2 svem.1 svem.2.1 svem.2.2 with
        | Except.error e => some (Except.error e, tr ++ [fngn.1])
        | Except.ok svem2 =>
          searchLoopT f g fIdx gIdx fuel svem2.1 svem2.2.1
            (nm.set fngn.1 (some fngn.2)) svem2.2.2 (tr ++ [fngn.1])

theorem searchLoopT_fst [DecidableEq O] [DecidableEq A] (f g : OpenHypergraph O A)
    (fIdx gIdx : Index) :
    ∀ (fuel : Nat) (stack : List (Nat × Nat)) (visited : List Bool)
      (nm em : List (Option Nat)) (tr : List Nat),
      (searchLoopT f g fIdx gIdx fuel stack visited nm em tr).map Prod.fst =
        searchLoop f g fIdx gIdx fuel stack visited nm em := by
  intro fuel
  induction fuel with
  | zero =>
    intro stack visited nm em tr
    cases stack with
    | nil => rfl
    | cons a s => rfl
  | succ fuel ih =>
    intro stack visited nm em tr
    cases stack with
    | nil => rfl
    | cons xq stack2 =>
      simp only [searchLoopT, searchLoop]
      by_cases hlab : f.hypergraph.nodes.get? xq.1 = g.hypergraph.nodes.get? xq.2
      · simp only [if_neg (not_not_intro hlab)]
        cases h1 : processDirection f g (fIdx.of_source xq.1) (gIdx.of_source xq.2)
            xq.1 xq.2 stack2 visited em with
        | error e => rfl
        | ok svem =>
          show Option.map Prod.fst
              (match processDirection f g (fIdx.of_target xq.1) (gIdx.of_target xq.2)
                  xq.1 xq.2 svem.1 svem.2.1 svem.2.2 with
                | Except.error e => some (Except.error e, tr ++ [xq.1])
                | Except.ok svem2 =>
                  searchLoopT f g fIdx gIdx fuel svem2.1 svem2.2.1
                    (nm.set xq.1 (some xq.2)) svem2.2.2 (tr ++ [xq.1])) =
            match processDirection f g (fIdx.of_target xq.1) (gIdx.of_target xq.2)
                xq.1 xq.2 svem.1 svem.2.1 svem.2.2 with
              | Except.error e => some (Except.error e)
              | Except.ok svem2 =>
                searchLoop f g fIdx gIdx fuel svem2.1 svem2.2.1
                  (nm.set xq.1 (some xq.2)) svem2.2.2
          cases h2 : processDirection f g (fIdx.of_target xq.1) (gIdx.of_target xq.2)
              xq.1 xq.2 svem.1 svem.2.1 svem.2.2 with
          | error e => rfl
          | ok svem2 =>
            exact ih svem2.1 svem2.2.1 (nm.set xq.1 (some xq.2)) svem2.2.2
              (tr ++ [xq.1])
      · simp only [if_pos hlab]
        rfl

theorem nodup_append_single {tr : List Nat} {x : Nat} (h : tr.Nodup)
    (hx : x ∉ tr) : (tr ++ [x]).Nodup := by
  rw [List.nodup_append]
  exact ⟨h, List.nodup_singleton x,
    fun a ha hb => hx (by rwa [List.mem_singleton.1 hb] at ha)⟩

theorem getD_adj_bounds {f : OpenHypergraph O A} (hwf : WF f) (e : Nat) :
    ∀ y ∈ (f.hypergraph.adjacency.getD e ⟨[], []⟩).sources ++
        (f.hypergraph.adjacency.getD e ⟨[], []⟩).targets,
      y < f.hypergraph.nodes.length := by
  intro y hy
  cases hg : f.hypergraph.adjacency.get? e with
  | none =>
    have hd : f.hypergraph.adjacency.getD e ⟨[], []⟩ = ⟨[], []⟩ := by
      rw [List.getD_eq_getElem?_getD, ← List.get?_eq_getElem?, hg]
      rfl
    rw [hd] at hy
    cases hy
  | some adj =>
    rw [getD_adj_of_get? hg] at hy
    rcases List.mem_append.1 hy with h | h
    · exact (hwf.2.1 adj (List.get?_mem hg)).1 y h
    · exact (hwf.2.1 adj (List.get?_mem hg)).2 y h

theorem pushPairs_nodup_inv :
    ∀ (pairs stack : List (Nat × Nat)) (visited : List Bool) (tr : List Nat) (n : Nat),
      visited.length = n →
      (∀ xy ∈ pairs, xy.1 < n) →
      (stack.map Prod.fst).Nodup →
      (∀ pr ∈ stack, pr.1 < n ∧ visited.getD pr.1 false = true) →
      (∀ x ∈ tr, visited.getD x false = true) →
      (∀ x ∈ tr, x ∉ stack.map Prod.fst) →
      (((pushPairs stack visited pairs).1.map Prod.fst).Nodup ∧
        (∀ pr ∈ (pushPairs stack visited pairs).1, pr.1 < n ∧
          (pushPairs stack visited pairs).2.getD pr.1 false = true) ∧
        (∀ x ∈ tr, (pushPairs stack visited pairs).2.getD x false = true) ∧
        (∀ x ∈ tr, x ∉ (pushPairs stack visited pairs).1.map Prod.fst)) := by
  intro pairs
  induction pairs with
  | nil =>
    intro stack visited tr n hvl hplt hnd hstk htrv htrs
    exact ⟨hnd, hstk, htrv, htrs⟩
  | cons xy rest ih =>
    intro stack visited tr n hvl hplt hnd hstk htrv htrs
    rw [pushPairs, List.foldl_cons, ← pushPairs]
    by_cases hv : visited.getD xy.1 false = true
    · rw [if_pos hv]
      exact ih stack visited tr n hvl
        (fun q hq => hplt q (List.mem_cons_of_mem xy hq)) hnd hstk htrv htrs
    · rw [if_neg hv]
      have hxlt : xy.1 < n := hplt xy (List.mem_cons_self xy rest)
      have hxset : (visited.set xy.1 true).getD xy.1 false = true :=
        getD_set_self (hvl ▸ hxlt)
      apply ih (xy :: stack) (visited.set xy.1 true) tr n
      · rw [List.length_set]; exact hvl
      · exact fun q hq => hplt q (List.mem_cons_of_mem xy hq)
      · rw [List.map_cons, List.nodup_cons]
        refine ⟨?_, hnd⟩
        intro hc
        rcases List.mem_map.1 hc with ⟨pr, hpr, hpr1⟩
        have hprv := (hstk pr hpr).2
        rw [hpr1] at hprv
        exact hv hprv
      · intro pr hpr
        rcases List.mem_cons.1 hpr with rfl | hpr2
        · exact ⟨hxlt, hxset⟩
        · have h0 := hstk pr hpr2
          refine ⟨h0.1, ?_⟩
          by_cases hix : pr.1 = xy.1
          · rw [hix]; exact hxset
          · rw [getD_set_ne hix]; exact h0.2
      · intro x hx
        by_cases hix : x = xy.1
        · rw [hix]; exact hxset
        · rw [getD_set_ne hix]; exact htrv x hx
      · intro x hx
        rw [List.map_cons]
        intro hc
        rcases List.mem_cons.1 hc with h1 | h1
        · exact hv (h1 ▸ htrv x hx)
        · exact htrs x hx h1

theorem identify_edges_ok [DecidableEq O] [DecidableEq A]
    {f g : OpenHypergraph O A} {stack : List (Nat × Nat)} {visited : List Bool}
    {fe ge : Nat} {sv : List (Nat × Nat) × List Bool}
    (h : identify_edges f g stack visited fe ge = Except.ok sv) :
    sv = pushPairs stack visited
      (((f.hypergraph.adjacency.getD fe ⟨[], []⟩).sources ++
        (f.hypergraph.adjacency.getD fe ⟨[], []⟩).targets).zip
       ((g.hypergraph.adjacency.getD ge ⟨[], []⟩).sources ++
        (g.hypergraph.adjacency.getD ge ⟨[], []⟩).targets)) := by
  rw [identify_edges] at h
  cases he : ensure_same_type f g fe ge with
  | error e => rw [he] at h; exact Except.noConfusion h
  | ok u =>
    rw [he] at h
    exact (Except.ok.inj h).symm

end OpenHypergraphsIso

namespace OpenHypergraphsIso

theorem processDirection_ok_inv [DecidableEq O] [DecidableEq A]
    {f g : OpenHypergraph O A} (hwf : WF f) {fE gE : Option (Nat × Nat)}
    {fn gn : Nat} {stack : List (Nat × Nat)} {visited : List Bool}
    {em : List (Option Nat)}
    {out : List (Nat × Nat) × List Bool × List (Option Nat)} (tr : List Nat)
    (hout : processDirection f g fE gE fn gn stack visited em = Except.ok out)
    (hvl : visited.length = f.hypergraph.nodes.length)
    (hnd : (stack.map Prod.fst).Nodup)
    (hstk : ∀ pr ∈ stack, pr.1 < f.hypergraph.nodes.length ∧
      visited.getD pr.1 false = true)
    (htrv : ∀ x ∈ tr, visited.getD x false = true)
    (htrs : ∀ x ∈ tr, x ∉ stack.map Prod.fst) :
    out.2.1.length = f.hypergraph.nodes.length ∧
    (out.1.map Prod.fst).Nodup ∧
    (∀ pr ∈ out.1, pr.1 < f.hypergraph.nodes.length ∧
      out.2.1.getD pr.1 false = true) ∧
    (∀ x ∈ tr, out.2.1.getD x false = true) ∧
    (∀ x ∈ tr, x ∉ out.1.map Prod.fst) := by
  rw [processDirection.eq_def] at hout
  cases fE with
  | none =>
    cases hout
    exact ⟨hvl, hnd, hstk, htrv, htrs⟩
  | some fe =>
    cases gE with
    | none => exact Except.noConfusion hout
    | some ge =>
      have hout2 : (if ¬ fe.2 = ge.2 then
            (Except.error (Error.InvalidNodeMatch fn gn) :
              Except Error (List (Nat × Nat) × List Bool × List (Option Nat)))
          else match identify_edges f g stack visited fe.1 ge.1 with
            | Except.error e => Except.error e
            | Except.ok sv => Except.ok (sv.1, sv.2, em.set fe.1 (some ge.1))) =
          Except.ok out := hout
      by_cases hp : fe.2 = ge.2
      · rw [if_neg (not_not_intro hp)] at hout2
        cases hie : identify_edges f g stack visited fe.1 ge.1 with
        | error e => rw [hie] at hout2; exact Except.noConfusion hout2
        | ok sv =>
          rw [hie] at hout2
          have hsv := identify_edges_ok hie
          cases hout2
          have hplt : ∀ xy ∈
              (((f.hypergraph.adjacency.getD fe.1 ⟨[], []⟩).sources ++
                (f.hypergraph.adjacency.getD fe.1 ⟨[], []⟩).targets).zip
               ((g.hypergraph.adjacency.getD ge.1 ⟨[], []⟩).sources ++
                (g.hypergraph.adjacency.getD ge.1 ⟨[], []⟩).targets)),
              xy.1 < f.hypergraph.nodes.length := by
            intro xy hxy
            cases xy with
            | mk a b =>
              exact getD_adj_bounds hwf fe.1 a (List.mem_zip hxy).1
          obtain ⟨c1, c2, c3, c4⟩ := pushPairs_nodup_inv _ stack visited tr
            f.hypergraph.nodes.length hvl hplt hnd hstk htrv htrs
          rw [hsv]
          exact ⟨by rw [pushPairs_vlen]; exact hvl, c1, c2, c3, c4⟩
      · rw [if_pos hp] at hout2
        exact Except.noConfusion hout2

theorem searchLoopT_nodup [DecidableEq O] [DecidableEq A]
    {f g : OpenHypergraph O A} (gIdx : Index) (hwf : WF f) :
    ∀ (fuel : Nat) (stack : List (Nat × Nat)) (visited : List Bool)
      (nm em : List (Option Nat)) (tr : List Nat)
      (res : Except Error (List (Option Nat) × List (Option Nat)) × List Nat),
      visited.length = f.hypergraph.nodes.length →
      (stack.map Prod.fst).Nodup →
      (∀ pr ∈ stack, pr.1 < f.hypergraph.nodes.length ∧
        visited.getD pr.1 false = true) →
      tr.Nodup →
      (∀ x ∈ tr, visited.getD x false = true) →
      (∀ x ∈ tr, x ∉ stack.map Prod.fst) →
      searchLoopT f g (Index.new f.hypergraph) gIdx fuel stack visited nm em tr =
        some res →
      res.2.Nodup := by
  intro fuel
  induction fuel with
  | zero =>
    intro stack visited nm em tr res hvl hnd hstk htr htrv htrs hres
    cases stack with
    | nil =>
      cases hres
      exact htr
    | cons a s => exact Option.noConfusion hres
  | succ fuel ih =>
    intro stack visited nm em tr res hvl hnd hstk htr htrv htrs hres
    cases stack with
    | nil =>
      cases hres
      exact htr
    | cons xq stack2 =>
      have hin := hstk xq (List.mem_cons_self xq stack2)
      have hxnotin : xq.1 ∉ stack2.map Prod.fst := by
        rw [List.map_cons, List.nodup_cons] at hnd
        exact hnd.1
      have hnd2 : (stack2.map Prod.fst).Nodup := by
        rw [List.map_cons, List.nodup_cons] at hnd
        exact hnd.2
      have hstk2 : ∀ pr ∈ stack2, pr.1 < f.hypergraph.nodes.length ∧
          visited.getD pr.1 false = true :=
        fun pr hpr => hstk pr (List.mem_cons_of_mem xq hpr)
      have hxtr : xq.1 ∉ tr := by
        intro hc
        exact htrs xq.1 hc (List.mem_map_of_mem Prod.fst (List.mem_cons_self xq stack2))
      have htr2 : (tr ++ [xq.1]).Nodup := nodup_append_single htr hxtr
      have htrv2 : ∀ x ∈ tr ++ [xq.1], visited.getD x false = true := by
        intro x hx
        rcases List.mem_append.1 hx with h | h
        · exact htrv x h
        · rw [List.mem_singleton.1 h]
          exact hin.2
      have htrs2 : ∀ x ∈ tr ++ [xq.1], x ∉ stack2.map Prod.fst := by
        intro x hx
        rcases List.mem_append.1 hx with h | h
        · intro hc
          exact htrs x h (List.mem_cons_of_mem _ hc)
        · rw [List.mem_singleton.1 h]
          exact hxnotin
      rw [searchLoopT] at hres
      by_cases hlab : f.hypergraph.nodes.get? xq.1 = g.hypergraph.nodes.get? xq.2
      · rw [if_neg (not_not_intro hlab)] at hres
        cases h1 : processDirection f g ((Index.new f.hypergraph).of_source xq.1)
            (gIdx.of_source xq.2) xq.1 xq.2 stack2 visited em with
        | error e =>
          rw [h1] at hres
          cases hres
          exact htr2
        | ok svem =>
          rw [h1] at hres
          have D1 := processDirection_ok_inv hwf (tr ++ [xq.1]) h1 hvl hnd2 hstk2
            htrv2 htrs2
          have hres2 : (match processDirection f g
              ((Index.new f.hypergraph).of_target xq.1) (gIdx.of_target xq.2)
              xq.1 xq.2 svem.1 svem.2.1 svem.2.2 with
            | Except.error e => some (Except.error e, tr ++ [xq.1])
            | Except.ok svem2 =>
              searchLoopT f g (Index.new f.hypergraph) gIdx fuel svem2.1 svem2.2.1
                (nm.set xq.1 (some xq.2)) svem2.2.2 (tr ++ [xq.1])) = some res := hres
          cases h2 : processDirection f g ((Index.new f.hypergraph).of_target xq.1)
              (gIdx.of_target xq.2) xq.1 xq.2 svem.1 svem.2.1 svem.2.2 with
          | error e =>
            rw [h2] at hres2
            cases hres2
            exact htr2
          | ok svem2 =>
            rw [h2] at hres2
            have D2 := processDirection_ok_inv hwf (tr ++ [xq.1]) h2 D1.1 D1.2.1
              D1.2.2.1 D1.2.2.2.1 D1.2.2.2.2
            exact ih svem2.1 svem2.2.1 (nm.set xq.1 (some xq.2)) svem2.2.2
              (tr ++ [xq.1]) res D2.1 D2.2.1 D2.2.2.1 htr2 D2.2.2.2.1 D2.2.2.2.2
              hres2
      · rw [if_pos hlab] at hres
        cases hres
        exact htr2

end OpenHypergraphsIso

namespace OpenHypergraphsIso

/-- C6 (counterexample): in the run of `find_isomorphism(fFreeNode, gCollapse)`
node 2 of `f` — seeded twice by the interface zipping — is popped and
processed twice (its trace count is 2), and popping the same seeded pairs in
the opposite order changes the final mappings (`InvalidNodePermutation`-bound
`[0, 1, 0]` versus the bijection `[0, 1, 2]`): the worklist order is not
immaterial. -/
theorem c6_worklist_counterexample :
    ((searchLoopT fFreeNode gCollapse (Index.new fFreeNode.hypergraph)
        (Index.new gCollapse.hypergraph) 7 (initialStack fFreeNode gCollapse)
        (initialVisited fFreeNode) (List.replicate 3 none)
        (List.replicate 1 none) []).map (fun r => r.2)) = some [2, 1, 2, 0] ∧
    ((searchLoopT fFreeNode gCollapse (Index.new fFreeNode.hypergraph)
        (Index.new gCollapse.hypergraph) 7 (initialStack fFreeNode gCollapse)
        (initialVisited fFreeNode) (List.replicate 3 none)
        (List.replicate 1 none) []).map Prod.fst) =
      searchLoop fFreeNode gCollapse (Index.new fFreeNode.hypergraph)
        (Index.new gCollapse.hypergraph) 7 (initialStack fFreeNode gCollapse)
        (initialVisited fFreeNode) (List.replicate 3 none)
        (List.replicate 1 none) ∧
    searchLoop fFreeNode gCollapse (Index.new fFreeNode.hypergraph)
        (Index.new gCollapse.hypergraph) 7 (initialStack fFreeNode gCollapse)
        (initialVisited fFreeNode) (List.replicate 3 none)
        (List.replicate 1 none) ≠
      searchLoop fFreeNode gCollapse (Index.new fFreeNode.hypergraph)
        (Index.new gCollapse.hypergraph) 7
        ((initialStack fFreeNode gCollapse).reverse)
        (initialVisited fFreeNode) (List.replicate 3 none)
        (List.replicate 1 none) :=
  ⟨by decide, by decide, by decide⟩

/-- C6 (corrected): the popped-node trace of the main loop (observed through
`searchLoopT`, whose first projection is exactly `searchLoop`) has no
duplicates — each node of `f` is popped and processed at most once — *provided*
the interface seeding itself contains no duplicated `f`-node.  Without that
proviso a node seeded twice is processed twice, and the final mappings do
depend on the pop order (see the counterexample). -/
theorem c6_worklist_corrected [DecidableEq O] [DecidableEq A]
    {f g : OpenHypergraph O A} {fuel : Nat} {nm em : List (Option Nat)}
    {res : Except Error (List (Option Nat) × List (Option Nat)) × List Nat}
    (hwf : WF f) (hnd : ((initialStack f g).map Prod.fst).Nodup)
    (hres : searchLoopT f g (Index.new f.hypergraph) (Index.new g.hypergraph)
      fuel (initialStack f g) (initialVisited f) nm em [] = some res) :
    (searchLoopT f g (Index.new f.hypergraph) (Index.new g.hypergraph) fuel
        (initialStack f g) (initialVisited f) nm em []).map Prod.fst =
      searchLoop f g (Index.new f.hypergraph) (Index.new g.hypergraph) fuel
        (initialStack f g) (initialVisited f) nm em ∧
    res.2.Nodup := by
  refine ⟨searchLoopT_fst f g _ _ fuel (initialStack f g) (initialVisited f)
    nm em [], ?_⟩
  have hstk : ∀ pr ∈ initialStack f g, pr.1 < f.hypergraph.nodes.length ∧
      (initialVisited f).getD pr.1 false = true := by
    intro pr hpr
    have hmem : pr.1 ∈ f.sources ++ f.targets := by
      rw [initialStack, List.mem_reverse] at hpr
      cases pr with
      | mk a b =>
        rcases List.mem_append.1 hpr with h2 | h2
        · exact List.mem_append.2 (Or.inl (List.mem_zip h2).1)
        · exact List.mem_append.2 (Or.inr (List.mem_zip h2).1)
    have hlt : pr.1 < f.hypergraph.nodes.length := by
      rcases List.mem_append.1 hmem with h | h
      · exact hwf.2.2.1 pr.1 h
      · exact hwf.2.2.2 pr.1 h
    exact ⟨hlt, (initialVisited_getD_iff f pr.1).2 ⟨hmem, hlt⟩⟩
  exact searchLoopT_nodup (Index.new g.hypergraph) hwf fuel (initialStack f g)
    (initialVisited f) nm em [] res (initialVisited_length f) hnd hstk
    List.nodup_nil (fun x hx => absurd hx (List.not_mem_nil x))
    (fun x hx => absurd hx (List.not_mem_nil x)) hres

theorem c6_worklist_corrected_witness :
    (searchLoopT edgeC1 edgeC1 (Index.new edgeC1.hypergraph)
        (Index.new edgeC1.hypergraph) 5 (initialStack edgeC1 edgeC1)
        (initialVisited edgeC1) (List.replicate 2 none)
        (List.replicate 1 none) []).map Prod.fst =
      searchLoop edgeC1 edgeC1 (Index.new edgeC1.hypergraph)
        (Index.new edgeC1.hypergraph) 5 (initialStack edgeC1 edgeC1)
        (initialVisited edgeC1) (List.replicate 2 none)
        (List.replicate 1 none) ∧
    ((Except.ok ([some 0, some 1], [some 0]) :
        Except Error (List (Option Nat) × List (Option Nat))),
      ([1, 0] : List Nat)).2.Nodup :=
  c6_worklist_corrected (by decide) (by decide) (by decide)

end OpenHypergraphsIso
